import Mathlib

/-!
# Verification of the rjs runtime core against its specification

This file gives a shallow embedding, in Lean 4, of the parts of the rjs
JavaScript runtime that the specification's claims talk about:

* the GC heap's `alloc_raw` retry logic (`src/gc/mod.rs`),
* local scopes: slot-vector growth, the root walker, and LIFO scope
  destruction (`src/gc/mod.rs`),
* the scope-chain object `JsScope` (`src/rt/scope.rs`),
* the argument frame `JsArgs` (`src/rt/mod.rs`),
* the default `JsItem::put` trait method (`src/rt/mod.rs`),
* the open-addressed property hash store (`src/rt/hash.rs`).

Machine integers are modelled as `Nat` with explicit `% 2^32` where u32
overflow matters.  Heap values (`JsValue`) are kept abstract to all of the code
modelled here, so the development is parameterised by a value type `V`
together with the distinguished undefined value; theorems about concrete
stores instantiate `V := Nat` with `0` as undefined.
-/

namespace Rjs


/-! ## C4: GcHeap::alloc_raw (src/gc/mod.rs lines 278-294)

The bump allocator itself lives in the `strategy` module (the `Copying`
struct), whose source is not part of this tree.  We therefore model it
abstractly: `allocF : σ → Option Nat` is the semispace bump allocation on
an abstract heap state (`none` models a null return on overflow, `some p`
a non-null pointer), and `gcF : σ → σ` is a collection cycle.
`GcHeap::alloc_raw` itself is transcribed verbatim. -/

/-- Size in bytes of `GcMemHeader` (one `usize` word on a 64-bit target). -/
def gcMemHeaderSize : Nat := 8

/-- Outcome of `GcHeap::alloc_raw`: either a returned pointer together with
the number of collection cycles that ran, or the fatal
`could not allocate memory after GC` panic (also tagged with the number of
collections that ran before it). -/
inductive AllocOutcome (σ : Type) where
  | ok (ptr : Nat) (state : σ) (gcRuns : Nat)
  | allocationFailed (state : σ) (gcRuns : Nat)
deriving DecidableEq

/-- `GcHeap::alloc_raw` (src/gc/mod.rs lines 278-294): try the bump
allocation once; on a null result run `gc()` and retry once; a second null
result is the fatal allocation-failure panic.  On success the returned
address points just past the object header.  The trailing
`if ptr.is_null() { ptr } else { ptr.offset(..) }` of the source is
transcribed too; its null branch is dead because the panic already fired. -/
def gcHeapAllocRaw {σ : Type} (allocF : σ → Option Nat) (gcF : σ → σ)
    (s : σ) : AllocOutcome σ :=
  match allocF s with
  | some p => .ok (p + gcMemHeaderSize) s 0
  | none =>
      let s2 := gcF s
      match allocF s2 with
      | some p => .ok (p + gcMemHeaderSize) s2 1
      | none => .allocationFailed s2 1

/-! ## C7: GcHeap::drop_current_scope (src/gc/mod.rs lines 444-452)

`new_local_scope` pushes a fresh `LocalScopeData` and hands back a
`LocalScope` carrying `index = scopes.len()` at creation time.  Dropping
the handle calls `drop_current_scope(index)`, which panics unless the
scope is the top of the stack and otherwise pops it.  We model the scope
stack as a list (index 0 = oldest scope). -/

/-- Internal fatal errors of the scope machinery. -/
inductive ScopeFatal where
  | scopeOrderViolation
deriving DecidableEq

/-- `GcHeap::drop_current_scope` (src/gc/mod.rs lines 444-452): panics with
`local scopes must be destoryed in the order they are created` unless
`scopes.len() == index + 1`, then pops the top scope. -/
def dropCurrentScope {α : Type} (scopes : List α) (index : Nat) :
    Except ScopeFatal (List α) :=
  if scopes.length ≠ index + 1 then
    .error .scopeOrderViolation
  else
    .ok scopes.dropLast

/-! ## C8: JsScope (src/rt/scope.rs)

A `JsScope` owns a GC array `items : Array<JsValue>`.  `new_local_thin(n,
parent)` allocates `n + 1` slots (a fresh GC array is zero-filled, i.e.
every slot is the undefined value) and stores the parent in slot 0 when
present.  `new_local_thick(scope_obj, parent, arguments)` allocates 2 or 3
slots.  `set_arguments` panics with
`scope does not have a slot to store arguments` when the item array has
length 2, and otherwise writes slot 2; indexing the `Array<JsValue>` slice
out of bounds is a Rust bounds-check panic. -/

/-- Panics that `JsScope::set_arguments` can raise: the explicit
`BadScopeSlot` panic, or the slice bounds-check panic on `items[2]`. -/
inductive ScopePanic where
  | badScopeSlot
  | indexOutOfBounds
deriving DecidableEq

/-- A `JsScope`, reduced to its item array (`src/rt/scope.rs` line 5). -/
structure JsScopeM (V : Type) where
  items : List V
deriving DecidableEq

/-- `JsScope::new_local_thin` (src/rt/scope.rs lines 10-22): `size + 1`
zero-initialised (undefined) slots, slot 0 set to the parent if given. -/
def JsScopeM.newLocalThin {V : Type} (undef : V) (size : Nat)
    (parent : Option V) : JsScopeM V :=
  let items := List.replicate (size + 1) undef
  match parent with
  | some p => ⟨items.set 0 p⟩
  | none => ⟨items⟩

/-- `JsScope::new_local_thick` (src/rt/scope.rs lines 24-39): `2` or `3`
slots, slot 0 = parent when given, slot 1 = scope object. -/
def JsScopeM.newLocalThick {V : Type} (undef : V) (scopeObject : V)
    (parent : Option V) (arguments : Bool) : JsScopeM V :=
  let size := 2 + if arguments then 1 else 0
  let items := List.replicate size undef
  let items := match parent with
  | some p => items.set 0 p
  | none => items
  ⟨items.set 1 scopeObject⟩

/-- `JsScope::set_arguments` (src/rt/scope.rs lines 65-71): panic when the
item array has exactly two slots, otherwise write slot 2 (`raw_set(2, _)`,
which bounds-checks the slice index). -/
def JsScopeM.setArguments {V : Type} (s : JsScopeM V) (arguments : V) :
    Except ScopePanic (JsScopeM V) :=
  if s.items.length = 2 then
    .error .badScopeSlot
  else if 2 < s.items.length then
    .ok ⟨s.items.set 2 arguments⟩
  else
    .error .indexOutOfBounds

/-! ## C10: JsArgs::arg (src/rt/mod.rs lines 759-789)

`JsArgs::new` creates a stack frame and pushes the receiver (`this`), the
callee (`function`) and then each argument, recording `argc = args.len()`.
The `stack` module itself is not part of this tree; modelled from the
spec: a stack frame is the list of values pushed after `create_frame`, and
`StackFrame::get(env, i)` reads the i-th of them.  So the frame list is
`[this, function] ++ args`. -/

/-- An argument frame: the pushed frame values plus the recorded argument
count, as built by `JsArgs::new` (src/rt/mod.rs lines 765-781). -/
structure JsArgsM (V : Type) where
  frame : List V
  argc : Nat
deriving DecidableEq

/-- `JsArgs::new` (src/rt/mod.rs lines 765-781). -/
def JsArgsM.new {V : Type} (function this : V) (args : List V) : JsArgsM V :=
  ⟨this :: function :: args, args.length⟩

/-- `JsArgs::arg` (src/rt/mod.rs lines 783-789): frame slot `index + 2`
when `argc > index`, otherwise a fresh undefined.  `frame.get` is
modelled from the spec as indexing the pushed frame; the `getD` default is
unreachable for frames built by `JsArgs::new`. -/
def JsArgsM.arg {V : Type} (undef : V) (a : JsArgsM V) (index : Nat) : V :=
  if a.argc > index then
    a.frame.getD (index + 2) undef
  else
    undef

/-! ## Property descriptors (src/rt/mod.rs lines 502-708)

`JsDescriptor` carries optional value/get/set and the three optional
attribute booleans.  Values are kept abstract here, hence the parameter `V`. -/

/-- `JsDescriptor` (src/rt/mod.rs lines 502-510). -/
structure JsDescriptor (V : Type) where
  value : Option V
  get : Option V
  set : Option V
  writable : Option Bool
  enumerable : Option Bool
  configurable : Option Bool
deriving DecidableEq

namespace JsDescriptor

/-- `JsDescriptor::default` (src/rt/mod.rs lines 513-522). -/
def default (V : Type) : JsDescriptor V :=
  ⟨none, none, none, none, none, none⟩

/-- `JsDescriptor::new_value` (src/rt/mod.rs lines 524-533). -/
def newValue {V : Type} (value : V) (writable enumerable configurable : Bool) :
    JsDescriptor V :=
  ⟨some value, none, none, some writable, some enumerable, some configurable⟩

/-- `JsDescriptor::new_simple_value` (src/rt/mod.rs lines 535-537). -/
def newSimpleValue {V : Type} (value : V) : JsDescriptor V :=
  newValue value true true true

/-- `JsDescriptor::is_accessor` (8.10.1, src/rt/mod.rs lines 568-570). -/
def isAccessor {V : Type} (d : JsDescriptor V) : Bool :=
  d.get.isSome || d.set.isSome

/-- `JsDescriptor::is_data` (8.10.2, src/rt/mod.rs lines 573-575). -/
def isData {V : Type} (d : JsDescriptor V) : Bool :=
  d.writable.isSome || d.value.isSome

/-- `JsDescriptor::set(env)` (src/rt/mod.rs lines 590-592): the setter or
undefined. -/
def setOrUndef {V : Type} (undef : V) (d : JsDescriptor V) : V :=
  d.set.getD undef

end JsDescriptor

/-! ## C3: the default JsItem::put (src/rt/mod.rs lines 290-328)

`put` is a default trait method; the methods it calls (`class`, `can_put`,
`get_own_property`, `get_property`, `define_own_property`, the accessor
setter call) may be overridden per type, so they are abstracted into a
record of functions.  `define_own_property` and the setter invocation are
mutations/calls on the callee and are recorded as emitted effects.
`Name::is_index` lives in the `syntax` crate (not part of this tree) and is
kept abstract as a predicate on interned names. -/

/-- The object methods consulted by the default `JsItem::put`. -/
structure JsItemOps (V : Type) where
  classOf : Option Nat
  canPut : Nat → Bool
  getOwnProperty : Nat → Option (JsDescriptor V)
  getProperty : Nat → Option (JsDescriptor V)

/-- Errors raised directly by the default `JsItem::put`. -/
inductive PutError where
  | typeCannotPut
deriving DecidableEq

/-- Mutating / calling steps the default `JsItem::put` hands off to the
object: a `define_own_property` request or an accessor-setter call. -/
inductive PutEffect (V : Type) where
  | defineOwnProperty (property : Nat) (descriptor : JsDescriptor V) (throw : Bool)
  | callSetter (setter : V) (value : V)
deriving DecidableEq

/-- The default `JsItem::put` (8.12.5, src/rt/mod.rs lines 290-328),
transcribed: the `can_put` gate is skipped when the class is `Array` and
the property name is index-typed (the in-source BUG #18 deviation);
otherwise a failed `can_put` returns `CannotPut` when `throw` and a silent
`Ok` otherwise.  Then: an own data property gets a value-only
`define_own_property`; else an inherited accessor's setter is invoked;
else a simple value `define_own_property`. -/
def jsItemPut {V : Type} (arrayClass : Nat) (isIndex : Nat → Bool)
    (undef : V) (ops : JsItemOps V) (property : Nat) (value : V)
    (throw : Bool) : Except PutError (List (PutEffect V)) :=
  if ops.classOf ≠ some arrayClass ∨ ¬ isIndex property then
    if ¬ ops.canPut property then
      if throw then .error .typeCannotPut else .ok []
    else
      jsItemPutBody arrayClass isIndex undef ops property value throw
  else
    jsItemPutBody arrayClass isIndex undef ops property value throw
where
  /-- The part of `put` after the `can_put` gate (src/rt/mod.rs lines
  305-327). -/
  jsItemPutBody (_arrayClass : Nat) (_isIndex : Nat → Bool) (undef : V)
      (ops : JsItemOps V) (property : Nat) (value : V) (throw : Bool) :
      Except PutError (List (PutEffect V)) :=
    match ops.getOwnProperty property with
    | some ownDesc =>
        if ownDesc.isData then
          .ok [.defineOwnProperty property
            { JsDescriptor.default V with value := some value } throw]
        else
          jsItemPutTail undef ops property value throw
    | none => jsItemPutTail undef ops property value throw
  /-- The accessor / fresh-property tail of `put` (src/rt/mod.rs lines
  317-327). -/
  jsItemPutTail (undef : V) (ops : JsItemOps V) (property : Nat) (value : V)
      (throw : Bool) : Except PutError (List (PutEffect V)) :=
    match ops.getProperty property with
    | some desc =>
        if desc.isAccessor then
          .ok [.callSetter (desc.setOrUndef undef) value]
        else
          .ok [.defineOwnProperty property (JsDescriptor.newSimpleValue value) throw]
    | none =>
        .ok [.defineOwnProperty property (JsDescriptor.newSimpleValue value) throw]

/-! ## C6: local-scope slot vectors and the scopes root walker
(src/gc/mod.rs lines 66-96 and 496-550)

A `LocalScopeData` owns a current `Vec<ptr_t>` plus the history of
previously grown vectors.  A `Local` handle stores the address of its slot
(`&current[index]`), which stays valid because a Rust `Vec` moved by value
keeps its backing buffer: we model a buffer by a stable identifier, so a
slot address is the pair (buffer id, slot index).  `grow` swaps in a fresh
vector of doubled capacity and pushes the old one onto `handles`.  Fresh
buffers get a new id from a counter carried alongside (modelling that a
newly allocated buffer is at a distinct address). -/

/-- A `Vec<ptr_t>`: stable buffer identity, contents, and capacity. -/
structure GcVec where
  id : Nat
  data : List Nat
  cap : Nat
deriving DecidableEq

instance : Inhabited GcVec := ⟨⟨0, [], 0⟩⟩

/-- A slot address: (buffer id, index) — the stable pointer handed to a
`Local`. -/
abbrev SlotAddr := Nat × Nat

/-- `LocalScopeData` (src/gc/mod.rs lines 66-69) plus the fresh-buffer-id
counter used to model allocation of new backing buffers. -/
structure LocalScopeDataM where
  current : GcVec
  handles : List GcVec
  nextId : Nat
deriving DecidableEq

instance : Inhabited LocalScopeDataM := ⟨⟨default, [], 0⟩⟩

namespace LocalScopeDataM

/-- `LocalScopeData::grow` (src/gc/mod.rs lines 91-95): a fresh vector of
doubled capacity is swapped in as current; the old current is pushed onto
the history list unchanged. -/
def grow (sd : LocalScopeDataM) : LocalScopeDataM :=
  { current := ⟨sd.nextId, [], sd.current.cap * 2⟩,
    handles := sd.handles ++ [sd.current],
    nextId := sd.nextId + 1 }

/-- `LocalScopeData::add` (src/gc/mod.rs lines 79-89): grow when the
current vector is at capacity, push the pointer, and return the address of
the new slot. -/
def add (sd : LocalScopeDataM) (ptr : Nat) : LocalScopeDataM × SlotAddr :=
  let sd := if sd.current.data.length = sd.current.cap then sd.grow else sd
  let index := sd.current.data.length
  ({ sd with current := { sd.current with data := sd.current.data ++ [ptr] } },
    (sd.current.id, index))

/-- Dereference a slot address through a scope's vectors (current first,
then history), as a `Local` handle's stable pointer does. -/
def resolve (sd : LocalScopeDataM) (a : SlotAddr) : Option Nat :=
  match (sd.current :: sd.handles).find? (fun w => w.id = a.1) with
  | some w => w.data[a.2]?
  | none => none

/-- Buffer ids of a scope are pairwise distinct and below the fresh-id
counter (fresh buffers are at fresh addresses). -/
def IdsOk (sd : LocalScopeDataM) : Prop :=
  ((sd.current :: sd.handles).map GcVec.id).Nodup ∧
    ∀ w ∈ sd.current :: sd.handles, w.id < sd.nextId

end LocalScopeDataM

/-- Walker cursor (src/gc/mod.rs lines 496-504): scope index, vector index
(0 = current, k = handles[k-1]) and slot index. -/
structure WalkerState where
  scope : Nat
  vec : Nat
  index : Nat
deriving DecidableEq

/-- The vector the walker cursor (scope s, vec v) designates: the current
vector for `v = 0`, else `handles[v - 1]` (src/gc/mod.rs lines 529-533). -/
def walkerVec (scopes : List LocalScopeDataM) (s v : Nat) : GcVec :=
  if v = 0 then (scopes.getD s default).current
  else (scopes.getD s default).handles.getD (v - 1) default

/-- `LocalScopesWalker::next` (src/gc/mod.rs lines 506-550): skip past
finished scopes and vectors, yield the address of the next slot.  The
source's `scopes[self.scope]` (guarded by the assert) is rendered as
`getD`. -/
def walkerNext (scopes : List LocalScopeDataM) (st : WalkerState) :
    Option (SlotAddr × WalkerState) :=
  if h : st.scope < scopes.length then
    if hv : st.vec > (scopes.getD st.scope default).handles.length then
      walkerNext scopes ⟨st.scope + 1, 0, st.index⟩
    else
      if st.index ≥ (walkerVec scopes st.scope st.vec).data.length then
        walkerNext scopes ⟨st.scope, st.vec + 1, 0⟩
      else
        some (((walkerVec scopes st.scope st.vec).id, st.index),
          ⟨st.scope, st.vec, st.index + 1⟩)
  else
    none
termination_by (scopes.length - st.scope,
  (scopes.getD st.scope default).handles.length + 1 - st.vec)
decreasing_by
  · exact Prod.Lex.left _ _ (by omega)
  · exact Prod.Lex.right _ (by omega)

/-- Run the walker, collecting every yielded slot address.  Each yielded
address consumes one unit of fuel, so any fuel bound of at least the total
number of slots is exact. -/
def walkerRun (scopes : List LocalScopeDataM) : Nat → WalkerState → List SlotAddr
  | 0, _ => []
  | fuel + 1, st =>
      match walkerNext scopes st with
      | none => []
      | some (a, st2) => a :: walkerRun scopes fuel st2

/-- The addresses of all slots of one vector. -/
def vecAddrs (w : GcVec) : List SlotAddr :=
  (List.range w.data.length).map (fun j => (w.id, j))

/-- The addresses of all slots of all vectors of all scopes, in walker
order: per scope, the current vector first, then the history vectors. -/
def allAddrs (scopes : List LocalScopeDataM) : List SlotAddr :=
  scopes.flatMap (fun sc => (sc.current :: sc.handles).flatMap vecAddrs)

/-- The full stream of slot addresses the walker will yield from a given
cursor, defined by the same case analysis and measure as `walkerNext`. -/
def walkerExpected (scopes : List LocalScopeDataM) (st : WalkerState) :
    List SlotAddr :=
  if _h : st.scope < scopes.length then
    if hv : st.vec > (scopes.getD st.scope default).handles.length then
      walkerExpected scopes ⟨st.scope + 1, 0, st.index⟩
    else
      if st.index ≥ (walkerVec scopes st.scope st.vec).data.length then
        walkerExpected scopes ⟨st.scope, st.vec + 1, 0⟩
      else
        ((List.range (walkerVec scopes st.scope st.vec).data.length).drop st.index).map
          (fun j => ((walkerVec scopes st.scope st.vec).id, j)) ++
        walkerExpected scopes ⟨st.scope, st.vec + 1, 0⟩
  else []
termination_by (scopes.length - st.scope,
  (scopes.getD st.scope default).handles.length + 1 - st.vec)
decreasing_by
  · exact Prod.Lex.left _ _ (by omega)
  · exact Prod.Lex.right _ (by omega)
  · exact Prod.Lex.right _ (by omega)

/-! ## The property hash store (src/rt/hash.rs)

An open-addressed table of `Entry` slots with per-bucket chains threaded
through `next` fields.  `u32` arithmetic (`count`, the hash, the load
factor) is modelled as `Nat` reduced `% 2^32`; `count -= 1` is u32
wrapping subtraction.  The unbounded source loops (`find_entry`'s chain
walk, `remove`'s walk, the chain-tail walk and the free-slot scan of
`add`) are given `capacity + 1` fuel: on every store whose chains are
duplicate-free — an invariant of all reachable stores, proved below —
this bound is never hit, and running out of fuel (or an out-of-bounds
slot index, a Rust panic) is reported as `stuck`.  A fresh GC array is
zero-filled, so a fresh slot is `name 0, flags 0, next 0`. -/

/-- Decidable equality of `Except` results, for concrete evaluation. -/
instance {ε α : Type} [DecidableEq ε] [DecidableEq α] :
    DecidableEq (Except ε α) := fun a b =>
  match a, b with
  | .error x, .error y =>
      if h : x = y then isTrue (by rw [h])
      else isFalse (by intro hc; cases hc; exact h rfl)
  | .ok x, .ok y =>
      if h : x = y then isTrue (by rw [h])
      else isFalse (by intro hc; cases hc; exact h rfl)
  | .error _, .ok _ => isFalse (by intro hc; cases hc)
  | .ok _, .error _ => isFalse (by intro hc; cases hc)

def U32 : Nat := 4294967296

/-- Attribute bits (src/rt/hash.rs lines 6-10). -/
def FLAG_VALID : Nat := 1
def FLAG_WRITABLE : Nat := 2
def FLAG_ENUMERABLE : Nat := 4
def FLAG_CONFIGURABLE : Nat := 8
def FLAG_ACCESSOR : Nat := 16

/-- A hash-store slot (src/rt/hash.rs lines 12-19). -/
structure Entry (V : Type) where
  name : Nat
  flags : Nat
  next : Int
  value1 : V
  value2 : V
deriving DecidableEq

/-- `Entry::is_valid` (src/rt/hash.rs lines 22-24). -/
def Entry.isValid {V : Type} (e : Entry V) : Bool :=
  e.flags &&& FLAG_VALID != 0

/-- `Entry::as_property` (src/rt/hash.rs lines 26-46). -/
def Entry.asProperty {V : Type} (e : Entry V) : JsDescriptor V :=
  if e.flags &&& FLAG_ACCESSOR != 0 then
    { value := none, get := some e.value1, set := some e.value2,
      writable := none,
      enumerable := some (e.flags &&& FLAG_ENUMERABLE != 0),
      configurable := some (e.flags &&& FLAG_CONFIGURABLE != 0) }
  else
    { value := some e.value1, get := none, set := none,
      writable := some (e.flags &&& FLAG_WRITABLE != 0),
      enumerable := some (e.flags &&& FLAG_ENUMERABLE != 0),
      configurable := some (e.flags &&& FLAG_CONFIGURABLE != 0) }

/-- `Entry::from_descriptor` (src/rt/hash.rs lines 49-86). -/
def Entry.fromDescriptor {V : Type} (u : V) (descriptor : JsDescriptor V)
    (name : Nat) (next : Int) : Entry V :=
  let flags := FLAG_VALID |||
    (if descriptor.writable.getD true then FLAG_WRITABLE else 0) |||
    (if descriptor.configurable.getD true then FLAG_CONFIGURABLE else 0) |||
    (if descriptor.enumerable.getD true then FLAG_ENUMERABLE else 0) |||
    (if descriptor.isAccessor then FLAG_ACCESSOR else 0)
  if descriptor.isAccessor then
    ⟨name, flags, next, descriptor.get.getD u, descriptor.set.getD u⟩
  else
    ⟨name, flags, next, descriptor.value.getD u, u⟩

/-- A descriptor with every absent field filled in by
`Entry::from_descriptor`'s defaulting; this is the shape `get_value`
reports after a round trip through the store. -/
def mergeDefaults {V : Type} (u : V) (d : JsDescriptor V) : JsDescriptor V :=
  if d.isAccessor then
    { value := none, get := some (d.get.getD u), set := some (d.set.getD u),
      writable := none, enumerable := some (d.enumerable.getD true),
      configurable := some (d.configurable.getD true) }
  else
    { value := some (d.value.getD u), get := none, set := none,
      writable := some (d.writable.getD true),
      enumerable := some (d.enumerable.getD true),
      configurable := some (d.configurable.getD true) }

/-- The prime table (src/rt/hash.rs lines 371-380). -/
def PRIMES : List Nat :=
  [3, 7, 11, 17, 23, 29, 37, 47, 59, 71, 89, 107, 131, 163, 197, 239,
   293, 353, 431, 521, 631, 761, 919, 1103, 1327, 1597, 1931, 2333,
   2801, 3371, 4049, 4861, 5839, 7013, 8419, 10103, 12143, 14591,
   17519, 21023, 25229, 30293, 36353, 43627, 52361, 62851, 75431,
   90523, 108631, 130363, 156437, 187751, 225307, 270371, 324449,
   389357, 467237, 560689, 672827, 807403, 968897, 1162687, 1395263,
   1674319, 2009191, 2411033, 2893249, 3471899, 4166287, 4999559,
   5999471, 7199369]

/-- Trial division by odd divisors up to the limit (src/rt/hash.rs lines
386-393). -/
def isPrimeAux (candidate limit divisor : Nat) : Bool :=
  if divisor ≤ limit then
    if candidate % divisor = 0 then false
    else isPrimeAux candidate limit (divisor + 2)
  else true
termination_by limit + 1 - divisor

/-- `primes::is_prime` (src/rt/hash.rs lines 382-399).  The source takes
the limit as `(candidate as f64).sqrt() as usize`, which coincides with
`Nat.sqrt` for every candidate below 2^52 (f64 square roots of such
integers are correctly rounded and never round across an integer). -/
def isPrime (candidate : Nat) : Bool :=
  if candidate &&& 1 != 0 then
    isPrimeAux candidate (Nat.sqrt candidate) 3
  else
    candidate = 2

def U32MAX : Nat := 4294967295

/-- The odd-candidate probing loop of `get_prime` (src/rt/hash.rs lines
408-415). -/
def getPrimeAux (minimum prime : Nat) : Nat :=
  if prime < U32MAX then
    if isPrime prime then prime else getPrimeAux minimum (prime + 2)
  else minimum
termination_by U32MAX - prime

/-- `primes::get_prime` (src/rt/hash.rs lines 401-418): first table prime
at least `minimum`, else probe odd candidates, else `minimum` itself. -/
def getPrime (minimum : Nat) : Nat :=
  match PRIMES.find? (fun p => minimum ≤ p) with
  | some p => p
  | none => getPrimeAux minimum (minimum ||| 1)

/-- The hash store (src/rt/hash.rs lines 89-92): the entry array and the
population count. -/
structure Hash (V : Type) where
  entries : List (Entry V)
  count : Nat
deriving DecidableEq

/-- Panics and non-termination of the hash-store operations. -/
inductive HashPanic where
  /-- `assert!(!self.find_entry(name).is_some())` fired in `add`. -/
  | assertFailed
  /-- An unbounded source loop did not terminate within the fuel bound, or
  a slot index left the array (a Rust bounds panic). -/
  | stuck
deriving DecidableEq

namespace Hash

variable {V : Type}

/-- `Hash::capacity` (src/rt/hash.rs lines 144-146). -/
def capacity (S : Hash V) : Nat := S.entries.length

/-- `Hash::hash` (src/rt/hash.rs lines 148-150): `name.value() as u32 %
capacity as u32`.  (In Rust `% 0` panics; that needs a capacity divisible
by 2^32, and Lean's `x % 0 = x` convention is harmless there because such
capacities exceed 2^32, keeping the index in range.) -/
def hashIdx (S : Hash V) (name : Nat) : Nat :=
  (name % U32) % (S.capacity % U32)

/-- `Hash::max_load_factor` (src/rt/hash.rs lines 152-154). -/
def maxLoadFactor (S : Hash V) : Nat := (S.capacity * 7 / 10) % U32

/-- `Hash::new` (src/rt/hash.rs lines 95-104): a zero-filled array of
`get_prime capacity` slots. -/
def new (u : V) (capacity : Nat) : Hash V :=
  ⟨List.replicate (getPrime capacity) ⟨0, 0, 0, u, u⟩, 0⟩

/-- The chain-walking loop of `find_entry` (src/rt/hash.rs lines 120-137). -/
def findEntryAux (entries : List (Entry V)) (name : Nat) :
    Nat → Nat → Except HashPanic (Option Nat)
  | _, 0 => .error .stuck
  | offset, fuel + 1 =>
      match entries[offset]? with
      | none => .error .stuck
      | some e =>
          if e.name = name then .ok (some offset)
          else if e.next < 0 then .ok none
          else findEntryAux entries name e.next.toNat fuel

/-- `Hash::find_entry` (src/rt/hash.rs lines 106-138): start at the home
bucket; an invalid head means absent; otherwise walk the chain matching on
the name. -/
def findEntry (S : Hash V) (name : Nat) : Except HashPanic (Option Nat) :=
  let offset := S.hashIdx name
  match S.entries[offset]? with
  | none => .error .stuck
  | some e =>
      if ¬ e.isValid then .ok none
      else findEntryAux S.entries name offset (S.capacity + 1)

/-- `Hash::get_value` (src/rt/hash.rs lines 316-323). -/
def getValue (S : Hash V) (name : Nat) :
    Except HashPanic (Option (JsDescriptor V)) :=
  match S.findEntry name with
  | .error e => .error e
  | .ok none => .ok none
  | .ok (some index) =>
      match S.entries[index]? with
      | none => .error .stuck
      | some e => .ok (some e.asProperty)

/-- The search loop of `remove` (src/rt/hash.rs lines 270-276): walk from
the home bucket matching on the name (with no validity check), tracking
the previous index. -/
def removeFindAux (entries : List (Entry V)) (name : Nat) :
    Int → Int → Nat → Except HashPanic (Int × Int)
  | _, _, 0 => .error .stuck
  | last, index, fuel + 1 =>
      if index = -1 then .ok (last, index)
      else if index < 0 then .error .stuck
      else
        match entries[index.toNat]? with
        | none => .error .stuck
        | some e =>
            if e.name ≠ name then removeFindAux entries name index e.next fuel
            else .ok (last, index)

/-- `Hash::remove` (src/rt/hash.rs lines 265-314): find the entry by name;
splice it out of its chain (three cases), wrap-decrement the count. -/
def remove (S : Hash V) (name : Nat) : Except HashPanic (Hash V × Bool) :=
  match removeFindAux S.entries name (-1) (Int.ofNat (S.hashIdx name))
      (S.capacity + 1) with
  | .error e => .error e
  | .ok (last, index) =>
      if index < 0 then .ok (S, false)
      else
        match S.entries[index.toNat]? with
        | none => .error .stuck
        | some e =>
            let next := e.next
            if last ≠ -1 then
              match S.entries[last.toNat]? with
              | none => .error .stuck
              | some el =>
                  let E1 := S.entries.set last.toNat { el with next := next }
                  let E2 := E1.set index.toNat { e with flags := 0 }
                  .ok (⟨E2, (S.count + (U32 - 1)) % U32⟩, true)
            else if next ≠ -1 then
              if next < 0 then .error .stuck
              else
                match S.entries[next.toNat]? with
                | none => .error .stuck
                | some en =>
                    let E1 := S.entries.set index.toNat en
                    let E2 := E1.set next.toNat { en with flags := 0 }
                    .ok (⟨E2, (S.count + (U32 - 1)) % U32⟩, true)
            else
              let E2 := S.entries.set index.toNat { e with flags := 0 }
              .ok (⟨E2, (S.count + (U32 - 1)) % U32⟩, true)

/-- `Hash::replace` (src/rt/hash.rs lines 325-334): overwrite the found
entry in place, keeping its name and chain link. -/
def replace (u : V) (S : Hash V) (name : Nat) (value : JsDescriptor V) :
    Except HashPanic (Hash V × Bool) :=
  match S.findEntry name with
  | .error e => .error e
  | .ok none => .ok (S, false)
  | .ok (some index) =>
      match S.entries[index]? with
      | none => .error .stuck
      | some e =>
          .ok (⟨S.entries.set index (Entry.fromDescriptor u value e.name e.next),
            S.count⟩, true)

/-- The chain-tail walk of `add` (src/rt/hash.rs lines 202-208). -/
def chainTail (entries : List (Entry V)) :
    Nat → Nat → Except HashPanic Nat
  | _, 0 => .error .stuck
  | e, fuel + 1 =>
      match entries[e]? with
      | none => .error .stuck
      | some en =>
          if en.next = -1 then .ok e
          else if en.next < 0 then .error .stuck
          else chainTail entries en.next.toNat fuel

/-- The free-slot scan of `add` (src/rt/hash.rs lines 210-225): wrap at
the array length, stop at the first invalid slot. -/
def findFree (entries : List (Entry V)) :
    Nat → Nat → Except HashPanic Nat
  | _, 0 => .error .stuck
  | free, fuel + 1 =>
      let free := if free = entries.length then 0 else free
      match entries[free]? with
      | none => .error .stuck
      | some e =>
          if ¬ e.isValid then .ok free
          else findFree entries (free + 1) fuel

end Hash

/-- `Hash::add` (src/rt/hash.rs lines 156-245) together with
`Hash::grow_entries` (lines 247-263, the `foldl` over the old array):
the two are mutually recursive in the source (growing re-adds every
entry; evicting an interloper re-adds it), rendered here as structural
recursion on a fuel bound for that recursion depth.  Every theorem below
is conditional on the operation returning. -/
def Hash.add {V : Type} (u : V) (fuel : Nat) (S : Hash V) (name : Nat)
    (value : JsDescriptor V) : Except HashPanic (Hash V) :=
  match fuel with
  | 0 => .error .stuck
  | fuel + 1 =>
      -- assert!(!self.find_entry(name).is_some())
      match S.findEntry name with
      | .error err => .error err
      | .ok (some _) => .error .assertFailed
      | .ok none =>
          -- grow the entries when we have to
          match (if S.count > S.maxLoadFactor then
                  S.entries.foldl
                    (fun (acc : Except HashPanic (Hash V)) e =>
                      match acc with
                      | .error err => .error err
                      | .ok T =>
                          if e.isValid then Hash.add u fuel T e.name e.asProperty
                          else .ok T)
                    (.ok ⟨List.replicate (getPrime (S.capacity * 2)) ⟨0, 0, 0, u, u⟩, 0⟩)
                 else .ok S) with
          | .error err => .error err
          | .ok S1 =>
              let h := S1.hashIdx name
              match S1.entries[h]? with
              | none => .error .stuck
              | some ehead =>
                  if ehead.isValid = true ∧ S1.hashIdx ehead.name ≠ h then
                    -- the ideal slot holds an interloper: evict it
                    match S1.remove ehead.name with
                    | .error err => .error err
                    | .ok (S2, _) =>
                        let S3 : Hash V :=
                          ⟨S2.entries.set h (Entry.fromDescriptor u value name (-1)),
                            (S2.count + 1) % U32⟩
                        Hash.add u fuel S3 ehead.name ehead.asProperty
                  else
                    -- walk to the chain tail, scan for a free slot, link it
                    match (if ehead.isValid then
                            match Hash.chainTail S1.entries h (S1.capacity + 1) with
                            | .error err => .error err
                            | .ok tail =>
                                match Hash.findFree S1.entries (tail + 1)
                                    (S1.capacity + 1) with
                                | .error err => .error err
                                | .ok free => .ok (some tail, free)
                          else .ok (none, h) :
                          Except HashPanic (Option Nat × Nat)) with
                    | .error err => .error err
                    | .ok (tailIdx, free) =>
                        let E1 := S1.entries.set free
                          (Entry.fromDescriptor u value name (-1))
                        match tailIdx with
                        | some tail =>
                            match E1[tail]? with
                            | none => .error .stuck
                            | some et =>
                                .ok ⟨E1.set tail { et with next := Int.ofNat free },
                                  (S1.count + 1) % U32⟩
                        | none => .ok ⟨E1, (S1.count + 1) % U32⟩

/-- The re-insertion fold of `grow_entries` (src/rt/hash.rs lines
256-262), as `Hash.add` performs it. -/
def Hash.growInsert {V : Type} (u : V) (fuel : Nat) (old : List (Entry V))
    (acc : Except HashPanic (Hash V)) : Except HashPanic (Hash V) :=
  old.foldl
    (fun acc e =>
      match acc with
      | .error err => .error err
      | .ok T =>
          if e.isValid then Hash.add u fuel T e.name e.asProperty
          else .ok T)
    acc

/-- `Hash::grow_entries` (src/rt/hash.rs lines 247-263): a fresh
zero-filled array of the next prime at least double the capacity, then
re-add every valid entry. -/
def Hash.growEntries {V : Type} (u : V) (fuel : Nat) (S : Hash V) :
    Except HashPanic (Hash V) :=
  Hash.growInsert u fuel S.entries
    (.ok ⟨List.replicate (getPrime (S.capacity * 2)) ⟨0, 0, 0, u, u⟩, 0⟩)

/-- Does the slot at index `a` hold an entry named `x`? -/
def nameIs {V : Type} (entries : List (Entry V)) (x a : Nat) : Bool :=
  match entries[a]? with
  | some e => e.name == x
  | none => false

/-- A list of slot indices is chain-linked: each `next` field points to the
following index, and the last one is `-1`. -/
def Linked {V : Type} (entries : List (Entry V)) : List Nat → Bool
  | [] => true
  | [a] =>
      match entries[a]? with
      | some e => e.next == -1
      | none => false
  | a :: b :: t =>
      (match entries[a]? with
       | some e => e.next == (b : Int)
       | none => false) && Linked entries (b :: t)

/-- Well-formedness of a hash store, as maintained by every reachable
store: a bucket decomposition `chains` assigning to every home index the
list of slots of its chain.  Chains start at their home slot, consist of
valid in-range entries whose names hash home, are `next`-linked and
duplicate-free; every valid slot is on its home's chain; valid names are
unique; and an invalidated slot that still carries a stale name hashing to
itself has a `-1` (or self) stale link — the shapes `remove`'s
validity-blind walk can actually leave behind. -/
structure WF {V : Type} (S : Hash V) : Type where
  chains : List (List Nat)
  hlen : chains.length = S.entries.length
  hpos : 0 < S.entries.length
  hhead : ∀ h < chains.length, ∀ a ∈ (chains.getD h []).head?, a = h
  hmem : ∀ h < chains.length, ∀ a ∈ chains.getD h [],
      (S.entries[a]?.any fun e => e.isValid && (S.hashIdx e.name == h)) = true
  hlink : ∀ h < chains.length, Linked S.entries (chains.getD h []) = true
  hnodup : ∀ h < chains.length, (chains.getD h []).Nodup
  hcomplete : ∀ i < S.entries.length, ∀ e ∈ S.entries[i]?, e.isValid = true →
      i ∈ chains.getD (S.hashIdx e.name) []
  hnames : ∀ i < S.entries.length, ∀ j < S.entries.length,
      ∀ e1 ∈ S.entries[i]?, ∀ e2 ∈ S.entries[j]?,
      e1.isValid = true → e2.isValid = true → e1.name = e2.name → i = j
  hstale : ∀ i < S.entries.length, ∀ e ∈ S.entries[i]?, e.isValid = false →
      S.hashIdx e.name = i → e.next = -1 ∨ e.next = (i : Int)

/-- What `find_entry` returns on a well-formed store: search the home
chain by name. -/
def chainLookup {V : Type} (S : Hash V) (chains : List (List Nat)) (x : Nat) :
    Option Nat :=
  (chains.getD (S.hashIdx x) []).find? (nameIs S.entries x)

/-- Number of valid entries of a store. -/
def validCount {V : Type} (S : Hash V) : Nat :=
  (S.entries.filter (fun e => e.isValid)).length

/-- Number of valid entries in an entry list. -/
def validCountL {V : Type} (l : List (Entry V)) : Nat :=
  (l.filter (fun e => e.isValid)).length

/-- A zero-filled table is well-formed, with all chains empty. -/
def WF_zeroFilled {V : Type} (u : V) (n c : Nat) (hn : 0 < n) :
    WF (⟨List.replicate n ⟨0, 0, 0, u, u⟩, c⟩ : Hash V) where
  chains := List.replicate n []
  hlen := by simp
  hpos := by simpa using hn
  hhead := by
    intro h hh a ha
    rw [List.getD_eq_getElem?_getD] at ha
    rcases Nat.lt_or_ge h n with hlt | hge
    · rw [List.getElem?_replicate_of_lt hlt] at ha
      exact absurd ha (by simp)
    · rw [List.getElem?_eq_none (by simpa using hge)] at ha
      exact absurd ha (by simp)
  hmem := by
    intro h hh a ha
    rw [List.getD_eq_getElem?_getD] at ha
    rcases Nat.lt_or_ge h n with hlt | hge
    · rw [List.getElem?_replicate_of_lt hlt] at ha
      exact absurd ha (by simp)
    · rw [List.getElem?_eq_none (by simpa using hge)] at ha
      exact absurd ha (by simp)
  hlink := by
    intro h hh
    rw [List.getD_eq_getElem?_getD]
    rcases Nat.lt_or_ge h n with hlt | hge
    · rw [List.getElem?_replicate_of_lt hlt]
      rfl
    · rw [List.getElem?_eq_none (by simpa using hge)]
      rfl
  hnodup := by
    intro h hh
    rw [List.getD_eq_getElem?_getD]
    rcases Nat.lt_or_ge h n with hlt | hge
    · rw [List.getElem?_replicate_of_lt hlt]
      exact List.nodup_nil
    · rw [List.getElem?_eq_none (by simpa using hge)]
      exact List.nodup_nil
  hcomplete := by
    intro i hi e he hv
    rw [Option.mem_def] at he
    rw [List.getElem?_replicate_of_lt (by simpa using hi)] at he
    injection he with he
    subst he
    exact absurd hv (by simp [Entry.isValid, FLAG_VALID, Nat.zero_and])
  hnames := by
    intro i hi j hj e1 he1 e2 he2 hv1 hv2 hname
    rw [Option.mem_def] at he1
    rw [List.getElem?_replicate_of_lt (by simpa using hi)] at he1
    injection he1 with he1
    subst he1
    exact absurd hv1 (by simp [Entry.isValid, FLAG_VALID, Nat.zero_and])
  hstale := by
    intro i hi e he hv hhash
    rw [Option.mem_def] at he
    rw [List.getElem?_replicate_of_lt (by simpa using hi)] at he
    injection he with he
    subst he
    right
    have : i = 0 := by
      rw [← hhash]
      unfold Hash.hashIdx
      simp
    rw [this]
    rfl

/-- What `remove`'s search loop computes along a chain, expressed on the
chain's index list. -/
def removeWalkSpec {V : Type} (entries : List (Entry V)) (x : Nat) :
    List Nat → Int → Int × Int
  | [], last => (last, -1)
  | a :: t, last =>
      if nameIs entries x a then (last, (a : Int))
      else removeWalkSpec entries x t (a : Int)

/-- The post-state facts every branch of a completed `Hash::remove`
establishes (`x` the removed name). -/
def RemovePost {V : Type} (S S' : Hash V) (b : Bool) (x : Nat) : Prop :=
  Nonempty (WF S') ∧
  S'.entries.length = S.entries.length ∧
  S'.getValue x = .ok none ∧
  (∀ y, y ≠ x → S'.getValue y = S.getValue y) ∧
  (∀ i < S.entries.length, i ≠ S.hashIdx x → ∀ e ∈ S.entries[i]?,
    e.isValid = true → e.name = x → ∀ e2 ∈ S'.entries[i]?, e2.isValid = false) ∧
  (b = true → S'.count = (S.count + (U32 - 1)) % U32) ∧
  (b = false → S' = S) ∧
  ((∃ i, i < S.entries.length ∧ ∃ e, S.entries[i]? = some e ∧
      e.isValid = true ∧ e.name = x) →
    b = true ∧ validCount S' + 1 = validCount S)

/-- What placing one new entry for `x` does to a store, as established by
both placement paths of `add` (fresh home slot, or chain append): the new
binding reads back merged, all others are untouched, and the population
grows by one.  The count field is whatever the caller wrote. -/
def PlacePost {V : Type} (u : V) (T S2 : Hash V) (x : Nat)
    (v : JsDescriptor V) : Prop :=
  Nonempty (WF S2) ∧
  S2.capacity = T.capacity ∧
  S2.getValue x = .ok (some (mergeDefaults u v)) ∧
  (∀ y, y ≠ x → S2.getValue y = T.getValue y) ∧
  validCount S2 = validCount T + 1

/-- The placement stage of `Hash::add` (src/rt/hash.rs lines 169-244):
everything after the assert and the growth check, starting from the
(possibly grown) store. -/
def Hash.addStage2 {V : Type} (u : V) (fuel : Nat) (S1 : Hash V) (name : Nat)
    (value : JsDescriptor V) : Except HashPanic (Hash V) :=
  let h := S1.hashIdx name
  match S1.entries[h]? with
  | none => .error .stuck
  | some ehead =>
      if ehead.isValid = true ∧ S1.hashIdx ehead.name ≠ h then
        match S1.remove ehead.name with
        | .error err => .error err
        | .ok (S2, _) =>
            let S3 : Hash V :=
              ⟨S2.entries.set h (Entry.fromDescriptor u value name (-1)),
                (S2.count + 1) % U32⟩
            Hash.add u fuel S3 ehead.name ehead.asProperty
      else
        match (if ehead.isValid then
                match Hash.chainTail S1.entries h (S1.capacity + 1) with
                | .error err => .error err
                | .ok tail =>
                    match Hash.findFree S1.entries (tail + 1)
                        (S1.capacity + 1) with
                    | .error err => .error err
                    | .ok free => .ok (some tail, free)
              else .ok (none, h) :
              Except HashPanic (Option Nat × Nat)) with
        | .error err => .error err
        | .ok (tailIdx, free) =>
            let E1 := S1.entries.set free
              (Entry.fromDescriptor u value name (-1))
            match tailIdx with
            | some tail =>
                match E1[tail]? with
                | none => .error .stuck
                | some et =>
                    .ok ⟨E1.set tail { et with next := Int.ofNat free },
                      (S1.count + 1) % U32⟩
            | none => .ok ⟨E1, (S1.count + 1) % U32⟩

/-- The post-state facts every successful `Hash::add` establishes. -/
def AddPost {V : Type} (u : V) (S S2 : Hash V) (x : Nat)
    (v : JsDescriptor V) : Prop :=
  Nonempty (WF S2) ∧
  S2.getValue x = .ok (some (mergeDefaults u v)) ∧
  (∀ y, y ≠ x → S2.getValue y = S.getValue y) ∧
  validCount S2 = validCount S + 1 ∧
  S.capacity ≤ S2.capacity ∧
  10 * S2.count ≤ 7 * S2.capacity + 10 ∧
  (S.count = validCount S % U32 → S2.count = validCount S2 % U32)

/-- One mutating hash-store operation (the API of src/rt/hash.rs). -/
inductive HashOp (V : Type) where
  | addOp (name : Nat) (value : JsDescriptor V)
  | removeOp (name : Nat)
  | replaceOp (name : Nat) (value : JsDescriptor V)

/-- Run one operation, dropping the hit flags `remove`/`replace` report. -/
def runOp {V : Type} (u : V) (fuel : Nat) (S : Hash V) :
    HashOp V → Except HashPanic (Hash V)
  | .addOp n v => Hash.add u fuel S n v
  | .removeOp n =>
      match S.remove n with
      | .error err => .error err
      | .ok (S2, _) => .ok S2
  | .replaceOp n v =>
      match S.replace u n v with
      | .error err => .error err
      | .ok (S2, _) => .ok S2

/-- Run a sequence of operations. -/
def runOps {V : Type} (u : V) (fuel : Nat) :
    Hash V → List (HashOp V) → Except HashPanic (Hash V)
  | S, [] => .ok S
  | S, op :: ops =>
      match runOp u fuel S op with
      | .error err => .error err
      | .ok S2 => runOps u fuel S2 ops

/-- The slot indices visited by following `next` links from a start
slot: the concrete reading of "the chain that starts at a bucket". -/
def chainIndices {V : Type} (S : Hash V) : Nat → Nat → List Nat
  | _, 0 => []
  | i, fuel + 1 =>
      match S.entries[i]? with
      | none => []
      | some e => i :: (if e.next < 0 then [] else
          chainIndices S e.next.toNat fuel)

/-- Claim C4: for every requested size (abstracted into the attempt function),
`alloc_raw` first attempts a bump allocation; if that returns null it runs
exactly one collection and retries exactly once; if the retry also returns
null the outcome is the fatal allocation failure; and a returned pointer is
never null. -/
theorem allocRaw_retry_once {σ : Type} (allocF : σ → Option Nat) (gcF : σ → σ)
    (s : σ) :
    (∀ p, allocF s = some p → gcHeapAllocRaw allocF gcF s = .ok (p + gcMemHeaderSize) s 0) ∧
    (∀ p, allocF s = none → allocF (gcF s) = some p →
      gcHeapAllocRaw allocF gcF s = .ok (p + gcMemHeaderSize) (gcF s) 1) ∧
    (allocF s = none → allocF (gcF s) = none →
      gcHeapAllocRaw allocF gcF s = .allocationFailed (gcF s) 1) ∧
    (∀ p s2 n, gcHeapAllocRaw allocF gcF s = .ok p s2 n → p ≠ 0 ∧ n ≤ 1) := by
  refine ⟨?_, ?_, ?_, ?_⟩
  · intro p hp
    simp [gcHeapAllocRaw, hp]
  · intro p hp hr
    simp [gcHeapAllocRaw, hp, hr]
  · intro hp hr
    simp [gcHeapAllocRaw, hp, hr]
  · intro p s2 n h
    unfold gcHeapAllocRaw at h
    rcases h1 : allocF s with _ | q
    · rcases h2 : allocF (gcF s) with _ | q2
      · simp [h1, h2] at h
      · simp [h1, h2, gcMemHeaderSize] at h
        omega
    · simp [h1, gcMemHeaderSize] at h
      omega

/-- Witness for C4 at a concrete allocator: heap state is a `Nat` counter,
allocation succeeds only after one collection. -/
theorem allocRaw_retry_once_witness :
    gcHeapAllocRaw (fun s : Nat => if s = 0 then none else some 64)
      (fun s => s + 1) 0 = .ok 72 1 1 := by
  have h := (allocRaw_retry_once (σ := Nat)
    (fun s => if s = 0 then none else some 64) (fun s => s + 1) 0).2.1 64
  exact h (by decide) (by decide)

/-- Claim C7: with a non-empty scope stack, dropping any scope other than the
most recently created one is the fatal ScopeOrderViolation; dropping the top
scope succeeds and removes exactly that scope. -/
theorem dropCurrentScope_lifo {α : Type} (scopes : List α) (top : α)
    (h : scopes ≠ []) (htop : scopes.getLast h = top) :
    (∀ index, index + 1 ≠ scopes.length →
      dropCurrentScope scopes index = .error .scopeOrderViolation) ∧
    dropCurrentScope scopes (scopes.length - 1) = .ok scopes.dropLast ∧
    scopes = scopes.dropLast ++ [top] := by
  refine ⟨?_, ?_, ?_⟩
  · intro index hne
    have hc : scopes.length ≠ index + 1 := fun hc => hne hc.symm
    unfold dropCurrentScope
    simp [hc]
  · unfold dropCurrentScope
    have hpos : 0 < scopes.length := List.length_pos_of_ne_nil h
    have hlen : scopes.length - 1 + 1 = scopes.length := by omega
    simp [hlen]
  · subst htop
    exact (List.dropLast_append_getLast h).symm

/-- Witness for C7 on a concrete two-scope stack. -/
theorem dropCurrentScope_lifo_witness :
    (∀ index, index + 1 ≠ 2 →
      dropCurrentScope [10, 20] index = .error .scopeOrderViolation) ∧
    dropCurrentScope [10, 20] 1 = .ok [10] ∧
    [10, 20] = [10] ++ [20] := by
  have h := dropCurrentScope_lifo [10, 20] 20 (by decide) (by decide)
  simpa using h

/-- Counterexample to claim C8: on the thin scope built by
`new_local_thin` with slot count `2` (three items), `set_arguments`
does not fail with BadScopeSlot — it succeeds and stores the value into
slot 2, which for a thin scope is an ordinary variable slot. -/
theorem setArguments_thin_two_slots_succeeds :
    (JsScopeM.newLocalThin (V := Nat) 0 2 none).setArguments 7 =
      .ok ⟨[0, 0, 7]⟩ := by
  rfl

/-- Claim C8 (amended): `set_arguments` fails with BadScopeSlot exactly when
the scope's item array has length 2 — that is, on thick scopes built without
an arguments slot and on thin scopes with exactly one slot.  Thin scopes
with `n ≥ 2` slots accept the write into slot 2 (an ordinary variable slot),
a thin scope with `n = 0` fails the slice bounds check instead, and a thick
scope built with an arguments slot stores the value in slot 2. -/
theorem setArguments_characterisation {V : Type} (undef scopeObject v : V)
    (parent : Option V) (n : Nat) :
    ((JsScopeM.newLocalThin undef 1 parent).setArguments v =
      .error .badScopeSlot) ∧
    ((JsScopeM.newLocalThick undef scopeObject parent false).setArguments v =
      .error .badScopeSlot) ∧
    (2 ≤ n → (JsScopeM.newLocalThin undef n parent).setArguments v =
      .ok ⟨((JsScopeM.newLocalThin undef n parent).items).set 2 v⟩) ∧
    ((JsScopeM.newLocalThin undef 0 parent).setArguments v =
      .error .indexOutOfBounds) ∧
    ((JsScopeM.newLocalThick undef scopeObject parent true).setArguments v =
      .ok ⟨((JsScopeM.newLocalThick undef scopeObject parent true).items).set 2 v⟩) := by
  have hthin : ∀ m, (JsScopeM.newLocalThin undef m parent).items.length = m + 1 := by
    intro m
    cases parent <;> simp [JsScopeM.newLocalThin]
  have hthick : ∀ b, (JsScopeM.newLocalThick undef scopeObject parent b).items.length =
      2 + if b then 1 else 0 := by
    intro b
    cases parent <;> simp [JsScopeM.newLocalThick]
  refine ⟨?_, ?_, ?_, ?_, ?_⟩
  · unfold JsScopeM.setArguments
    rw [hthin 1]
    simp
  · unfold JsScopeM.setArguments
    rw [hthick false]
    simp
  · intro hn
    unfold JsScopeM.setArguments
    rw [hthin n]
    have h1 : ¬ (n + 1 = 2) := by omega
    have h2 : 2 < n + 1 := by omega
    simp [h1, h2]
  · unfold JsScopeM.setArguments
    rw [hthin 0]
    simp
  · unfold JsScopeM.setArguments
    rw [hthick true]
    simp

/-- Witness for C8 (amended) at concrete scopes. -/
theorem setArguments_characterisation_witness :
    ((JsScopeM.newLocalThin (V := Nat) 0 1 (some 5)).setArguments 7 =
      .error .badScopeSlot) ∧
    ((JsScopeM.newLocalThin (V := Nat) 0 3 (some 5)).setArguments 7 =
      .ok ⟨((JsScopeM.newLocalThin (V := Nat) 0 3 (some 5)).items).set 2 7⟩) := by
  have h := setArguments_characterisation (V := Nat) 0 4 7 (some 5) 3
  exact ⟨h.1, h.2.2.1 (by decide)⟩

/-- Claim C10: for every argument frame built by `JsArgs::new` and every
index `i ≥ argc`, `arg` returns undefined rather than reading past the
frame; for `i < argc` it returns the i-th pushed argument. -/
theorem jsArgs_arg_spec {V : Type} (undef function this : V) (args : List V)
    (i : Nat) :
    (args.length ≤ i → (JsArgsM.new function this args).arg undef i = undef) ∧
    (∀ h : i < args.length,
      (JsArgsM.new function this args).arg undef i = args[i]) := by
  constructor
  · intro hle
    unfold JsArgsM.arg JsArgsM.new
    simp only
    rw [if_neg (by simpa using not_lt_of_ge hle)]
  · intro h
    unfold JsArgsM.arg JsArgsM.new
    simp only
    rw [if_pos (by simpa using h)]
    show (this :: function :: args).getD (i + 2) undef = args[i]
    rw [List.getD_eq_getElem?_getD]
    have : (this :: function :: args)[i + 2]? = args[i]? := by
      simp
    rw [this, List.getElem?_eq_getElem h]
    rfl

/-- Witness for C10 on a concrete frame. -/
theorem jsArgs_arg_spec_witness :
    (JsArgsM.new (V := Nat) 100 200 [7, 8]).arg 0 5 = 0 ∧
    (JsArgsM.new (V := Nat) 100 200 [7, 8]).arg 0 1 = 8 := by
  refine ⟨(jsArgs_arg_spec 0 100 200 [7, 8] 5).1 (by decide), ?_⟩
  have h := (jsArgs_arg_spec 0 100 200 [7, 8] 1).2 (by decide)
  simpa using h

/-- Claim C3: (i) when the receiver's class is `Array` and the name is
index-typed, `put` never consults `can_put` (its result is independent of
that method), and a read-only data property at that index on the prototype
chain does not block the own-index write — the simple-value
`define_own_property` is still emitted; (ii) for every other
receiver/name combination with `can_put` false, `put` with `throw = true`
fails with the `CannotPut` TypeError; (iii) and with `throw = false` it
returns successfully having emitted no mutation. -/
theorem jsItemPut_array_index_deviation {V : Type} (arrayClass : Nat)
    (isIndex : Nat → Bool) (undef : V) (ops : JsItemOps V) (property : Nat)
    (value : V) (throw : Bool) :
    (ops.classOf = some arrayClass → isIndex property = true →
      (∀ cp : Nat → Bool,
        jsItemPut arrayClass isIndex undef { ops with canPut := cp } property value throw =
        jsItemPut arrayClass isIndex undef ops property value throw) ∧
      (ops.getOwnProperty property = none →
        ∀ d : JsDescriptor V, ops.getProperty property = some d →
          d.isAccessor = false →
          jsItemPut arrayClass isIndex undef ops property value throw =
            .ok [.defineOwnProperty property (JsDescriptor.newSimpleValue value) throw])) ∧
    ((ops.classOf ≠ some arrayClass ∨ isIndex property = false) →
      ops.canPut property = false →
      (throw = true →
        jsItemPut arrayClass isIndex undef ops property value throw =
          .error .typeCannotPut) ∧
      (throw = false →
        jsItemPut arrayClass isIndex undef ops property value throw = .ok [])) := by
  constructor
  · intro hclass hindex
    have hcond : ¬ (ops.classOf ≠ some arrayClass ∨ ¬ isIndex property) := by
      simp [hclass, hindex]
    constructor
    · intro cp
      have hcond2 : ¬ (({ ops with canPut := cp } : JsItemOps V).classOf ≠ some arrayClass
          ∨ ¬ isIndex property) := by
        simp [hclass, hindex]
      unfold jsItemPut
      rw [if_neg hcond, if_neg hcond2]
      rfl
    · intro hown d hproto hnoacc
      unfold jsItemPut
      rw [if_neg hcond]
      unfold jsItemPut.jsItemPutBody
      rw [hown]
      unfold jsItemPut.jsItemPutTail
      rw [hproto]
      simp [hnoacc]
  · intro hcond hcp
    have hcond2 : ops.classOf ≠ some arrayClass ∨ ¬ isIndex property := by
      rcases hcond with h | h
      · exact Or.inl h
      · exact Or.inr (by simp [h])
    constructor
    · intro hthrow
      unfold jsItemPut
      rw [if_pos hcond2, if_pos (by simp [hcp]), if_pos hthrow]
    · intro hthrow
      unfold jsItemPut
      rw [if_pos hcond2, if_pos (by simp [hcp])]
      subst hthrow
      rfl

/-- Witness for C3: a concrete array-classed receiver with an index name
and a read-only inherited data property, and a concrete non-array receiver
with `can_put` false. -/
theorem jsItemPut_array_index_deviation_witness :
    (jsItemPut (V := Nat) 3 (fun _ => true) 0
      ⟨some 3, fun _ => false, fun _ => none,
        fun _ => some (JsDescriptor.newValue 42 false false false)⟩ 0 9 true =
      .ok [.defineOwnProperty 0 (JsDescriptor.newSimpleValue 9) true]) ∧
    (jsItemPut (V := Nat) 3 (fun _ => false) 0
      ⟨some 3, fun _ => false, fun _ => none,
        fun _ => some (JsDescriptor.newValue 42 false false false)⟩ 0 9 true =
      .error .typeCannotPut) := by
  constructor
  · exact ((jsItemPut_array_index_deviation (V := Nat) 3 (fun _ => true) 0
      ⟨some 3, fun _ => false, fun _ => none,
        fun _ => some (JsDescriptor.newValue 42 false false false)⟩ 0 9 true).1
      rfl rfl).2 rfl _ rfl rfl
  · exact ((jsItemPut_array_index_deviation (V := Nat) 3 (fun _ => false) 0
      ⟨some 3, fun _ => false, fun _ => none,
        fun _ => some (JsDescriptor.newValue 42 false false false)⟩ 0 9 true).2
      (Or.inr rfl) rfl).1 rfl

/-- One walker step peels exactly the head of the expected stream. -/
theorem walkerNext_expected (scopes : List LocalScopeDataM) (st : WalkerState) :
    (walkerNext scopes st = none → walkerExpected scopes st = []) ∧
    (∀ a st2, walkerNext scopes st = some (a, st2) →
      walkerExpected scopes st = a :: walkerExpected scopes st2) := by
  induction st using walkerExpected.induct scopes with
  | case1 st h hv ih =>
      rw [walkerNext, walkerExpected, dif_pos h, dif_pos h, dif_pos hv, dif_pos hv]
      exact ih
  | case2 st h hv hidx ih =>
      rw [walkerNext, walkerExpected, dif_pos h, dif_pos h, dif_neg hv, dif_neg hv,
        if_pos hidx, if_pos hidx]
      exact ih
  | case3 st h hv hidx =>
      rw [walkerNext, walkerExpected, dif_pos h, dif_pos h, dif_neg hv, dif_neg hv,
        if_neg hidx, if_neg hidx]
      constructor
      · intro hcon
        exact absurd hcon (by simp)
      · intro a st2 heq
        have ha : a = ((walkerVec scopes st.scope st.vec).id, st.index) := by
          injection heq with h1
          injection h1 with h2 h3
          exact h2.symm
        have hst2 : st2 = ⟨st.scope, st.vec, st.index + 1⟩ := by
          injection heq with h1
          injection h1 with h2 h3
          exact h3.symm
        subst ha
        subst hst2
        have hlt : st.index < (walkerVec scopes st.scope st.vec).data.length := by
          omega
        have hdrop : (List.range (walkerVec scopes st.scope st.vec).data.length).drop st.index =
            st.index :: (List.range (walkerVec scopes st.scope st.vec).data.length).drop (st.index + 1) := by
          rw [List.drop_eq_getElem_cons (by simpa using hlt)]
          simp
        rw [hdrop]
        simp only [List.map_cons, List.cons_append]
        congr 1
        conv_rhs => rw [walkerExpected]
        dsimp only
        rw [dif_pos h, dif_neg hv]
        rcases Nat.lt_or_ge (st.index + 1) (walkerVec scopes st.scope st.vec).data.length with hc | hc
        · rw [if_neg (by omega)]
        · rw [if_pos hc]
          rw [List.drop_eq_nil_of_le (by simpa using hc)]
          simp
  | case4 st h =>
      rw [walkerNext, walkerExpected, dif_neg h, dif_neg h]
      constructor
      · intro _
        rfl
      · intro a st2 heq
        exact absurd heq (by simp)

/-- `walkerRun` is the fuel-truncated expected stream. -/
theorem walkerRun_eq_take (scopes : List LocalScopeDataM) :
    ∀ fuel st, walkerRun scopes fuel st = (walkerExpected scopes st).take fuel := by
  intro fuel
  induction fuel with
  | zero => intro st; rfl
  | succ n ih =>
      intro st
      rcases hnx : walkerNext scopes st with _ | ⟨a, st2⟩
      · rw [(walkerNext_expected scopes st).1 hnx]
        simp [walkerRun, hnx]
      · rw [(walkerNext_expected scopes st).2 a st2 hnx]
        simp only [walkerRun, hnx, List.take_succ_cons]
        rw [ih st2]

/-- From a vector-start cursor, the expected stream is that vector's
addresses followed by the next vector position's stream. -/
theorem walkerExpected_vec (scopes : List LocalScopeDataM) (s v : Nat)
    (hs : s < scopes.length)
    (hv : ¬ v > (scopes.getD s default).handles.length) :
    walkerExpected scopes ⟨s, v, 0⟩ =
      vecAddrs (walkerVec scopes s v) ++ walkerExpected scopes ⟨s, v + 1, 0⟩ := by
  rw [walkerExpected]
  dsimp only
  rw [dif_pos hs, dif_neg hv]
  rcases Nat.eq_zero_or_pos (walkerVec scopes s v).data.length with h0 | h0
  · rw [if_pos (by omega)]
    simp [vecAddrs, h0]
  · rw [if_neg (by omega)]
    simp [vecAddrs]

/-- From a scope-start cursor, the expected stream is all of that scope's
vectors' addresses followed by the next scope's stream. -/
theorem walkerExpected_scope (scopes : List LocalScopeDataM) (s : Nat)
    (hs : s < scopes.length) :
    ∀ v, v ≤ (scopes.getD s default).handles.length + 1 →
    walkerExpected scopes ⟨s, v, 0⟩ =
      ((((scopes.getD s default).current :: (scopes.getD s default).handles).drop v).flatMap vecAddrs) ++
        walkerExpected scopes ⟨s + 1, 0, 0⟩ := by
  intro v
  generalize hm : (scopes.getD s default).handles.length + 1 - v = m
  induction m generalizing v with
  | zero =>
      intro hv
      have hv2 : v = (scopes.getD s default).handles.length + 1 := by omega
      subst hv2
      rw [List.drop_eq_nil_of_le (by simp)]
      simp only [List.flatMap_nil, List.nil_append]
      rw [walkerExpected]
      dsimp only
      rw [dif_pos hs, dif_pos (by omega)]
  | succ m ih =>
      intro hv
      have hvlt : v ≤ (scopes.getD s default).handles.length := by omega
      have hget : (((scopes.getD s default).current :: (scopes.getD s default).handles).drop v) =
          walkerVec scopes s v ::
            (((scopes.getD s default).current :: (scopes.getD s default).handles).drop (v + 1)) := by
        rw [List.drop_eq_getElem_cons (by rw [List.length_cons]; omega)]
        congr 1
        unfold walkerVec
        rcases Nat.eq_zero_or_pos v with h0 | h0
        · subst h0; simp
        · have hne : v ≠ 0 := by omega
          simp only [hne, if_false]
          rw [List.getElem_cons]
          simp only [hne, dite_false]
          exact (List.getD_eq_getElem _ _ (by omega)).symm
      rw [hget]
      simp only [List.flatMap_cons]
      rw [walkerExpected_vec scopes s v hs (by omega)]
      rw [ih (v + 1) (by omega) (by omega)]
      rw [List.append_assoc]

/-- From scope `s`, the expected stream covers all remaining scopes. -/
theorem walkerExpected_scopes (scopes : List LocalScopeDataM) :
    ∀ s, s ≤ scopes.length →
    walkerExpected scopes ⟨s, 0, 0⟩ =
      (scopes.drop s).flatMap (fun sc => (sc.current :: sc.handles).flatMap vecAddrs) := by
  intro s
  generalize hm : scopes.length - s = m
  induction m generalizing s with
  | zero =>
      intro hsle
      have hs2 : s = scopes.length := by omega
      subst hs2
      rw [List.drop_length]
      rw [walkerExpected]
      dsimp only
      rw [dif_neg (by omega)]
      rfl
  | succ m ih =>
      intro hsle
      have hslt : s < scopes.length := by omega
      have hget : scopes.drop s = scopes.getD s default :: scopes.drop (s + 1) := by
        rw [List.drop_eq_getElem_cons hslt]
        rw [List.getD_eq_getElem _ _ (by omega)]
      rw [hget]
      simp only [List.flatMap_cons]
      rw [walkerExpected_scope scopes s hslt 0 (by omega)]
      rw [ih (s + 1) (by omega) (by omega)]
      simp

/-- The full walker run enumerates exactly the slots of every scope: the
current vector and every history vector of each scope, in order. -/
theorem walkerRun_eq_allAddrs (scopes : List LocalScopeDataM) (fuel : Nat)
    (hfuel : (allAddrs scopes).length ≤ fuel) :
    walkerRun scopes fuel ⟨0, 0, 0⟩ = allAddrs scopes := by
  rw [walkerRun_eq_take scopes fuel ⟨0, 0, 0⟩]
  have h := walkerExpected_scopes scopes 0 (by omega)
  simp only [List.drop_zero] at h
  rw [h]
  exact List.take_of_length_le (by simpa [allAddrs] using hfuel)

/-- Every vector of a scope is still a vector of that scope after `add`
grew it: the new current plus old current plus old history. -/
theorem add_mem_vectors (sd : LocalScopeDataM) (ptr : Nat) (w : GcVec)
    (hfull : sd.current.data.length = sd.current.cap)
    (hw : w ∈ sd.current :: sd.handles) :
    w ∈ (sd.add ptr).1.current :: (sd.add ptr).1.handles := by
  rcases hw with _ | hw
  · simp [LocalScopeDataM.add, LocalScopeDataM.grow, hfull]
  · simp [LocalScopeDataM.add, LocalScopeDataM.grow, hfull]
    right
    left
    assumption

/-- Claim C6: when a `Local` is created while the scope's current slot
vector is at capacity, (i) the current vector is moved unchanged into the
scope's history list, (ii) a new vector of doubled capacity (holding the
new slot) becomes current, (iii) every slot previously handed out keeps
resolving to the same value through its original slot pointer, and (iv)
every such slot is still visited by the GC root walker over any scope
stack containing the grown scope. -/
theorem localScope_grow_preserves_slots (sd : LocalScopeDataM) (ptr : Nat)
    (hids : sd.IdsOk) (hfull : sd.current.data.length = sd.current.cap) :
    ((sd.add ptr).1.handles = sd.handles ++ [sd.current]) ∧
    ((sd.add ptr).1.current.cap = sd.current.cap * 2 ∧
      (sd.add ptr).1.current.data = [ptr] ∧
      (sd.add ptr).2 = (sd.nextId, 0)) ∧
    (∀ a v, sd.resolve a = some v → (sd.add ptr).1.resolve a = some v) ∧
    (∀ (ctx1 ctx2 : List LocalScopeDataM) (a : SlotAddr) (v : Nat),
      sd.resolve a = some v →
      ∀ fuel, (allAddrs (ctx1 ++ (sd.add ptr).1 :: ctx2)).length ≤ fuel →
        a ∈ walkerRun (ctx1 ++ (sd.add ptr).1 :: ctx2) fuel ⟨0, 0, 0⟩) := by
  have hres : ∀ a v, sd.resolve a = some v → (sd.add ptr).1.resolve a = some v := by
    intro a v hav
    unfold LocalScopeDataM.resolve at hav ⊢
    rcases hfind : (sd.current :: sd.handles).find? (fun w => w.id = a.1) with _ | w
    · rw [hfind] at hav
      exact absurd hav (by simp)
    · rw [hfind] at hav
      have hwid : w.id = a.1 := by simpa using List.find?_some hfind
      have hwmem : w ∈ sd.current :: sd.handles := List.mem_of_find?_eq_some hfind
      have hwlt : w.id < sd.nextId := hids.2 w hwmem
      have hnewL : (sd.add ptr).1.current :: (sd.add ptr).1.handles =
          (⟨sd.nextId, [ptr], sd.current.cap * 2⟩ : GcVec) ::
            (sd.handles ++ [sd.current]) := by
        simp [LocalScopeDataM.add, LocalScopeDataM.grow, hfull]
      rw [hnewL]
      rw [List.find?_cons_of_neg _ (by simp; omega)]
      rcases List.find?_cons_eq_some.mp hfind with ⟨hpcur, _⟩ | ⟨hncur, hfindh⟩
      · -- the slot lives in the old current vector
        have hcurid : sd.current.id = a.1 := by simpa using hpcur
        have hnone : sd.handles.find? (fun w2 => w2.id = a.1) = none := by
          rw [List.find?_eq_none]
          intro x hx hpx
          have hxid : x.id = a.1 := by simpa using hpx
          have hnd := hids.1
          rw [List.map_cons, List.nodup_cons] at hnd
          exact hnd.1 (by
            rw [hcurid, ← hxid]
            exact List.mem_map_of_mem GcVec.id hx)
        rw [List.find?_append, hnone]
        have hcur : w = sd.current := by
          have := List.find?_cons_eq_some.mp hfind
          rcases this with ⟨_, heq⟩ | ⟨hncur, _⟩
          · exact heq.symm ▸ rfl
          · exact absurd hpcur (by simpa using hncur)
        subst hcur
        simpa [hcurid] using hav
      · -- the slot lives in a history vector
        rw [List.find?_append, hfindh]
        simpa using hav
  refine ⟨?_, ⟨?_, ?_, ?_⟩, hres, ?_⟩
  · simp [LocalScopeDataM.add, LocalScopeDataM.grow, hfull]
  · simp [LocalScopeDataM.add, LocalScopeDataM.grow, hfull]
  · simp [LocalScopeDataM.add, LocalScopeDataM.grow, hfull]
  · simp [LocalScopeDataM.add, LocalScopeDataM.grow, hfull]
  · intro ctx1 ctx2 a v hav fuel hfuel
    rw [walkerRun_eq_allAddrs _ fuel hfuel]
    have hav2 := hres a v hav
    unfold LocalScopeDataM.resolve at hav2
    rcases hfind : ((sd.add ptr).1.current :: (sd.add ptr).1.handles).find?
        (fun w => w.id = a.1) with _ | w
    · rw [hfind] at hav2
      exact absurd hav2 (by simp)
    · rw [hfind] at hav2
      dsimp only at hav2
      have hwid : w.id = a.1 := by simpa using List.find?_some hfind
      have hwmem := List.mem_of_find?_eq_some hfind
      have hlt : a.2 < w.data.length := by
        by_contra hcon
        rw [List.getElem?_eq_none (by omega)] at hav2
        exact absurd hav2 (by simp)
      unfold allAddrs
      rw [List.mem_flatMap]
      refine ⟨(sd.add ptr).1, by simp, ?_⟩
      rw [List.mem_flatMap]
      refine ⟨w, hwmem, ?_⟩
      unfold vecAddrs
      rw [List.mem_map]
      refine ⟨a.2, by simpa using hlt, ?_⟩
      rw [hwid]

/-- Witness for C6 on a concrete scope: capacity-1 current vector holding
one slot, one history vector. -/
theorem localScope_grow_preserves_slots_witness :
    ((⟨⟨5, [40], 1⟩, [⟨3, [41, 42], 2⟩], 6⟩ : LocalScopeDataM).add 50).1.handles =
        [⟨3, [41, 42], 2⟩, ⟨5, [40], 1⟩] ∧
    ((⟨⟨5, [40], 1⟩, [⟨3, [41, 42], 2⟩], 6⟩ : LocalScopeDataM).add 50).1.resolve (5, 0) =
        some 40 := by
  have h := localScope_grow_preserves_slots ⟨⟨5, [40], 1⟩, [⟨3, [41, 42], 2⟩], 6⟩ 50
    (by constructor
        · decide
        · intro w hw
          fin_cases hw <;> decide)
    (by decide)
  exact ⟨h.1, h.2.2.1 (5, 0) 40 (by decide)⟩
/-- How `from_descriptor`'s flag word reads back, bit by bit. -/
theorem flags_bits : ∀ w c e a : Bool,
    ((FLAG_VALID ||| (if w then FLAG_WRITABLE else 0) |||
      (if c then FLAG_CONFIGURABLE else 0) |||
      (if e then FLAG_ENUMERABLE else 0) |||
      (if a then FLAG_ACCESSOR else 0)) &&& FLAG_ACCESSOR != 0) = a ∧
    ((FLAG_VALID ||| (if w then FLAG_WRITABLE else 0) |||
      (if c then FLAG_CONFIGURABLE else 0) |||
      (if e then FLAG_ENUMERABLE else 0) |||
      (if a then FLAG_ACCESSOR else 0)) &&& FLAG_WRITABLE != 0) = w ∧
    ((FLAG_VALID ||| (if w then FLAG_WRITABLE else 0) |||
      (if c then FLAG_CONFIGURABLE else 0) |||
      (if e then FLAG_ENUMERABLE else 0) |||
      (if a then FLAG_ACCESSOR else 0)) &&& FLAG_ENUMERABLE != 0) = e ∧
    ((FLAG_VALID ||| (if w then FLAG_WRITABLE else 0) |||
      (if c then FLAG_CONFIGURABLE else 0) |||
      (if e then FLAG_ENUMERABLE else 0) |||
      (if a then FLAG_ACCESSOR else 0)) &&& FLAG_CONFIGURABLE != 0) = c ∧
    ((FLAG_VALID ||| (if w then FLAG_WRITABLE else 0) |||
      (if c then FLAG_CONFIGURABLE else 0) |||
      (if e then FLAG_ENUMERABLE else 0) |||
      (if a then FLAG_ACCESSOR else 0)) &&& FLAG_VALID != 0) = true := by
  decide

/-- Storing and reading back a descriptor merges in exactly the defaults. -/
theorem asProperty_fromDescriptor {V : Type} (u : V) (d : JsDescriptor V)
    (name : Nat) (next : Int) :
    (Entry.fromDescriptor u d name next).asProperty = mergeDefaults u d := by
  obtain ⟨ha, hwr, hen, hcf, -⟩ := flags_bits (d.writable.getD true)
    (d.configurable.getD true) (d.enumerable.getD true) d.isAccessor
  cases hacc : d.isAccessor
  · rw [hacc] at ha hwr hen hcf
    simp only [Bool.false_eq_true, if_false] at ha hwr hen hcf
    simp only [Entry.fromDescriptor, Entry.asProperty, mergeDefaults, hacc,
      Bool.false_eq_true, if_false, ha, hwr, hen, hcf]
  · rw [hacc] at ha hen hcf
    simp only [if_true] at ha hen hcf
    simp only [Entry.fromDescriptor, Entry.asProperty, mergeDefaults, hacc,
      if_true, ha, hen, hcf]

/-- `mergeDefaults` fixes the output of `as_property`: re-inserting a
stored descriptor does not change it. -/
theorem mergeDefaults_asProperty {V : Type} (u : V) (e : Entry V) :
    mergeDefaults u e.asProperty = e.asProperty := by
  unfold Entry.asProperty mergeDefaults JsDescriptor.isAccessor
  cases hacc : e.flags &&& FLAG_ACCESSOR != 0 <;> simp

/-- The probing loop never returns less than `minimum` when started at or
above it. -/
theorem getPrimeAux_ge (minimum : Nat) :
    ∀ m prime, U32MAX - prime = m → minimum ≤ prime →
      minimum ≤ getPrimeAux minimum prime := by
  intro m
  induction m using Nat.strong_induction_on with
  | _ m ih =>
      intro prime hm hp
      unfold getPrimeAux
      by_cases hlt : prime < U32MAX
      · rw [if_pos hlt]
        by_cases hip : isPrime prime
        · rw [if_pos hip]
          exact hp
        · rw [if_neg hip]
          exact ih (U32MAX - (prime + 2)) (by omega) (prime + 2) rfl (by omega)
      · rw [if_neg hlt]

/-- `get_prime` never returns less than asked: the table and probing
branches return a prime `≥ minimum` and the fallback returns `minimum`. -/
theorem getPrime_ge (minimum : Nat) : minimum ≤ getPrime minimum := by
  unfold getPrime
  rcases hfind : PRIMES.find? (fun p => minimum ≤ p) with _ | p
  · exact getPrimeAux_ge minimum _ (minimum ||| 1) rfl
      (Nat.le_of_testBit (fun i hi => by simp [Nat.testBit_or, hi]))
  · simpa using List.find?_some hfind

/-- The home index is always in range on a non-empty table (when the
truncated capacity is zero the capacity is at least 2^32, above any
truncated name). -/
theorem hashIdx_lt {V : Type} (S : Hash V) (x : Nat)
    (hpos : 0 < S.entries.length) : S.hashIdx x < S.entries.length := by
  unfold Hash.hashIdx Hash.capacity
  rcases Nat.eq_zero_or_pos (S.entries.length % U32) with h0 | h0
  · rw [h0]
    have hdvd : U32 ∣ S.entries.length := Nat.dvd_of_mod_eq_zero h0
    have hge : U32 ≤ S.entries.length := Nat.le_of_dvd hpos hdvd
    calc (x % U32) % 0 = x % U32 := Nat.mod_zero _
    _ < U32 := Nat.mod_lt _ (by decide)
    _ ≤ S.entries.length := hge
  · calc (x % U32) % (S.entries.length % U32) < S.entries.length % U32 :=
        Nat.mod_lt _ h0
    _ ≤ S.entries.length := Nat.mod_le _ _

/-- A duplicate-free list of indices below `n` has at most `n` elements. -/
theorem nodup_length_le (l : List Nat) (n : Nat) (hnd : l.Nodup)
    (hb : ∀ a ∈ l, a < n) : l.length ≤ n := by
  classical
  have hcard : l.toFinset.card = l.length := List.toFinset_card_of_nodup hnd
  have hsub : l.toFinset ⊆ Finset.range n := by
    intro a ha
    rw [List.mem_toFinset] at ha
    rw [Finset.mem_range]
    exact hb a ha
  have := Finset.card_le_card hsub
  rw [hcard, Finset.card_range] at this
  exact this

/-- A chain's suffix starting anywhere inside it is still chain-linked. -/
theorem Linked_suffix {V : Type} (entries : List (Entry V)) :
    ∀ pre i suf, Linked entries (pre ++ i :: suf) = true →
      Linked entries (i :: suf) = true := by
  intro pre
  induction pre with
  | nil => intro i suf h; exact h
  | cons a pre ih =>
      intro i suf h
      rcases pre with _ | ⟨b, pre2⟩
      · rw [List.cons_append, List.nil_append] at h
        unfold Linked at h
        rw [Bool.and_eq_true] at h
        exact h.2
      · rw [List.cons_append, List.cons_append] at h
        unfold Linked at h
        rw [Bool.and_eq_true] at h
        exact ih i suf (by simpa using h.2)

/-- Walking `find_entry`'s loop along a linked chain is `find?` on it. -/
theorem findEntryAux_on_chain {V : Type} (entries : List (Entry V)) (x : Nat) :
    ∀ l : List Nat, ∀ hd suf, l = hd :: suf →
    Linked entries l = true →
    ∀ fuel, l.length ≤ fuel →
    Hash.findEntryAux entries x hd fuel = .ok (l.find? (nameIs entries x)) := by
  intro l
  induction l generalizing x with
  | nil => intro hd suf h; exact absurd h (by simp)
  | cons a t ih =>
      intro hd suf heq hlink fuel hfuel
      injection heq with h1 h2
      subst h1
      rcases fuel with _ | fuel
      · exact absurd hfuel (by simp)
      · unfold Hash.findEntryAux
        have hent : ∃ e, entries[a]? = some e := by
          rcases t with _ | ⟨b, t2⟩
          · unfold Linked at hlink
            rcases hx : entries[a]? with _ | e
            · rw [hx] at hlink; exact absurd hlink (by simp)
            · exact ⟨e, rfl⟩
          · unfold Linked at hlink
            rcases hx : entries[a]? with _ | e
            · rw [hx] at hlink; exact absurd hlink (by simp)
            · exact ⟨e, rfl⟩
        obtain ⟨e, he⟩ := hent
        rw [he]
        dsimp only
        by_cases hname : e.name = x
        · rw [if_pos hname]
          rw [List.find?_cons_of_pos _ (by simp [nameIs, he, hname])]
        · rw [if_neg hname]
          rw [List.find?_cons_of_neg _ (by simp [nameIs, he, hname])]
          rcases t with _ | ⟨b, t2⟩
          · unfold Linked at hlink
            rw [he] at hlink
            have hnext : e.next = -1 := by simpa using hlink
            rw [if_pos (by omega)]
            rfl
          · unfold Linked at hlink
            rw [he] at hlink
            rw [Bool.and_eq_true] at hlink
            have hnext : e.next = (b : Int) := by simpa using hlink.1
            rw [if_neg (by omega)]
            have htn : e.next.toNat = b := by
              rw [hnext]; exact Int.toNat_natCast b
            rw [htn]
            exact ih x b t2 rfl hlink.2 fuel (by
              simp at hfuel ⊢; omega)

/-- Unpack the member condition of a chain slot. -/
theorem WF.mem_props {V : Type} {S : Hash V} (w : WF S) {h a : Nat}
    (hh : h < w.chains.length) (ha : a ∈ w.chains.getD h []) :
    ∃ e, S.entries[a]? = some e ∧ e.isValid = true ∧
      S.hashIdx e.name = h ∧ a < S.entries.length := by
  have := w.hmem h hh a ha
  rcases hx : S.entries[a]? with _ | e
  · rw [hx] at this
    exact absurd this (by simp [Option.any])
  · rw [hx] at this
    simp [Option.any, Bool.and_eq_true] at this
    refine ⟨e, rfl, this.1, by simpa using this.2, ?_⟩
    exact (List.getElem?_eq_some_iff.mp hx).1

/-- A chain with no members means its home slot is not a valid entry of
that home: contrapositive packaging of head/membership. -/
theorem WF.chain_eq_nil {V : Type} {S : Hash V} (w : WF S) {h : Nat}
    (hh : h < w.chains.length)
    (hcon : ∀ e, S.entries[h]? = some e → e.isValid = true →
      S.hashIdx e.name = h → False) :
    w.chains.getD h [] = [] := by
  rcases hc : w.chains.getD h [] with _ | ⟨a, t⟩
  · rfl
  · exfalso
    have hahd : a = h := by
      have := w.hhead h hh a (by rw [hc]; rfl)
      exact this
    subst hahd
    have hm : a ∈ w.chains.getD a [] := by rw [hc]; exact List.mem_cons_self a t
    obtain ⟨e, he, hv, hhash, -⟩ := w.mem_props hh hm
    exact hcon e he hv hhash

/-- A chain's length is at most the capacity. -/
theorem WF.chain_length_le {V : Type} {S : Hash V} (w : WF S) {h : Nat}
    (hh : h < w.chains.length) :
    (w.chains.getD h []).length ≤ S.entries.length := by
  apply nodup_length_le _ _ (w.hnodup h hh)
  intro a ha
  obtain ⟨-, -, -, -, hlt⟩ := w.mem_props hh ha
  exact hlt

/-- `Hash::find_entry` on a well-formed store terminates and performs a
name search of the home bucket's chain. -/
theorem findEntry_spec {V : Type} (S : Hash V) (w : WF S) (x : Nat) :
    S.findEntry x = .ok (chainLookup S w.chains x) := by
  have hlt : S.hashIdx x < S.entries.length := hashIdx_lt S x w.hpos
  have hlt2 : S.hashIdx x < w.chains.length := by rw [w.hlen]; exact hlt
  obtain ⟨ehead, hhead⟩ : ∃ e, S.entries[S.hashIdx x]? = some e :=
    ⟨_, List.getElem?_eq_getElem hlt⟩
  unfold Hash.findEntry chainLookup
  dsimp only
  rw [hhead]
  dsimp only
  by_cases hv : ehead.isValid
  · rw [if_neg (by simp [hv])]
    by_cases hhome : S.hashIdx ehead.name = S.hashIdx x
    · -- the home slot heads its own chain: walk it
      have hmem : S.hashIdx x ∈ w.chains.getD (S.hashIdx x) [] := by
        have := w.hcomplete (S.hashIdx x) hlt ehead (by rw [hhead]; rfl) hv
        rw [hhome] at this
        exact this
      rcases hc : w.chains.getD (S.hashIdx x) [] with _ | ⟨a, t⟩
      · rw [hc] at hmem; exact absurd hmem (by simp)
      · have hahd : a = S.hashIdx x := w.hhead _ hlt2 a (by rw [hc]; rfl)
        subst hahd
        have := findEntryAux_on_chain S.entries x (S.hashIdx x :: t)
          (S.hashIdx x) t rfl
          (by rw [← hc]; exact w.hlink _ hlt2) (S.capacity + 1)
          (by
            have h1 : (S.hashIdx x :: t).length ≤ S.entries.length := by
              rw [← hc]; exact w.chain_length_le hlt2
            unfold Hash.capacity
            omega)
        exact this
    · -- the home slot is an interloper: the walk runs down a foreign
      -- chain's suffix and cannot match
      have hnil : w.chains.getD (S.hashIdx x) [] = [] := by
        apply w.chain_eq_nil hlt2
        intro e he hev hh
        rw [hhead] at he
        injection he with he
        subst he
        exact hhome hh
      rw [hnil]
      have hmem2 : S.hashIdx x ∈ w.chains.getD (S.hashIdx ehead.name) [] :=
        w.hcomplete (S.hashIdx x) hlt ehead (by rw [hhead]; rfl) (by simpa using hv)
      have hh2 : S.hashIdx ehead.name < w.chains.length := by
        rw [w.hlen]; exact hashIdx_lt S ehead.name w.hpos
      obtain ⟨pre, suf, hsplit⟩ := List.append_of_mem hmem2
      have hlink2 : Linked S.entries (S.hashIdx x :: suf) = true :=
        Linked_suffix S.entries pre _ suf (by rw [← hsplit]; exact w.hlink _ hh2)
      have := findEntryAux_on_chain S.entries x (S.hashIdx x :: suf)
        (S.hashIdx x) suf rfl hlink2 (S.capacity + 1)
        (by
          have h1 : (S.hashIdx x :: suf).length ≤
              (w.chains.getD (S.hashIdx ehead.name) []).length := by
            rw [hsplit]; simp
          have h2 := w.chain_length_le hh2
          unfold Hash.capacity
          omega)
      rw [this]
      congr 1
      rw [List.find?_nil, List.find?_eq_none]
      intro a ha
      have hain : a ∈ w.chains.getD (S.hashIdx ehead.name) [] := by
        rw [hsplit]
        exact List.mem_append_right pre ha
      obtain ⟨e, he, hev, hhash, -⟩ := w.mem_props hh2 hain
      intro hcontra
      unfold nameIs at hcontra
      rw [he] at hcontra
      have : e.name = x := by simpa using hcontra
      rw [this] at hhash
      exact hhome (by rw [← hhash])
  · rw [if_pos (by simp [hv])]
    have hnil : w.chains.getD (S.hashIdx x) [] = [] := by
      apply w.chain_eq_nil hlt2
      intro e he hev hh
      rw [hhead] at he
      injection he with he
      subst he
      exact hv hev
    rw [hnil]
    rfl

/-- `getValue` under well-formedness: total, and `none` exactly when no
valid entry carries the name. -/
theorem getValue_spec {V : Type} (S : Hash V) (w : WF S) (x : Nat) :
    (chainLookup S w.chains x = none → S.getValue x = .ok none) ∧
    (∀ i, chainLookup S w.chains x = some i →
      ∃ e, S.entries[i]? = some e ∧ e.name = x ∧ e.isValid = true ∧
        S.getValue x = .ok (some e.asProperty)) := by
  constructor
  · intro hnone
    unfold Hash.getValue
    rw [findEntry_spec S w x, hnone]
  · intro i hsome
    have hfind := List.find?_some hsome
    have hmem := List.mem_of_find?_eq_some hsome
    have hh2 : S.hashIdx x < w.chains.length := by
      rw [w.hlen]; exact hashIdx_lt S x w.hpos
    obtain ⟨e, he, hv, -, -⟩ := w.mem_props hh2 hmem
    have hname : e.name = x := by
      unfold nameIs at hfind
      rw [he] at hfind
      simpa using hfind
    refine ⟨e, he, hname, hv, ?_⟩
    unfold Hash.getValue
    rw [findEntry_spec S w x, hsome]
    dsimp only
    rw [he]

/-- If no valid entry of a well-formed store carries the name, the chain
lookup misses. -/
theorem chainLookup_eq_none {V : Type} (S : Hash V) (w : WF S) (x : Nat)
    (habs : ∀ i < S.entries.length, ∀ e ∈ S.entries[i]?, e.isValid = true →
      e.name ≠ x) :
    chainLookup S w.chains x = none := by
  unfold chainLookup
  rw [List.find?_eq_none]
  intro a ha
  have hh2 : S.hashIdx x < w.chains.length := by
    rw [w.hlen]; exact hashIdx_lt S x w.hpos
  obtain ⟨e, he, hv, -, hlt⟩ := w.mem_props hh2 ha
  unfold nameIs
  rw [he]
  simpa using habs a hlt e (by rw [he]; rfl) hv

/-- Conversely, a missed chain lookup means no valid entry carries the
name. -/
theorem chainLookup_none_no_name {V : Type} (S : Hash V) (w : WF S) (x : Nat)
    (hnone : chainLookup S w.chains x = none) :
    ∀ i < S.entries.length, ∀ e ∈ S.entries[i]?, e.isValid = true →
      e.name ≠ x := by
  intro i hi e he hv hname
  subst hname
  have hmem := w.hcomplete i hi e he hv
  unfold chainLookup at hnone
  rw [List.find?_eq_none] at hnone
  have hni := hnone i hmem
  unfold nameIs at hni
  rw [Option.mem_def] at he
  rw [he] at hni
  simp at hni

/-- A `getValue` miss on a well-formed store is a `find_entry` miss. -/
theorem getValue_none_findEntry_none {V : Type} (S : Hash V) (w : WF S)
    (x : Nat) (h : S.getValue x = .ok none) : S.findEntry x = .ok none := by
  rcases hc : chainLookup S w.chains x with _ | i
  · rw [findEntry_spec S w x, hc]
  · obtain ⟨e, -, -, -, hv⟩ := (getValue_spec S w x).2 i hc
    rw [hv] at h
    exact absurd h (by simp)

/-- `Hash::replace` (C9, second half): on a hit the slot is overwritten in
place with a descriptor entry that keeps the old entry's name and chain
link; on a miss the store is untouched. -/
theorem replace_spec {V : Type} (u : V) (S : Hash V) (w : WF S) (x : Nat)
    (value : JsDescriptor V) :
    (chainLookup S w.chains x = none → S.replace u x value = .ok (S, false)) ∧
    (∀ i, chainLookup S w.chains x = some i →
      ∃ e, S.entries[i]? = some e ∧ e.name = x ∧
        S.replace u x value =
          .ok (⟨S.entries.set i (Entry.fromDescriptor u value e.name e.next),
            S.count⟩, true)) := by
  constructor
  · intro hnone
    unfold Hash.replace
    rw [findEntry_spec S w x, hnone]
  · intro i hsome
    obtain ⟨e, he, hname, hv, -⟩ := (getValue_spec S w x).2 i hsome
    refine ⟨e, he, hname, ?_⟩
    unfold Hash.replace
    rw [findEntry_spec S w x, hsome]
    dsimp only
    rw [he]

/-- On a zero-filled table every lookup misses. -/
theorem zeroFilled_getValue_none {V : Type} (u : V) (n c : Nat) (hn : 0 < n)
    (y : Nat) :
    (⟨List.replicate n ⟨0, 0, 0, u, u⟩, c⟩ : Hash V).getValue y = .ok none := by
  apply (getValue_spec _ (WF_zeroFilled u n c hn) y).1
  apply chainLookup_eq_none
  intro i hi e he hv
  rw [Option.mem_def] at he
  rw [List.getElem?_replicate_of_lt (by simpa using hi)] at he
  injection he with he
  subst he
  exact absurd hv (by simp [Entry.isValid, FLAG_VALID, Nat.zero_and])

/-- A zero-filled table has no valid entries. -/
theorem zeroFilled_validCount {V : Type} (u : V) (n c : Nat) :
    validCount (⟨List.replicate n ⟨0, 0, 0, u, u⟩, c⟩ : Hash V) = 0 := by
  unfold validCount
  dsimp only
  rw [List.filter_replicate]
  simp [Entry.isValid]

/-- `remove`'s loop along a linked chain computes `removeWalkSpec`. -/
theorem removeFindAux_on_chain {V : Type} (entries : List (Entry V)) (x : Nat) :
    ∀ l : List Nat, ∀ hd suf, l = hd :: suf →
    Linked entries l = true →
    ∀ last0 fuel, l.length + 1 ≤ fuel →
    Hash.removeFindAux entries x last0 (hd : Int) fuel =
      .ok (removeWalkSpec entries x l last0) := by
  intro l
  induction l with
  | nil => intro hd suf h; exact absurd h (by simp)
  | cons a t ih =>
      intro hd suf heq hlink last0 fuel hfuel
      injection heq with h1 h2
      subst h1
      rcases fuel with _ | fuel
      · exact absurd hfuel (by simp)
      · unfold Hash.removeFindAux
        rw [if_neg (by omega), if_neg (by omega)]
        have hent : ∃ e, entries[a]? = some e := by
          rcases t with _ | ⟨b, t2⟩
          · unfold Linked at hlink
            rcases hx : entries[a]? with _ | e
            · rw [hx] at hlink; exact absurd hlink (by simp)
            · exact ⟨e, rfl⟩
          · unfold Linked at hlink
            rcases hx : entries[a]? with _ | e
            · rw [hx] at hlink; exact absurd hlink (by simp)
            · exact ⟨e, rfl⟩
        obtain ⟨e, he⟩ := hent
        have htoNat : (a : Int).toNat = a := Int.toNat_natCast a
        rw [htoNat, he]
        dsimp only
        unfold removeWalkSpec
        by_cases hname : e.name = x
        · rw [if_neg (by simp [hname]), if_pos (by simp [nameIs, he, hname])]
        · rw [if_pos (by simp [hname]), if_neg (by simp [nameIs, he, hname])]
          rcases t with _ | ⟨b, t2⟩
          · unfold Linked at hlink
            rw [he] at hlink
            have hnext : e.next = -1 := by simpa using hlink
            rw [hnext]
            unfold removeWalkSpec
            rcases fuel with _ | fuel
            · exact absurd hfuel (by simp)
            · unfold Hash.removeFindAux
              rw [if_pos rfl]
          · unfold Linked at hlink
            rw [he] at hlink
            rw [Bool.and_eq_true] at hlink
            have hnext : e.next = (b : Int) := by simpa using hlink.1
            rw [hnext]
            exact ih b t2 rfl hlink.2 (a : Int) fuel (by simp at hfuel ⊢; omega)

/-- Decomposition of a `removeWalkSpec` outcome: either no chain slot
matches and the cursor ran off the tail, or the chain splits at the first
match, with the returned `last` its predecessor (or the initial cursor). -/
theorem removeWalkSpec_cases {V : Type} (entries : List (Entry V)) (x : Nat) :
    ∀ l : List Nat, ∀ last0 lst idx,
    removeWalkSpec entries x l last0 = (lst, idx) →
    (idx = -1 ∧ (∀ a ∈ l, nameIs entries x a = false)) ∨
    (∃ (l1 : List Nat) (v : Nat) (l2 : List Nat),
      l = l1 ++ v :: l2 ∧ idx = (v : Int) ∧
      (∀ a ∈ l1, nameIs entries x a = false) ∧ nameIs entries x v = true ∧
      ((l1 = [] ∧ lst = last0) ∨
        (∃ (p : Nat) (l1p : List Nat), l1 = l1p ++ [p] ∧ lst = (p : Int)))) := by
  intro l
  induction l with
  | nil =>
      intro last0 lst idx h
      unfold removeWalkSpec at h
      injection h with h1 h2
      left
      exact ⟨h2.symm, by simp⟩
  | cons a t ih =>
      intro last0 lst idx h
      unfold removeWalkSpec at h
      by_cases hname : nameIs entries x a
      · rw [if_pos hname] at h
        injection h with h1 h2
        right
        exact ⟨[], a, t, by simp, h2.symm, by simp, hname, Or.inl ⟨rfl, h1.symm⟩⟩
      · rw [if_neg hname] at h
        rcases ih (a : Int) lst idx h with ⟨hidx, hall⟩ | ⟨l1, v, l2, hsplit, hidx, hall, hmatch, hlast⟩
        · left
          refine ⟨hidx, ?_⟩
          intro b hb
          rcases List.mem_cons.mp hb with hb | hb
          · subst hb; simpa using hname
          · exact hall b hb
        · right
          refine ⟨a :: l1, v, l2, by rw [hsplit, List.cons_append], hidx, ?_, hmatch, ?_⟩
          · intro b hb
            rcases List.mem_cons.mp hb with hb | hb
            · subst hb; simpa using hname
            · exact hall b hb
          · rcases hlast with ⟨hl1, hlst⟩ | ⟨p, l1p, hl1, hlst⟩
            · right
              exact ⟨a, [], by rw [hl1]; rfl, hlst⟩
            · right
              exact ⟨p, a :: l1p, by rw [hl1, List.cons_append], hlst⟩

/-- On a well-formed store, a valid slot carrying a name determines the
lookup result. -/
theorem getValue_of_valid_slot {V : Type} (S : Hash V) (w : WF S) {i y : Nat}
    {e : Entry V} (he : S.entries[i]? = some e) (hv : e.isValid = true)
    (hn : e.name = y) : S.getValue y = .ok (some e.asProperty) := by
  have hi : i < S.entries.length := (List.getElem?_eq_some_iff.mp he).1
  rcases hc : chainLookup S w.chains y with _ | j
  · exact absurd hn
      (chainLookup_none_no_name S w y hc i hi e (by rw [Option.mem_def, he]) hv)
  · obtain ⟨ej, hej, hnj, hvj, hval⟩ := (getValue_spec S w y).2 j hc
    have hij : i = j := w.hnames i hi j (List.getElem?_eq_some_iff.mp hej).1
      e (by rw [Option.mem_def, he]) ej (by rw [Option.mem_def, hej]) hv hvj
      (by rw [hn, hnj])
    subst hij
    rw [he] at hej
    injection hej with hej
    subst hej
    exact hval

/-- A lookup miss on a well-formed store means no valid slot carries the
name. -/
theorem getValue_none_no_name {V : Type} (S : Hash V) (w : WF S) {y : Nat}
    (h : S.getValue y = .ok none) :
    ∀ i < S.entries.length, ∀ e ∈ S.entries[i]?, e.isValid = true →
      e.name ≠ y := by
  rcases hc : chainLookup S w.chains y with _ | j
  · exact chainLookup_none_no_name S w y hc
  · obtain ⟨e, -, -, -, hval⟩ := (getValue_spec S w y).2 j hc
    rw [hval] at h
    exact absurd h (by simp)

/-- A lookup on a well-formed store with no valid slot carrying the name
misses. -/
theorem getValue_none_of_no_name {V : Type} (S : Hash V) (w : WF S) {y : Nat}
    (h : ∀ i < S.entries.length, ∀ e ∈ S.entries[i]?, e.isValid = true →
      e.name ≠ y) : S.getValue y = .ok none :=
  (getValue_spec S w y).1 (chainLookup_eq_none S w y h)

/-- `Linked` only looks at the chain's own slots. -/
theorem Linked_congr {V : Type} (entries entries2 : List (Entry V)) :
    ∀ l : List Nat, (∀ a ∈ l, entries2[a]? = entries[a]?) →
    Linked entries2 l = Linked entries l := by
  intro l
  induction l with
  | nil => intro h; rfl
  | cons a t ih =>
      intro h
      rcases t with _ | ⟨b, t2⟩
      · unfold Linked
        rw [h a (by simp)]
      · unfold Linked
        rw [h a (by simp)]
        rw [ih (fun c hc => h c (List.mem_cons_of_mem a hc))]

/-- `RemovePost` when the store is untouched and no valid slot carries the
name. -/
theorem removePost_id {V : Type} (S : Hash V) (w : WF S) (x : Nat)
    (hnox : ∀ i < S.entries.length, ∀ e ∈ S.entries[i]?, e.isValid = true →
      e.name ≠ x) : RemovePost S S false x := by
  refine ⟨⟨w⟩, rfl, getValue_none_of_no_name S w hnox, fun y hy => rfl,
    ?_, by simp, fun _ => rfl, ?_⟩
  · intro i hi hih e he hv hn
    exact absurd hn (hnox i hi e he hv)
  · rintro ⟨i, hi, e, he, hv, hn⟩
    exact absurd hn (hnox i hi e (by rw [Option.mem_def, he]) hv)

/-- Equal table sizes give equal home indices. -/
theorem hashIdx_congr {V : Type} (S S2 : Hash V)
    (h : S2.entries.length = S.entries.length) (y : Nat) :
    S2.hashIdx y = S.hashIdx y := by
  unfold Hash.hashIdx Hash.capacity
  rw [h]

/-- Rewriting an entry's chain link does not change the descriptor it
reports. -/
theorem asProperty_set_next {V : Type} (e : Entry V) (n : Int) :
    ({ e with next := n } : Entry V).asProperty = e.asProperty := rfl

/-- Rewriting an entry's chain link does not change its validity. -/
theorem isValid_set_next {V : Type} (e : Entry V) (n : Int) :
    ({ e with next := n } : Entry V).isValid = e.isValid := rfl

/-- Clearing an entry's flags invalidates it. -/
theorem isValid_clear_flags {V : Type} (e : Entry V) :
    ({ e with flags := 0 } : Entry V).isValid = false := by
  simp [Entry.isValid, FLAG_VALID, Nat.zero_and]

/-- What any successful run of `remove`'s search loop guarantees: the
returned predecessor is the initial cursor (with the index unmoved) or a
real slot whose link points at the returned index; the returned index is
`-1` or a real slot whose name matches. -/
theorem removeFindAux_post {V : Type} (entries : List (Entry V)) (x : Nat) :
    ∀ (fuel : Nat) (last0 idx0 lst idx : Int),
    Hash.removeFindAux entries x last0 idx0 fuel = .ok (lst, idx) →
    ((lst = last0 ∧ idx = idx0) ∨
      (∃ p : Nat, lst = (p : Int) ∧ ∃ ep, entries[p]? = some ep ∧
        ep.name ≠ x ∧ ep.next = idx)) ∧
    (idx = -1 ∨ (0 ≤ idx ∧ ∃ e, entries[idx.toNat]? = some e ∧ e.name = x)) := by
  intro fuel
  induction fuel with
  | zero => intro last0 idx0 lst idx h; exact absurd h (by simp [Hash.removeFindAux])
  | succ fuel ih =>
      intro last0 idx0 lst idx h
      unfold Hash.removeFindAux at h
      by_cases h1 : idx0 = -1
      · rw [if_pos h1] at h
        injection h with h
        injection h with ha hb
        subst ha; subst hb
        exact ⟨Or.inl ⟨rfl, rfl⟩, Or.inl h1⟩
      · rw [if_neg h1] at h
        by_cases h2 : idx0 < 0
        · rw [if_pos h2] at h
          exact absurd h (by simp)
        · rw [if_neg h2] at h
          rcases he : entries[idx0.toNat]? with _ | e
          · rw [he] at h
            exact absurd h (by simp)
          · rw [he] at h
            dsimp only at h
            by_cases hname : e.name = x
            · rw [if_neg (by simp [hname])] at h
              injection h with h
              injection h with ha hb
              subst ha; subst hb
              exact ⟨Or.inl ⟨rfl, rfl⟩,
                Or.inr ⟨by omega, e, he, hname⟩⟩
            · rw [if_pos (by simp [hname])] at h
              obtain ⟨hfirst, hsecond⟩ := ih idx0 e.next lst idx h
              refine ⟨?_, hsecond⟩
              rcases hfirst with ⟨hl, hi⟩ | hp
              · right
                refine ⟨idx0.toNat, ?_, e, he, hname, by rw [← hi]⟩
                rw [hl, Int.toNat_of_nonneg (by omega)]
              · exact Or.inr hp

/-- Transplanting a chain's head entry to a new slot keeps it linked, as
`remove`'s head-copy case does. -/
theorem Linked_rehead {V : Type} (entries entries2 : List (Entry V))
    (a b : Nat) (e : Entry V) (l2 : List Nat)
    (hE : entries[b]? = some e) (hE2 : entries2[a]? = some e)
    (hagree : ∀ c ∈ l2, entries2[c]? = entries[c]?) :
    Linked entries (b :: l2) = true → Linked entries2 (a :: l2) = true := by
  intro h
  rcases l2 with _ | ⟨c, t⟩
  · unfold Linked at h ⊢
    rw [hE] at h
    rw [hE2]
    exact h
  · unfold Linked at h ⊢
    rw [hE] at h
    rw [hE2]
    rw [Bool.and_eq_true] at h ⊢
    refine ⟨h.1, ?_⟩
    rw [Linked_congr entries entries2 (c :: t) hagree]
    exact h.2

/-- Splicing a chain slot out by relinking its predecessor keeps the chain
linked, as `remove`'s predecessor case does. -/
theorem Linked_splice {V : Type} (entries entries2 : List (Entry V))
    (p v : Nat) (ep ev : Entry V)
    (hep : entries[p]? = some ep) (hev : entries[v]? = some ev)
    (hE2p : entries2[p]? = some { ep with next := ev.next })
    (hagree : ∀ a, a ≠ p → a ≠ v → entries2[a]? = entries[a]?) :
    ∀ l1p l2, p ∉ l2 → v ∉ l2 → p ∉ l1p → v ∉ l1p →
      Linked entries (l1p ++ p :: v :: l2) = true →
      Linked entries2 (l1p ++ p :: l2) = true := by
  intro l1p
  induction l1p with
  | nil =>
      intro l2 hpl2 hvl2 hpl1 hvl1 h
      rw [List.nil_append] at h ⊢
      unfold Linked at h
      rw [hep, Bool.and_eq_true] at h
      rcases l2 with _ | ⟨n2, l2t⟩
      · unfold Linked at h ⊢
        rw [hE2p]
        rw [hev] at h
        simpa using h.2
      · unfold Linked at h ⊢
        rw [hE2p]
        rw [hev, Bool.and_eq_true] at h
        rw [Bool.and_eq_true]
        constructor
        · simpa using h.2.1
        · rw [Linked_congr entries entries2 (n2 :: l2t) (fun c hc =>
            hagree c (fun hcp => hpl2 (hcp ▸ hc)) (fun hcv => hvl2 (hcv ▸ hc)))]
          exact h.2.2
  | cons a l1t ih =>
      intro l2 hpl2 hvl2 hpl1 hvl1 h
      have hap : a ≠ p := fun hc => hpl1 (hc ▸ List.mem_cons_self a l1t)
      have hav : a ≠ v := fun hc => hvl1 (hc ▸ List.mem_cons_self a l1t)
      have hpl1t : p ∉ l1t := fun hc => hpl1 (List.mem_cons_of_mem a hc)
      have hvl1t : v ∉ l1t := fun hc => hvl1 (List.mem_cons_of_mem a hc)
      rw [List.cons_append] at h ⊢
      rcases l1t with _ | ⟨b, l1tt⟩
      · rw [List.nil_append] at h ⊢
        unfold Linked at h ⊢
        rw [Bool.and_eq_true] at h ⊢
        refine ⟨?_, ih l2 hpl2 hvl2 hpl1t hvl1t (by rw [List.nil_append]; exact h.2)⟩
        rw [hagree a hap hav]
        exact h.1
      · rw [List.cons_append] at h ⊢
        unfold Linked at h ⊢
        rw [Bool.and_eq_true] at h ⊢
        refine ⟨?_, ?_⟩
        · rw [hagree a hap hav]
          exact h.1
        · have := ih l2 hpl2 hvl2 hpl1t hvl1t (by rw [List.cons_append]; exact h.2)
          rw [List.cons_append] at this
          exact this

/-- How overwriting one slot changes the valid-entry count. -/
theorem validCountL_set {V : Type} :
    ∀ (l : List (Entry V)) (i : Nat) (e e2 : Entry V), l[i]? = some e →
    validCountL (l.set i e2) + (if e.isValid then 1 else 0) =
      validCountL l + (if e2.isValid then 1 else 0) := by
  intro l
  induction l with
  | nil => intro i e e2 h; exact absurd h (by simp)
  | cons a t ih =>
      intro i e e2 h
      rcases i with _ | i
      · rw [List.getElem?_cons_zero] at h
        injection h with h
        subst h
        unfold validCountL
        rw [List.set_cons_zero, List.filter_cons, List.filter_cons]
        by_cases ha : a.isValid <;> by_cases hb : e2.isValid <;>
          simp [ha, hb]
      · rw [List.getElem?_cons_succ] at h
        unfold validCountL
        rw [List.set_cons_succ, List.filter_cons, List.filter_cons]
        have := ih i e e2 h
        unfold validCountL at this
        by_cases ha : a.isValid <;> simp [ha] <;> omega

/-- `validCount` through the list-level count. -/
theorem validCount_eq {V : Type} (S : Hash V) :
    validCount S = validCountL S.entries := rfl

/-- `RemovePost` for the walk outcomes that only touch invalid slots: the
stale-name removals a validity-blind search can perform.  The store keeps
its valid entries bit for bit, its validity pattern, and its stale-link
discipline; the count is still wrap-decremented. -/
theorem removePost_staleMutation {V : Type} (S S2 : Hash V) (w : WF S)
    (x : Nat)
    (hlen : S2.entries.length = S.entries.length)
    (hvs : ∀ i < S.entries.length, ∀ e ∈ S.entries[i]?, e.isValid = true →
      S2.entries[i]? = some e)
    (hinv : ∀ i < S.entries.length, ∀ e ∈ S.entries[i]?, e.isValid = false →
      ∀ e2 ∈ S2.entries[i]?, e2.isValid = false)
    (hstale2 : ∀ i < S2.entries.length, ∀ e2 ∈ S2.entries[i]?,
      e2.isValid = false → S2.hashIdx e2.name = i → e2.next = -1 ∨
        e2.next = (i : Int))
    (hnox : ∀ i < S.entries.length, ∀ e ∈ S.entries[i]?, e.isValid = true →
      e.name ≠ x)
    (hcount : S2.count = (S.count + (U32 - 1)) % U32) :
    RemovePost S S2 true x := by
  have hvalid2 : ∀ i < S2.entries.length, ∀ e2 ∈ S2.entries[i]?,
      e2.isValid = true → S.entries[i]? = some e2 := by
    intro i hi e2 he2 hv2
    have hi2 : i < S.entries.length := by rw [← hlen]; exact hi
    obtain ⟨e, he⟩ : ∃ e, S.entries[i]? = some e :=
      ⟨_, List.getElem?_eq_getElem hi2⟩
    by_cases hv : e.isValid
    · have := hvs i hi2 e (by rw [Option.mem_def, he]) hv
      rw [Option.mem_def] at he2
      rw [this] at he2
      injection he2 with he2
      rw [← he2]
      exact he
    · have := hinv i hi2 e (by rw [Option.mem_def, he])
        (by simpa using hv) e2 he2
      rw [hv2] at this
      exact absurd this (by simp)
  have w2 : WF S2 := by
    refine ⟨w.chains, by rw [w.hlen, hlen], by rw [hlen]; exact w.hpos,
      w.hhead, ?_, ?_, w.hnodup, ?_, ?_, hstale2⟩
    · intro h hh a ha
      obtain ⟨e, he, hv, hhash, hlt⟩ := w.mem_props hh ha
      have := hvs a hlt e (by rw [Option.mem_def, he]) hv
      rw [this]
      simp [Option.any, hv]
      rw [hashIdx_congr S S2 hlen]
      simpa using hhash
    · intro h hh
      rw [Linked_congr S.entries S2.entries _ (fun a ha => by
        obtain ⟨e, he, hv, -, hlt⟩ := w.mem_props hh ha
        rw [hvs a hlt e (by rw [Option.mem_def, he]) hv, he])]
      exact w.hlink h hh
    · intro i hi e2 he2 hv2
      have hold := hvalid2 i hi e2 he2 hv2
      have hi2 : i < S.entries.length := by rw [← hlen]; exact hi
      have := w.hcomplete i hi2 e2 (by rw [Option.mem_def, hold]) hv2
      rw [hashIdx_congr S S2 hlen]
      exact this
    · intro i hi j hj e1 he1 e2 he2 hv1 hv2 hname
      have h1 := hvalid2 i hi e1 he1 hv1
      have h2 := hvalid2 j hj e2 he2 hv2
      exact w.hnames i (by rw [← hlen]; exact hi) j (by rw [← hlen]; exact hj)
        e1 (by rw [Option.mem_def, h1]) e2 (by rw [Option.mem_def, h2])
        hv1 hv2 hname
  have hnox2 : ∀ i < S2.entries.length, ∀ e2 ∈ S2.entries[i]?,
      e2.isValid = true → e2.name ≠ x := by
    intro i hi e2 he2 hv2
    exact hnox i (by rw [← hlen]; exact hi) e2
      (by rw [Option.mem_def, hvalid2 i hi e2 he2 hv2]) hv2
  refine ⟨⟨w2⟩, hlen, getValue_none_of_no_name S2 w2 hnox2, ?_, ?_,
    fun _ => hcount, by simp, ?_⟩
  · intro y hy
    by_cases hex : ∃ (i : Nat) (e : Entry V), S.entries[i]? = some e ∧
        e.isValid = true ∧ e.name = y
    · obtain ⟨i, e, he, hv, hn⟩ := hex
      have hi : i < S.entries.length := (List.getElem?_eq_some_iff.mp he).1
      rw [getValue_of_valid_slot S w he hv hn,
        getValue_of_valid_slot S2 w2 (hvs i hi e (by rw [Option.mem_def, he]) hv)
          hv hn]
    · have hS : S.getValue y = .ok none := by
        apply getValue_none_of_no_name S w
        intro i hi e he hv hn
        rw [Option.mem_def] at he
        exact hex ⟨i, e, he, hv, hn⟩
      have hS2 : S2.getValue y = .ok none := by
        apply getValue_none_of_no_name S2 w2
        intro i hi e2 he2 hv2 hn
        exact hex ⟨i, e2, hvalid2 i hi e2 he2 hv2, hv2, hn⟩
      rw [hS, hS2]
  · intro i hi hih e he hv hn
    exact absurd hn (hnox i hi e he hv)
  · rintro ⟨i, hi, e, he, hv, hn⟩
    exact absurd hn (hnox i hi e (by rw [Option.mem_def, he]) hv)

/-- `RemovePost` for the genuine removal cases, assembled from slot-level
transfer facts between the old and new stores: every valid entry other
than the removed one survives with its descriptor, no new names appear,
the removed name is gone, and the valid count drops by one. -/
theorem removePost_ofSlots {V : Type} (S S2 : Hash V) (w : WF S) (w2 : WF S2)
    (x : Nat)
    (hlen : S2.entries.length = S.entries.length)
    (htransfer : ∀ y : Nat, y ≠ x → ∀ (i : Nat) (e : Entry V),
      S.entries[i]? = some e →
      e.isValid = true → e.name = y →
      ∃ (j : Nat) (e2 : Entry V), S2.entries[j]? = some e2 ∧
        e2.isValid = true ∧ e2.name = y ∧ e2.asProperty = e.asProperty)
    (hback : ∀ (j : Nat) (e2 : Entry V), S2.entries[j]? = some e2 →
      e2.isValid = true →
      ∃ (i : Nat) (e : Entry V), S.entries[i]? = some e ∧ e.isValid = true ∧
        e.name = e2.name)
    (hnox2 : ∀ i < S2.entries.length, ∀ e2 ∈ S2.entries[i]?,
      e2.isValid = true → e2.name ≠ x)
    (hinvalidated : ∀ i < S.entries.length, i ≠ S.hashIdx x →
      ∀ e ∈ S.entries[i]?, e.isValid = true → e.name = x →
      ∀ e2 ∈ S2.entries[i]?, e2.isValid = false)
    (hcount : S2.count = (S.count + (U32 - 1)) % U32)
    (hvc : validCount S2 + 1 = validCount S) :
    RemovePost S S2 true x := by
  refine ⟨⟨w2⟩, hlen, getValue_none_of_no_name S2 w2 hnox2, ?_,
    hinvalidated, fun _ => hcount, by simp, fun _ => ⟨rfl, hvc⟩⟩
  intro y hy
  by_cases hex : ∃ (i : Nat) (e : Entry V), S.entries[i]? = some e ∧
      e.isValid = true ∧ e.name = y
  · obtain ⟨i, e, he, hv, hn⟩ := hex
    obtain ⟨j, e2, he2, hv2, hn2, hprop⟩ := htransfer y hy i e he hv hn
    rw [getValue_of_valid_slot S w he hv hn,
      getValue_of_valid_slot S2 w2 he2 hv2 hn2, hprop]
  · have hS : S.getValue y = .ok none := by
      apply getValue_none_of_no_name S w
      intro i hi e he hv hn
      rw [Option.mem_def] at he
      exact hex ⟨i, e, he, hv, hn⟩
    have hS2 : S2.getValue y = .ok none := by
      apply getValue_none_of_no_name S2 w2
      intro j hj e2 he2 hv2 hn
      rw [Option.mem_def] at he2
      obtain ⟨i, e, he, hv, hne⟩ := hback j e2 he2 hv2
      exact hex ⟨i, e, he, hv, by rw [hne, hn]⟩
    rw [hS, hS2]

/-- `List.getD` at an untouched index of a `set`. -/
theorem getD_set_ne (l : List (List Nat)) (i j : Nat) (a : List Nat)
    (hij : i ≠ j) : (l.set i a).getD j [] = l.getD j [] := by
  rw [List.getD_eq_getElem?_getD, List.getD_eq_getElem?_getD,
    List.getElem?_set_ne hij]

/-- `List.getD` at the overwritten index of a `set`. -/
theorem getD_set_self (l : List (List Nat)) (i : Nat) (a : List Nat)
    (hi : i < l.length) : (l.set i a).getD i [] = a := by
  rw [List.getD_eq_getElem?_getD, List.getElem?_set_self' ]
  rw [List.getElem?_eq_getElem hi]
  rfl

/-- `RemovePost` for `remove`'s last splice case: the found entry heads a
one-element chain, and is invalidated in place. -/
theorem removePost_real3 {V : Type} (S : Hash V) (w : WF S) (x v : Nat)
    (ev : Entry V)
    (hchain : w.chains.getD (S.hashIdx x) [] = [v])
    (hev : S.entries[v]? = some ev) (hname : ev.name = x) :
    RemovePost S ⟨S.entries.set v { ev with flags := 0 },
      (S.count + (U32 - 1)) % U32⟩ true x := by
  have hh : S.hashIdx x < S.entries.length := hashIdx_lt S x w.hpos
  have hh2 : S.hashIdx x < w.chains.length := by rw [w.hlen]; exact hh
  have hvh : v = S.hashIdx x := w.hhead _ hh2 v (by rw [hchain]; rfl)
  have hvmem : v ∈ w.chains.getD (S.hashIdx x) [] := by
    rw [hchain]; exact List.mem_singleton.mpr rfl
  obtain ⟨ev', hev', hvvalid, hvhash, hvlt⟩ := w.mem_props hh2 hvmem
  rw [hev] at hev'
  injection hev' with hev'
  subst hev'
  have hnext : ev.next = -1 := by
    have := w.hlink _ hh2
    rw [hchain] at this
    unfold Linked at this
    rw [hev] at this
    simpa using this
  have hnotv : ∀ h2 < w.chains.length, h2 ≠ S.hashIdx x →
      ∀ a ∈ w.chains.getD h2 [], a ≠ v := by
    intro h2 hh2b hne a ha hav
    subst hav
    obtain ⟨e, he, -, hhash, -⟩ := w.mem_props hh2b ha
    rw [hev] at he
    injection he with he
    subst he
    rw [hname] at hhash
    exact hne hhash.symm
  have hlenE : (S.entries.set v { ev with flags := 0 }).length =
      S.entries.length := by simp
  have hidx : ∀ y : Nat,
      (⟨S.entries.set v { ev with flags := 0 },
        (S.count + (U32 - 1)) % U32⟩ : Hash V).hashIdx y = S.hashIdx y :=
    hashIdx_congr S _ hlenE
  have hEself : (S.entries.set v { ev with flags := 0 })[v]? =
      some { ev with flags := 0 } := by
    rw [List.getElem?_set_self']
    rw [List.getElem?_eq_getElem hvlt]
    rfl
  have hEne : ∀ a : Nat, a ≠ v →
      (S.entries.set v { ev with flags := 0 })[a]? = S.entries[a]? :=
    fun a ha => List.getElem?_set_ne (Ne.symm ha)
  have w2 : WF (⟨S.entries.set v { ev with flags := 0 },
      (S.count + (U32 - 1)) % U32⟩ : Hash V) := by
    refine ⟨w.chains.set (S.hashIdx x) [], ?_, ?_, ?_, ?_, ?_, ?_, ?_, ?_, ?_⟩
    · simp [w.hlen]
    · simpa using w.hpos
    · intro h2 hh2b a ha
      rw [List.length_set] at hh2b
      by_cases hcase : h2 = S.hashIdx x
      · subst hcase
        rw [getD_set_self _ _ _ hh2] at ha
        exact absurd ha (by simp)
      · rw [getD_set_ne _ _ _ _ (fun hc => hcase hc.symm)] at ha
        exact w.hhead h2 hh2b a ha
    · intro h2 hh2b a ha
      rw [List.length_set] at hh2b
      by_cases hcase : h2 = S.hashIdx x
      · subst hcase
        rw [getD_set_self _ _ _ hh2] at ha
        exact absurd ha (by simp)
      · rw [getD_set_ne _ _ _ _ (fun hc => hcase hc.symm)] at ha
        have hav : a ≠ v := hnotv h2 hh2b hcase a ha
        have := w.hmem h2 hh2b a ha
        dsimp only
        rw [hEne a hav]
        simp only [hidx]
        exact this
    · intro h2 hh2b
      rw [List.length_set] at hh2b
      by_cases hcase : h2 = S.hashIdx x
      · subst hcase
        rw [getD_set_self _ _ _ hh2]
        rfl
      · rw [getD_set_ne _ _ _ _ (fun hc => hcase hc.symm)]
        rw [Linked_congr S.entries _ _ (fun a ha =>
          hEne a (hnotv h2 hh2b hcase a ha))]
        exact w.hlink h2 hh2b
    · intro h2 hh2b
      rw [List.length_set] at hh2b
      by_cases hcase : h2 = S.hashIdx x
      · subst hcase
        rw [getD_set_self _ _ _ hh2]
        exact List.nodup_nil
      · rw [getD_set_ne _ _ _ _ (fun hc => hcase hc.symm)]
        exact w.hnodup h2 hh2b
    · intro i hi e2 he2 hv2
      rw [Option.mem_def] at he2
      dsimp only at he2 hi
      rw [hlenE] at hi
      by_cases hiv : i = v
      · subst hiv
        rw [hEself] at he2
        injection he2 with he2
        rw [← he2] at hv2
        rw [isValid_clear_flags] at hv2
        exact absurd hv2 (by simp)
      · rw [hEne i hiv] at he2
        have hmem2 := w.hcomplete i hi e2 (by rw [Option.mem_def, he2]) hv2
        simp only [hidx]
        by_cases hhome : S.hashIdx e2.name = S.hashIdx x
        · rw [hhome, hchain] at hmem2
          rw [List.mem_singleton] at hmem2
          exact absurd hmem2 hiv
        · rw [getD_set_ne _ _ _ _ (fun hc => hhome hc.symm)]
          exact hmem2
    · intro i hi j hj e1 he1 e2 he2 hv1 hv2 hnameeq
      rw [Option.mem_def] at he1 he2
      dsimp only at he1 he2 hi hj
      rw [hlenE] at hi hj
      by_cases hiv : i = v
      · subst hiv
        rw [hEself] at he1
        injection he1 with he1
        rw [← he1] at hv1
        rw [isValid_clear_flags] at hv1
        exact absurd hv1 (by simp)
      · by_cases hjv : j = v
        · subst hjv
          rw [hEself] at he2
          injection he2 with he2
          rw [← he2] at hv2
          rw [isValid_clear_flags] at hv2
          exact absurd hv2 (by simp)
        · rw [hEne i hiv] at he1
          rw [hEne j hjv] at he2
          exact w.hnames i hi j hj e1 (by rw [Option.mem_def, he1])
            e2 (by rw [Option.mem_def, he2]) hv1 hv2 hnameeq
    · intro i hi e2 he2 hinv hhash2
      rw [Option.mem_def] at he2
      dsimp only at he2 hi
      rw [hlenE] at hi
      by_cases hiv : i = v
      · subst hiv
        rw [hEself] at he2
        injection he2 with he2
        rw [← he2]
        left
        exact hnext
      · rw [hEne i hiv] at he2
        rw [hidx] at hhash2
        exact w.hstale i hi e2 (by rw [Option.mem_def, he2]) hinv hhash2
  apply removePost_ofSlots S _ w w2 x hlenE
  · intro y hy i e he hv hn
    have hiv : i ≠ v := by
      intro hc
      subst hc
      rw [hev] at he
      injection he with he
      rw [← he] at hn
      rw [hname] at hn
      exact hy hn.symm
    exact ⟨i, e, by rw [hEne i hiv]; exact he, hv, hn, rfl⟩
  · intro j e2 he2 hv2
    by_cases hjv : j = v
    · subst hjv
      rw [hEself] at he2
      injection he2 with he2
      rw [← he2] at hv2
      rw [isValid_clear_flags] at hv2
      exact absurd hv2 (by simp)
    · rw [hEne j hjv] at he2
      exact ⟨j, e2, he2, hv2, rfl⟩
  · intro i hi e2 he2 hv2 hn2
    rw [Option.mem_def] at he2
    dsimp only at he2 hi
    rw [hlenE] at hi
    by_cases hiv : i = v
    · subst hiv
      rw [hEself] at he2
      injection he2 with he2
      rw [← he2] at hv2
      rw [isValid_clear_flags] at hv2
      exact absurd hv2 (by simp)
    · rw [hEne i hiv] at he2
      have := w.hnames i hi v hvlt e2 (by rw [Option.mem_def, he2])
        ev (by rw [Option.mem_def, hev]) hv2 hvvalid (by rw [hn2, hname])
      exact hiv this
  · intro i hi hih e he hv hn
    rw [Option.mem_def] at he
    have hieq := w.hnames i hi v hvlt e (by rw [Option.mem_def, he])
      ev (by rw [Option.mem_def, hev]) hv hvvalid (by rw [hn, hname])
    rw [hieq, hvh] at hih
    exact absurd rfl hih
  · rfl
  · have := validCountL_set S.entries v ev { ev with flags := 0 } hev
    rw [hvvalid, isValid_clear_flags] at this
    simp at this
    rw [validCount_eq, validCount_eq]
    dsimp only
    omega

/-- `RemovePost` for `remove`'s head-copy case: the found entry heads its
chain and has a successor, which is copied into the home slot and
invalidated at its old position. -/
theorem removePost_real2 {V : Type} (S : Hash V) (w : WF S) (x nxt : Nat)
    (l2t : List Nat) (ev en : Entry V)
    (hchain : w.chains.getD (S.hashIdx x) [] = S.hashIdx x :: nxt :: l2t)
    (hev : S.entries[S.hashIdx x]? = some ev) (hname : ev.name = x)
    (hen : S.entries[nxt]? = some en) :
    RemovePost S ⟨(S.entries.set (S.hashIdx x) en).set nxt
        { en with flags := 0 }, (S.count + (U32 - 1)) % U32⟩ true x := by
  have hh : S.hashIdx x < S.entries.length := hashIdx_lt S x w.hpos
  have hh2 : S.hashIdx x < w.chains.length := by rw [w.hlen]; exact hh
  have hhmem : S.hashIdx x ∈ w.chains.getD (S.hashIdx x) [] := by
    rw [hchain]; exact List.mem_cons_self _ _
  have hnmem : nxt ∈ w.chains.getD (S.hashIdx x) [] := by
    rw [hchain]; exact List.mem_cons_of_mem _ (List.mem_cons_self _ _)
  have hl2mem : ∀ a ∈ l2t, a ∈ w.chains.getD (S.hashIdx x) [] := by
    intro a ha
    rw [hchain]
    exact List.mem_cons_of_mem _ (List.mem_cons_of_mem _ ha)
  obtain ⟨ev', hev', hvvalid, hvhash, -⟩ := w.mem_props hh2 hhmem
  rw [hev] at hev'
  injection hev' with hev'
  subst hev'
  obtain ⟨en', hen', hnvalid, hnhash, hnlt⟩ := w.mem_props hh2 hnmem
  rw [hen] at hen'
  injection hen' with hen'
  subst hen'
  have hnd := w.hnodup _ hh2
  rw [hchain] at hnd
  have h1 : S.hashIdx x ∉ nxt :: l2t := (List.nodup_cons.mp hnd).1
  have hnd2 : (nxt :: l2t).Nodup := (List.nodup_cons.mp hnd).2
  have hhn : S.hashIdx x ≠ nxt := fun hc => h1 (hc ▸ List.mem_cons_self _ _)
  have hhl2 : S.hashIdx x ∉ l2t := fun hc => h1 (List.mem_cons_of_mem _ hc)
  have hnl2 : nxt ∉ l2t := (List.nodup_cons.mp hnd2).1
  have hl2nd : l2t.Nodup := (List.nodup_cons.mp hnd2).2
  have hlk := w.hlink _ hh2
  rw [hchain] at hlk
  unfold Linked at hlk
  rw [hev, Bool.and_eq_true] at hlk
  have hlk2 : Linked S.entries (nxt :: l2t) = true := hlk.2
  have hennx : en.name ≠ x := by
    intro hc
    have := w.hnames nxt hnlt (S.hashIdx x) hh en (by rw [Option.mem_def, hen])
      ev (by rw [Option.mem_def, hev]) hnvalid hvvalid (by rw [hc, hname])
    exact hhn this.symm
  have hnot2 : ∀ h2 < w.chains.length, h2 ≠ S.hashIdx x →
      ∀ a ∈ w.chains.getD h2 [], a ≠ S.hashIdx x ∧ a ≠ nxt := by
    intro h2 hh2b hne a ha
    obtain ⟨e, he, -, hhash, -⟩ := w.mem_props hh2b ha
    constructor
    · intro hc
      subst hc
      rw [hev] at he
      injection he with he
      subst he
      rw [hname] at hhash
      exact hne hhash.symm
    · intro hc
      subst hc
      rw [hen] at he
      injection he with he
      subst he
      exact hne (hhash.symm.trans hnhash)
  have hlenE : ((S.entries.set (S.hashIdx x) en).set nxt
      { en with flags := 0 }).length = S.entries.length := by simp
  have hidx : ∀ y : Nat,
      (⟨(S.entries.set (S.hashIdx x) en).set nxt { en with flags := 0 },
        (S.count + (U32 - 1)) % U32⟩ : Hash V).hashIdx y = S.hashIdx y :=
    hashIdx_congr S _ hlenE
  have hE2h : ((S.entries.set (S.hashIdx x) en).set nxt
      { en with flags := 0 })[S.hashIdx x]? = some en := by
    rw [List.getElem?_set_ne hhn.symm, List.getElem?_set_self']
    rw [List.getElem?_eq_getElem hh]
    rfl
  have hE2n : ((S.entries.set (S.hashIdx x) en).set nxt
      { en with flags := 0 })[nxt]? = some { en with flags := 0 } := by
    rw [List.getElem?_set_self']
    rw [List.getElem?_eq_getElem (by simpa using hnlt)]
    rfl
  have hE2o : ∀ a : Nat, a ≠ S.hashIdx x → a ≠ nxt →
      ((S.entries.set (S.hashIdx x) en).set nxt
        { en with flags := 0 })[a]? = S.entries[a]? := by
    intro a hah han
    rw [List.getElem?_set_ne (Ne.symm han), List.getElem?_set_ne (Ne.symm hah)]
  have w2 : WF (⟨(S.entries.set (S.hashIdx x) en).set nxt
      { en with flags := 0 }, (S.count + (U32 - 1)) % U32⟩ : Hash V) := by
    refine ⟨w.chains.set (S.hashIdx x) (S.hashIdx x :: l2t),
      ?_, ?_, ?_, ?_, ?_, ?_, ?_, ?_, ?_⟩
    · simp [w.hlen]
    · simpa using w.hpos
    · intro h2 hh2b a ha
      rw [List.length_set] at hh2b
      by_cases hcase : h2 = S.hashIdx x
      · subst hcase
        rw [getD_set_self _ _ _ hh2] at ha
        rw [List.head?_cons] at ha
        rw [Option.mem_def] at ha
        injection ha with ha
        exact ha.symm
      · rw [getD_set_ne _ _ _ _ (fun hc => hcase hc.symm)] at ha
        exact w.hhead h2 hh2b a ha
    · intro h2 hh2b a ha
      rw [List.length_set] at hh2b
      by_cases hcase : h2 = S.hashIdx x
      · subst hcase
        rw [getD_set_self _ _ _ hh2] at ha
        dsimp only
        rcases List.mem_cons.mp ha with ha | ha
        · subst ha
          rw [hE2h]
          simp only [hidx]
          simp [Option.any, hnvalid]
          simpa using hnhash
        · have haB : a ≠ S.hashIdx x ∧ a ≠ nxt :=
            ⟨fun hc => hhl2 (hc ▸ ha), fun hc => hnl2 (hc ▸ ha)⟩
          rw [hE2o a haB.1 haB.2]
          simp only [hidx]
          exact w.hmem _ hh2 a (hl2mem a ha)
      · rw [getD_set_ne _ _ _ _ (fun hc => hcase hc.symm)] at ha
        have haB := hnot2 h2 hh2b hcase a ha
        dsimp only
        rw [hE2o a haB.1 haB.2]
        simp only [hidx]
        exact w.hmem h2 hh2b a ha
    · intro h2 hh2b
      rw [List.length_set] at hh2b
      by_cases hcase : h2 = S.hashIdx x
      · subst hcase
        rw [getD_set_self _ _ _ hh2]
        exact Linked_rehead S.entries _ (S.hashIdx x) nxt en l2t hen hE2h
          (fun c hc => hE2o c (fun h => hhl2 (h ▸ hc))
            (fun h => hnl2 (h ▸ hc))) hlk2
      · rw [getD_set_ne _ _ _ _ (fun hc => hcase hc.symm)]
        rw [Linked_congr S.entries _ _ (fun a ha =>
          hE2o a (hnot2 h2 hh2b hcase a ha).1 (hnot2 h2 hh2b hcase a ha).2)]
        exact w.hlink h2 hh2b
    · intro h2 hh2b
      rw [List.length_set] at hh2b
      by_cases hcase : h2 = S.hashIdx x
      · subst hcase
        rw [getD_set_self _ _ _ hh2]
        exact List.nodup_cons.mpr ⟨hhl2, hl2nd⟩
      · rw [getD_set_ne _ _ _ _ (fun hc => hcase hc.symm)]
        exact w.hnodup h2 hh2b
    · intro i hi e2 he2 hv2
      rw [Option.mem_def] at he2
      dsimp only at he2 hi
      rw [hlenE] at hi
      by_cases hin : i = nxt
      · subst hin
        rw [hE2n] at he2
        injection he2 with he2
        rw [← he2] at hv2
        rw [isValid_clear_flags] at hv2
        exact absurd hv2 (by simp)
      · by_cases hih : i = S.hashIdx x
        · subst hih
          rw [hE2h] at he2
          injection he2 with he2
          subst he2
          simp only [hidx]
          rw [hnhash, getD_set_self _ _ _ hh2]
          exact List.mem_cons_self _ _
        · rw [hE2o i hih hin] at he2
          have hmem2 := w.hcomplete i hi e2 (by rw [Option.mem_def, he2]) hv2
          simp only [hidx]
          by_cases hhome : S.hashIdx e2.name = S.hashIdx x
          · rw [hhome] at hmem2 ⊢
            rw [hchain] at hmem2
            rw [getD_set_self _ _ _ hh2]
            rcases List.mem_cons.mp hmem2 with hm | hm
            · exact absurd hm hih
            · rcases List.mem_cons.mp hm with hm | hm
              · exact absurd hm hin
              · exact List.mem_cons_of_mem _ hm
          · rw [getD_set_ne _ _ _ _ (fun hc => hhome hc.symm)]
            exact hmem2
    · intro i hi j hj e1 he1 e2 he2 hv1 hv2 hnameeq
      rw [Option.mem_def] at he1 he2
      dsimp only at he1 he2 hi hj
      rw [hlenE] at hi hj
      have key : ∀ (k : Nat), k < S.entries.length →
          ∀ ek : Entry V, ((S.entries.set (S.hashIdx x) en).set nxt
            { en with flags := 0 })[k]? = some ek → ek.isValid = true →
          ∃ k0 : Nat, k0 < S.entries.length ∧ S.entries[k0]? = some ek ∧
            (k0 = k ∨ (k = S.hashIdx x ∧ k0 = nxt)) := by
        intro k hk ek hek hvk
        by_cases hkn : k = nxt
        · subst hkn
          rw [hE2n] at hek
          injection hek with hek
          rw [← hek] at hvk
          rw [isValid_clear_flags] at hvk
          exact absurd hvk (by simp)
        · by_cases hkh : k = S.hashIdx x
          · subst hkh
            rw [hE2h] at hek
            injection hek with hek
            subst hek
            exact ⟨nxt, hnlt, hen, Or.inr ⟨rfl, rfl⟩⟩
          · rw [hE2o k hkh hkn] at hek
            exact ⟨k, hk, hek, Or.inl rfl⟩
      obtain ⟨i0, hi0, hei0, hci⟩ := key i hi e1 he1 hv1
      obtain ⟨j0, hj0, hej0, hcj⟩ := key j hj e2 he2 hv2
      have hij0 : i0 = j0 := w.hnames i0 hi0 j0 hj0 e1
        (by rw [Option.mem_def, hei0]) e2 (by rw [Option.mem_def, hej0])
        hv1 hv2 hnameeq
      rcases hci with hci | ⟨hci1, hci2⟩
      · rcases hcj with hcj | ⟨hcj1, hcj2⟩
        · rw [← hci, ← hcj]; exact hij0
        · -- i is untouched, j got the copied entry: i0 = j0 = nxt, so the
          -- untouched slot i equals nxt, yet slot nxt is invalid now
          exfalso
          have hin : i = nxt := hci.symm.trans (hij0.trans hcj2)
          rw [hin, hE2n] at he1
          injection he1 with he1
          rw [← he1] at hv1
          rw [isValid_clear_flags] at hv1
          exact absurd hv1 (by simp)
      · rcases hcj with hcj | ⟨hcj1, hcj2⟩
        · exfalso
          have hjn : j = nxt := hcj.symm.trans (hij0.symm.trans hci2)
          rw [hjn, hE2n] at he2
          injection he2 with he2
          rw [← he2] at hv2
          rw [isValid_clear_flags] at hv2
          exact absurd hv2 (by simp)
        · rw [hci1, hcj1]
    · intro i hi e2 he2 hinv hhash2
      rw [Option.mem_def] at he2
      dsimp only at he2 hi
      rw [hlenE] at hi
      rw [hidx] at hhash2
      by_cases hin : i = nxt
      · subst hin
        rw [hE2n] at he2
        injection he2 with he2
        rw [← he2] at hhash2
        dsimp only at hhash2
        rw [hnhash] at hhash2
        exact absurd hhash2 hhn
      · by_cases hih : i = S.hashIdx x
        · subst hih
          rw [hE2h] at he2
          injection he2 with he2
          rw [← he2] at hinv
          rw [hinv] at hnvalid
          exact absurd hnvalid (by simp)
        · rw [hE2o i hih hin] at he2
          exact w.hstale i hi e2 (by rw [Option.mem_def, he2]) hinv hhash2
  apply removePost_ofSlots S _ w w2 x hlenE
  · intro y hy i e he hv hn
    have hih : i ≠ S.hashIdx x := by
      intro hc
      subst hc
      rw [hev] at he
      injection he with he
      rw [← he] at hn
      rw [hname] at hn
      exact hy hn.symm
    by_cases hin : i = nxt
    · subst hin
      rw [hen] at he
      injection he with he
      subst he
      exact ⟨S.hashIdx x, en, hE2h, hv, hn, rfl⟩
    · exact ⟨i, e, by rw [hE2o i hih hin]; exact he, hv, hn, rfl⟩
  · intro j e2 he2 hv2
    by_cases hjn : j = nxt
    · subst hjn
      rw [hE2n] at he2
      injection he2 with he2
      rw [← he2] at hv2
      rw [isValid_clear_flags] at hv2
      exact absurd hv2 (by simp)
    · by_cases hjh : j = S.hashIdx x
      · subst hjh
        rw [hE2h] at he2
        injection he2 with he2
        subst he2
        exact ⟨nxt, en, hen, hnvalid, rfl⟩
      · rw [hE2o j hjh hjn] at he2
        exact ⟨j, e2, he2, hv2, rfl⟩
  · intro i hi e2 he2 hv2 hn2
    rw [Option.mem_def] at he2
    dsimp only at he2 hi
    rw [hlenE] at hi
    by_cases hin : i = nxt
    · subst hin
      rw [hE2n] at he2
      injection he2 with he2
      rw [← he2] at hv2
      rw [isValid_clear_flags] at hv2
      exact absurd hv2 (by simp)
    · by_cases hih : i = S.hashIdx x
      · subst hih
        rw [hE2h] at he2
        injection he2 with he2
        subst he2
        exact hennx hn2
      · rw [hE2o i hih hin] at he2
        have := w.hnames i hi (S.hashIdx x) hh e2
          (by rw [Option.mem_def, he2]) ev (by rw [Option.mem_def, hev])
          hv2 hvvalid (by rw [hn2, hname])
        exact hih this
  · intro i hi hih e he hv hn
    rw [Option.mem_def] at he
    have := w.hnames i hi (S.hashIdx x) hh e (by rw [Option.mem_def, he])
      ev (by rw [Option.mem_def, hev]) hv hvvalid (by rw [hn, hname])
    exact absurd this hih
  · rfl
  · have hstep1 := validCountL_set S.entries (S.hashIdx x) ev en hev
    rw [hvvalid, hnvalid] at hstep1
    have hE1n : (S.entries.set (S.hashIdx x) en)[nxt]? = some en := by
      rw [List.getElem?_set_ne hhn]
      exact hen
    have hstep2 := validCountL_set (S.entries.set (S.hashIdx x) en) nxt en
      { en with flags := 0 } hE1n
    rw [hnvalid, isValid_clear_flags] at hstep2
    simp at hstep1 hstep2
    rw [validCount_eq, validCount_eq]
    dsimp only
    omega

/-- `RemovePost` for `remove`'s predecessor case: the found entry sits
behind a predecessor on its chain, which is relinked past it before the
entry is invalidated. -/
theorem removePost_real1 {V : Type} (S : Hash V) (w : WF S) (x p v : Nat)
    (l1p l2 : List Nat) (ep ev : Entry V)
    (hchain : w.chains.getD (S.hashIdx x) [] = l1p ++ p :: v :: l2)
    (hep : S.entries[p]? = some ep) (hev : S.entries[v]? = some ev)
    (hname : ev.name = x) :
    RemovePost S ⟨(S.entries.set p { ep with next := ev.next }).set v
        { ev with flags := 0 }, (S.count + (U32 - 1)) % U32⟩ true x := by
  have hh : S.hashIdx x < S.entries.length := hashIdx_lt S x w.hpos
  have hh2 : S.hashIdx x < w.chains.length := by rw [w.hlen]; exact hh
  have hpmem : p ∈ w.chains.getD (S.hashIdx x) [] := by
    rw [hchain]
    exact List.mem_append_right _ (List.mem_cons_self _ _)
  have hvmem : v ∈ w.chains.getD (S.hashIdx x) [] := by
    rw [hchain]
    exact List.mem_append_right _
      (List.mem_cons_of_mem _ (List.mem_cons_self _ _))
  have hl1mem : ∀ a ∈ l1p, a ∈ w.chains.getD (S.hashIdx x) [] := by
    intro a ha
    rw [hchain]
    exact List.mem_append_left _ ha
  have hl2mem : ∀ a ∈ l2, a ∈ w.chains.getD (S.hashIdx x) [] := by
    intro a ha
    rw [hchain]
    exact List.mem_append_right _
      (List.mem_cons_of_mem _ (List.mem_cons_of_mem _ ha))
  obtain ⟨ep', hep', hpvalid, hphash, hplt⟩ := w.mem_props hh2 hpmem
  rw [hep] at hep'
  injection hep' with hep'
  subst hep'
  obtain ⟨ev', hev', hvvalid, hvhash, hvlt⟩ := w.mem_props hh2 hvmem
  rw [hev] at hev'
  injection hev' with hev'
  subst hev'
  have hnd := w.hnodup _ hh2
  rw [hchain] at hnd
  have hndR : (p :: v :: l2).Nodup := (List.nodup_append.mp hnd).2.1
  have hdisj : ∀ a ∈ l1p, a ∉ p :: v :: l2 := by
    have := (List.nodup_append.mp hnd).2.2
    intro a ha hb
    exact this ha hb
  have hpv : p ≠ v := by
    have := (List.nodup_cons.mp hndR).1
    exact fun hc => this (hc ▸ List.mem_cons_self _ _)
  have hpl2 : p ∉ l2 := by
    have := (List.nodup_cons.mp hndR).1
    exact fun hc => this (List.mem_cons_of_mem _ hc)
  have hvl2 : v ∉ l2 := (List.nodup_cons.mp (List.nodup_cons.mp hndR).2).1
  have hpl1 : p ∉ l1p := fun hc => hdisj p hc (List.mem_cons_self _ _)
  have hvl1 : v ∉ l1p := fun hc =>
    hdisj v hc (List.mem_cons_of_mem _ (List.mem_cons_self _ _))
  have hvneh : v ≠ S.hashIdx x := by
    rcases hl : l1p with _ | ⟨a, t⟩
    · have hhd := w.hhead _ hh2 p (by rw [hchain, hl, List.nil_append]; rfl)
      exact fun hc => hpv (hhd.trans hc.symm)
    · have hhd := w.hhead _ hh2 a (by rw [hchain, hl, List.cons_append]; rfl)
      intro hc
      exact hvl1 (by rw [hl]; exact (hc.trans hhd.symm) ▸ List.mem_cons_self a t)
  have hepnx : ep.name ≠ x := by
    intro hc
    have := w.hnames p hplt v hvlt ep (by rw [Option.mem_def, hep])
      ev (by rw [Option.mem_def, hev]) hpvalid hvvalid (by rw [hc, hname])
    exact hpv this
  have hnot2 : ∀ h2 < w.chains.length, h2 ≠ S.hashIdx x →
      ∀ a ∈ w.chains.getD h2 [], a ≠ p ∧ a ≠ v := by
    intro h2 hh2b hne a ha
    obtain ⟨e, he, -, hhash, -⟩ := w.mem_props hh2b ha
    constructor
    · intro hc
      subst hc
      rw [hep] at he
      injection he with he
      subst he
      exact hne (hhash.symm.trans hphash)
    · intro hc
      subst hc
      rw [hev] at he
      injection he with he
      subst he
      exact hne (hhash.symm.trans hvhash)
  have hlenE : ((S.entries.set p { ep with next := ev.next }).set v
      { ev with flags := 0 }).length = S.entries.length := by simp
  have hidx : ∀ y : Nat,
      (⟨(S.entries.set p { ep with next := ev.next }).set v
        { ev with flags := 0 }, (S.count + (U32 - 1)) % U32⟩ : Hash V).hashIdx y
        = S.hashIdx y :=
    hashIdx_congr S _ hlenE
  have hE2p : ((S.entries.set p { ep with next := ev.next }).set v
      { ev with flags := 0 })[p]? = some { ep with next := ev.next } := by
    rw [List.getElem?_set_ne (Ne.symm hpv), List.getElem?_set_self']
    rw [List.getElem?_eq_getElem hplt]
    rfl
  have hE2v : ((S.entries.set p { ep with next := ev.next }).set v
      { ev with flags := 0 })[v]? = some { ev with flags := 0 } := by
    rw [List.getElem?_set_self']
    rw [List.getElem?_eq_getElem (by simpa using hvlt)]
    rfl
  have hE2o : ∀ a : Nat, a ≠ p → a ≠ v →
      ((S.entries.set p { ep with next := ev.next }).set v
        { ev with flags := 0 })[a]? = S.entries[a]? := by
    intro a hap hav
    rw [List.getElem?_set_ne (Ne.symm hav), List.getElem?_set_ne (Ne.symm hap)]
  have hpvalid2 : ({ ep with next := ev.next } : Entry V).isValid = true := by
    rw [isValid_set_next]
    exact hpvalid
  have hsub : (l1p ++ p :: l2).Sublist (l1p ++ p :: v :: l2) := by
    apply List.Sublist.append_left
    exact List.Sublist.cons₂ p (List.sublist_cons_self v l2)
  have w2 : WF (⟨(S.entries.set p { ep with next := ev.next }).set v
      { ev with flags := 0 }, (S.count + (U32 - 1)) % U32⟩ : Hash V) := by
    refine ⟨w.chains.set (S.hashIdx x) (l1p ++ p :: l2),
      ?_, ?_, ?_, ?_, ?_, ?_, ?_, ?_, ?_⟩
    · simp [w.hlen]
    · simpa using w.hpos
    · intro h2 hh2b a ha
      rw [List.length_set] at hh2b
      by_cases hcase : h2 = S.hashIdx x
      · subst hcase
        rw [getD_set_self _ _ _ hh2] at ha
        apply w.hhead _ hh2 a
        rw [hchain]
        rcases hl : l1p with _ | ⟨b, t⟩
        · rw [hl, List.nil_append] at ha
          rw [List.nil_append]
          rw [List.head?_cons] at ha ⊢
          exact ha
        · rw [hl, List.cons_append] at ha
          rw [List.cons_append]
          rw [List.head?_cons] at ha ⊢
          exact ha
      · rw [getD_set_ne _ _ _ _ (fun hc => hcase hc.symm)] at ha
        exact w.hhead h2 hh2b a ha
    · intro h2 hh2b a ha
      rw [List.length_set] at hh2b
      by_cases hcase : h2 = S.hashIdx x
      · subst hcase
        rw [getD_set_self _ _ _ hh2] at ha
        dsimp only
        rcases List.mem_append.mp ha with ha | ha
        · have haB : a ≠ p ∧ a ≠ v :=
            ⟨fun hc => hpl1 (hc ▸ ha), fun hc => hvl1 (hc ▸ ha)⟩
          rw [hE2o a haB.1 haB.2]
          simp only [hidx]
          exact w.hmem _ hh2 a (hl1mem a ha)
        · rcases List.mem_cons.mp ha with ha | ha
          · subst ha
            rw [hE2p]
            simp only [hidx]
            simp [Option.any, hpvalid2]
            simpa using hphash
          · have haB : a ≠ p ∧ a ≠ v :=
              ⟨fun hc => hpl2 (hc ▸ ha), fun hc => hvl2 (hc ▸ ha)⟩
            rw [hE2o a haB.1 haB.2]
            simp only [hidx]
            exact w.hmem _ hh2 a (hl2mem a ha)
      · rw [getD_set_ne _ _ _ _ (fun hc => hcase hc.symm)] at ha
        have haB := hnot2 h2 hh2b hcase a ha
        dsimp only
        rw [hE2o a haB.1 haB.2]
        simp only [hidx]
        exact w.hmem h2 hh2b a ha
    · intro h2 hh2b
      rw [List.length_set] at hh2b
      by_cases hcase : h2 = S.hashIdx x
      · subst hcase
        rw [getD_set_self _ _ _ hh2]
        apply Linked_splice S.entries _ p v ep ev hep hev hE2p
          (fun a hap hav => hE2o a hap hav) l1p l2 hpl2 hvl2 hpl1 hvl1
        rw [← hchain]
        exact w.hlink _ hh2
      · rw [getD_set_ne _ _ _ _ (fun hc => hcase hc.symm)]
        rw [Linked_congr S.entries _ _ (fun a ha =>
          hE2o a (hnot2 h2 hh2b hcase a ha).1 (hnot2 h2 hh2b hcase a ha).2)]
        exact w.hlink h2 hh2b
    · intro h2 hh2b
      rw [List.length_set] at hh2b
      by_cases hcase : h2 = S.hashIdx x
      · subst hcase
        rw [getD_set_self _ _ _ hh2]
        exact List.Nodup.sublist hsub hnd
      · rw [getD_set_ne _ _ _ _ (fun hc => hcase hc.symm)]
        exact w.hnodup h2 hh2b
    · intro i hi e2 he2 hv2
      rw [Option.mem_def] at he2
      dsimp only at he2 hi
      rw [hlenE] at hi
      by_cases hiv : i = v
      · subst hiv
        rw [hE2v] at he2
        injection he2 with he2
        rw [← he2] at hv2
        rw [isValid_clear_flags] at hv2
        exact absurd hv2 (by simp)
      · by_cases hip : i = p
        · rw [hip, hE2p] at he2
          injection he2 with he2
          rw [hip]
          simp only [hidx]
          have hnm : ({ ep with next := ev.next } : Entry V).name = ep.name := rfl
          rw [← he2, hnm, hphash, getD_set_self _ _ _ hh2]
          exact List.mem_append_right _ (List.mem_cons_self _ _)
        · rw [hE2o i hip hiv] at he2
          have hmem2 := w.hcomplete i hi e2 (by rw [Option.mem_def, he2]) hv2
          simp only [hidx]
          by_cases hhome : S.hashIdx e2.name = S.hashIdx x
          · rw [hhome] at hmem2 ⊢
            rw [hchain] at hmem2
            rw [getD_set_self _ _ _ hh2]
            rcases List.mem_append.mp hmem2 with hm | hm
            · exact List.mem_append_left _ hm
            · rcases List.mem_cons.mp hm with hm | hm
              · exact absurd hm hip
              · rcases List.mem_cons.mp hm with hm | hm
                · exact absurd hm hiv
                · exact List.mem_append_right _ (List.mem_cons_of_mem _ hm)
          · rw [getD_set_ne _ _ _ _ (fun hc => hhome hc.symm)]
            exact hmem2
    · intro i hi j hj e1 he1 e2 he2 hv1 hv2 hnameeq
      rw [Option.mem_def] at he1 he2
      dsimp only at he1 he2 hi hj
      rw [hlenE] at hi hj
      have key : ∀ (k : Nat), k < S.entries.length →
          ∀ ek : Entry V, ((S.entries.set p { ep with next := ev.next }).set v
            { ev with flags := 0 })[k]? = some ek → ek.isValid = true →
          ∃ ek0 : Entry V, S.entries[k]? = some ek0 ∧ ek0.isValid = true ∧
            ek0.name = ek.name := by
        intro k hk ek hek hvk
        by_cases hkv : k = v
        · subst hkv
          rw [hE2v] at hek
          injection hek with hek
          rw [← hek] at hvk
          rw [isValid_clear_flags] at hvk
          exact absurd hvk (by simp)
        · by_cases hkp : k = p
          · subst hkp
            rw [hE2p] at hek
            injection hek with hek
            exact ⟨ep, hep, hpvalid, by rw [← hek]⟩
          · rw [hE2o k hkp hkv] at hek
            exact ⟨ek, hek, hvk, rfl⟩
      obtain ⟨e10, he10, hv10, hn10⟩ := key i hi e1 he1 hv1
      obtain ⟨e20, he20, hv20, hn20⟩ := key j hj e2 he2 hv2
      exact w.hnames i hi j hj e10 (by rw [Option.mem_def, he10])
        e20 (by rw [Option.mem_def, he20]) hv10 hv20
        (by rw [hn10, hn20, hnameeq])
    · intro i hi e2 he2 hinv hhash2
      rw [Option.mem_def] at he2
      dsimp only at he2 hi
      rw [hlenE] at hi
      rw [hidx] at hhash2
      by_cases hiv : i = v
      · subst hiv
        rw [hE2v] at he2
        injection he2 with he2
        rw [← he2] at hhash2
        dsimp only at hhash2
        rw [hname] at hhash2
        exact absurd hhash2 (Ne.symm hvneh)
      · by_cases hip : i = p
        · subst hip
          rw [hE2p] at he2
          injection he2 with he2
          rw [← he2] at hinv
          rw [hpvalid2] at hinv
          exact absurd hinv (by simp)
        · rw [hE2o i hip hiv] at he2
          exact w.hstale i hi e2 (by rw [Option.mem_def, he2]) hinv hhash2
  apply removePost_ofSlots S _ w w2 x hlenE
  · intro y hy i e he hv hn
    have hiv : i ≠ v := by
      intro hc
      subst hc
      rw [hev] at he
      injection he with he
      rw [← he] at hn
      rw [hname] at hn
      exact hy hn.symm
    by_cases hip : i = p
    · have heq : ep = e := by
        rw [hip, hep] at he
        injection he with he
      refine ⟨p, { ep with next := ev.next }, hE2p, hpvalid2, ?_, ?_⟩
      · show ep.name = y
        rw [heq]
        exact hn
      · show ({ ep with next := ev.next } : Entry V).asProperty = e.asProperty
        rw [asProperty_set_next, heq]
    · exact ⟨i, e, by rw [hE2o i hip hiv]; exact he, hv, hn, rfl⟩
  · intro j e2 he2 hv2
    by_cases hjv : j = v
    · subst hjv
      rw [hE2v] at he2
      injection he2 with he2
      rw [← he2] at hv2
      rw [isValid_clear_flags] at hv2
      exact absurd hv2 (by simp)
    · by_cases hjp : j = p
      · have heq : ({ ep with next := ev.next } : Entry V) = e2 := by
          rw [hjp, hE2p] at he2
          injection he2 with he2
        refine ⟨p, ep, hep, hpvalid, ?_⟩
        rw [← heq]
      · rw [hE2o j hjp hjv] at he2
        exact ⟨j, e2, he2, hv2, rfl⟩
  · intro i hi e2 he2 hv2 hn2
    rw [Option.mem_def] at he2
    dsimp only at he2 hi
    rw [hlenE] at hi
    by_cases hiv : i = v
    · subst hiv
      rw [hE2v] at he2
      injection he2 with he2
      rw [← he2] at hv2
      rw [isValid_clear_flags] at hv2
      exact absurd hv2 (by simp)
    · by_cases hip : i = p
      · subst hip
        rw [hE2p] at he2
        injection he2 with he2
        rw [← he2] at hn2
        exact hepnx hn2
      · rw [hE2o i hip hiv] at he2
        have := w.hnames i hi v hvlt e2 (by rw [Option.mem_def, he2])
          ev (by rw [Option.mem_def, hev]) hv2 hvvalid (by rw [hn2, hname])
        exact hiv this
  · intro i hi hih e he hv hn
    rw [Option.mem_def] at he
    have hieq := w.hnames i hi v hvlt e (by rw [Option.mem_def, he])
      ev (by rw [Option.mem_def, hev]) hv hvvalid (by rw [hn, hname])
    subst hieq
    intro e2 he2
    rw [Option.mem_def] at he2
    dsimp only at he2
    rw [hE2v] at he2
    injection he2 with he2
    rw [← he2]
    exact isValid_clear_flags ev
  · rfl
  · have hstep1 := validCountL_set S.entries p ep { ep with next := ev.next } hep
    rw [hpvalid, hpvalid2] at hstep1
    have hE1v : (S.entries.set p { ep with next := ev.next })[v]? = some ev := by
      rw [List.getElem?_set_ne hpv]
      exact hev
    have hstep2 := validCountL_set (S.entries.set p { ep with next := ev.next })
      v ev { ev with flags := 0 } hE1v
    rw [hvvalid, isValid_clear_flags] at hstep2
    simp at hstep1 hstep2
    rw [validCount_eq, validCount_eq]
    dsimp only
    omega

/-- `Hash::remove` on a well-formed store: every successful return
satisfies `RemovePost` — the removed name is gone, every other binding
and well-formedness survive, the touched slots are accounted for, and on
a hit the count is wrap-decremented. -/
theorem remove_spec {V : Type} (S : Hash V) (w : WF S) (x : Nat)
    (S2 : Hash V) (b : Bool) (hok : S.remove x = .ok (S2, b)) :
    RemovePost S S2 b x := by
  have hh : S.hashIdx x < S.entries.length := hashIdx_lt S x w.hpos
  have hh2 : S.hashIdx x < w.chains.length := by rw [w.hlen]; exact hh
  obtain ⟨ehead, hhead⟩ : ∃ e, S.entries[S.hashIdx x]? = some e :=
    ⟨_, List.getElem?_eq_getElem hh⟩
  unfold Hash.remove at hok
  by_cases hv : ehead.isValid = true
  · by_cases hhome : S.hashIdx ehead.name = S.hashIdx x
    · -- a valid proper head: the walk runs down the home chain
      have hmem : S.hashIdx x ∈ w.chains.getD (S.hashIdx x) [] := by
        have := w.hcomplete (S.hashIdx x) hh ehead
          (by rw [Option.mem_def, hhead]) hv
        rw [hhome] at this
        exact this
      rcases hc : w.chains.getD (S.hashIdx x) [] with _ | ⟨a, t⟩
      · rw [hc] at hmem; exact absurd hmem (by simp)
      have hahd : a = S.hashIdx x := w.hhead _ hh2 a (by rw [hc]; rfl)
      subst hahd
      have hlkc : Linked S.entries (S.hashIdx x :: t) = true := by
        rw [← hc]; exact w.hlink _ hh2
      have hfuel : (S.hashIdx x :: t).length + 1 ≤ S.capacity + 1 := by
        have := w.chain_length_le hh2
        rw [hc] at this
        unfold Hash.capacity
        omega
      have hwalk : Hash.removeFindAux S.entries x (-1)
          (Int.ofNat (S.hashIdx x)) (S.capacity + 1) =
          .ok (removeWalkSpec S.entries x (S.hashIdx x :: t) (-1)) :=
        removeFindAux_on_chain S.entries x _ (S.hashIdx x) t rfl hlkc (-1)
          (S.capacity + 1) hfuel
      rcases hws : removeWalkSpec S.entries x (S.hashIdx x :: t) (-1)
        with ⟨lst, idx⟩
      rw [hws] at hwalk
      rw [hwalk] at hok
      dsimp only at hok
      rcases removeWalkSpec_cases S.entries x _ _ _ _ hws with
        ⟨hidxm, hall⟩ | ⟨l1, v, l2, hsplit, hidxv, -, hmatch, hlast⟩
      · -- no chain slot matched: the store is untouched
        subst hidxm
        rw [if_pos (by omega)] at hok
        injection hok with hok
        injection hok with h1 h2
        rw [← h1, ← h2]
        apply removePost_id S w x
        intro i hi e he hv2 hn
        have hm := w.hcomplete i hi e he hv2
        rw [hn, hc] at hm
        have hni := hall i hm
        unfold nameIs at hni
        rw [Option.mem_def] at he
        rw [he] at hni
        simp [hn] at hni
      · -- matched at slot v on the home chain
        subst hidxv
        rw [if_neg (by omega)] at hok
        have htn : ((v : Int)).toNat = v := Int.toNat_natCast v
        rw [htn] at hok
        have hvmem : v ∈ w.chains.getD (S.hashIdx x) [] := by
          rw [hc, hsplit]
          exact List.mem_append_right _ (List.mem_cons_self _ _)
        obtain ⟨ev, hev, hvvalid, hvhash, hvlt⟩ := w.mem_props hh2 hvmem
        rw [hev] at hok
        dsimp only at hok
        have hevname : ev.name = x := by
          unfold nameIs at hmatch
          rw [hev] at hmatch
          simpa using hmatch
        rcases hlast with ⟨hl1nil, hlst⟩ | ⟨p, l1p, hl1, hlst⟩
        · -- the match was the chain head
          subst hlst
          subst hl1nil
          rw [if_neg (by simp)] at hok
          rw [List.nil_append] at hsplit
          have hcv : w.chains.getD (S.hashIdx x) [] = v :: l2 :=
            hc.trans hsplit
          rcases l2 with _ | ⟨nxt, l2t⟩
          · -- singleton chain: invalidate in place
            have hnext : ev.next = -1 := by
              have hl := w.hlink _ hh2
              rw [hcv] at hl
              unfold Linked at hl
              rw [hev] at hl
              simpa using hl
            rw [hnext] at hok
            rw [if_neg (by simp)] at hok
            injection hok with hok
            injection hok with h1 h2
            rw [← h1, ← h2, ← hnext]
            exact removePost_real3 S w x v ev hcv hev hevname
          · -- head with successor: copy the successor down
            have hnext : ev.next = (nxt : Int) := by
              have hl := w.hlink _ hh2
              rw [hcv] at hl
              unfold Linked at hl
              rw [hev, Bool.and_eq_true] at hl
              simpa using hl.1
            rw [hnext] at hok
            rw [if_pos (by omega)] at hok
            rw [if_neg (by omega)] at hok
            have htn2 : ((nxt : Int)).toNat = nxt := Int.toNat_natCast nxt
            rw [htn2] at hok
            have hnmem : nxt ∈ w.chains.getD (S.hashIdx x) [] := by
              rw [hcv]
              exact List.mem_cons_of_mem _ (List.mem_cons_self _ _)
            obtain ⟨en, hen, -, -, -⟩ := w.mem_props hh2 hnmem
            rw [hen] at hok
            dsimp only at hok
            injection hok with hok
            injection hok with h1 h2
            rw [← h1, ← h2]
            have hveq : v = S.hashIdx x := w.hhead _ hh2 v (by rw [hcv]; rfl)
            rw [hveq] at hcv hev
            rw [hveq]
            exact removePost_real2 S w x nxt l2t ev en hcv hev hevname hen
        · -- the match has a predecessor: splice it out
          subst hlst
          rw [if_pos (by omega)] at hok
          have htnp : ((p : Int)).toNat = p := Int.toNat_natCast p
          rw [htnp] at hok
          have hpmem : p ∈ w.chains.getD (S.hashIdx x) [] := by
            rw [hc, hsplit, hl1]
            exact List.mem_append_left _
              (List.mem_append_right _ (List.mem_singleton.mpr rfl))
          obtain ⟨ep, hep, -, -, -⟩ := w.mem_props hh2 hpmem
          rw [hep] at hok
          dsimp only at hok
          injection hok with hok
          injection hok with h1 h2
          rw [← h1, ← h2]
          have hcv : w.chains.getD (S.hashIdx x) [] = l1p ++ p :: v :: l2 := by
            rw [hc, hsplit, hl1, List.append_assoc]
            rfl
          exact removePost_real1 S w x p v l1p l2 ep ev hcv hep hev hevname
    · -- a valid interloper heads the home slot: the walk runs down a
      -- foreign chain's suffix and cannot match
      have hnil : w.chains.getD (S.hashIdx x) [] = [] := by
        apply w.chain_eq_nil hh2
        intro e he hev2 hhh
        rw [hhead] at he
        injection he with he
        subst he
        exact hhome hhh
      have hmem2 : S.hashIdx x ∈ w.chains.getD (S.hashIdx ehead.name) [] :=
        w.hcomplete (S.hashIdx x) hh ehead (by rw [Option.mem_def, hhead]) hv
      have hh2b : S.hashIdx ehead.name < w.chains.length := by
        rw [w.hlen]; exact hashIdx_lt S ehead.name w.hpos
      obtain ⟨pre, suf, hsplit2⟩ := List.append_of_mem hmem2
      have hlink2 : Linked S.entries (S.hashIdx x :: suf) = true :=
        Linked_suffix S.entries pre _ suf
          (by rw [← hsplit2]; exact w.hlink _ hh2b)
      have hfuel2 : (S.hashIdx x :: suf).length + 1 ≤ S.capacity + 1 := by
        have h1 : (S.hashIdx x :: suf).length ≤
            (w.chains.getD (S.hashIdx ehead.name) []).length := by
          rw [hsplit2]; simp
        have h2 := w.chain_length_le hh2b
        unfold Hash.capacity
        omega
      have hwalk : Hash.removeFindAux S.entries x (-1)
          (Int.ofNat (S.hashIdx x)) (S.capacity + 1) =
          .ok (removeWalkSpec S.entries x (S.hashIdx x :: suf) (-1)) :=
        removeFindAux_on_chain S.entries x _ (S.hashIdx x) suf rfl hlink2 (-1)
          (S.capacity + 1) hfuel2
      rcases hws : removeWalkSpec S.entries x (S.hashIdx x :: suf) (-1)
        with ⟨lst, idx⟩
      rw [hws] at hwalk
      rw [hwalk] at hok
      dsimp only at hok
      rcases removeWalkSpec_cases S.entries x _ _ _ _ hws with
        ⟨hidxm, -⟩ | ⟨l1, v, l2, hsplit, -, -, hmatch, -⟩
      · subst hidxm
        rw [if_pos (by omega)] at hok
        injection hok with hok
        injection hok with h1 h2
        rw [← h1, ← h2]
        apply removePost_id S w x
        intro i hi e he hv2 hn
        have hm := w.hcomplete i hi e he hv2
        rw [hn, hnil] at hm
        exact absurd hm (by simp)
      · exfalso
        have hvin : v ∈ S.hashIdx x :: suf := by
          rw [hsplit]
          exact List.mem_append_right _ (List.mem_cons_self _ _)
        have hvmem : v ∈ w.chains.getD (S.hashIdx ehead.name) [] := by
          rw [hsplit2]
          exact List.mem_append_right _ hvin
        obtain ⟨e, he, -, hhash, -⟩ := w.mem_props hh2b hvmem
        unfold nameIs at hmatch
        rw [he] at hmatch
        have hnm : e.name = x := by simpa using hmatch
        rw [hnm] at hhash
        exact hhome hhash.symm
  · -- the home slot is invalid: the walk is validity-blind, but any
    -- mutation it performs only touches invalid slots
    have hvf : ehead.isValid = false := by
      revert hv; cases ehead.isValid <;> simp
    have hnil : w.chains.getD (S.hashIdx x) [] = [] := by
      apply w.chain_eq_nil hh2
      intro e he hev2 hhh
      rw [hhead] at he
      injection he with he
      subst he
      rw [hev2] at hvf
      exact absurd hvf (by simp)
    have hnox : ∀ i < S.entries.length, ∀ e ∈ S.entries[i]?,
        e.isValid = true → e.name ≠ x := by
      intro i hi e he hv2 hn
      have hm := w.hcomplete i hi e he hv2
      rw [hn, hnil] at hm
      exact absurd hm (by simp)
    rcases hw : Hash.removeFindAux S.entries x (-1)
        (Int.ofNat (S.hashIdx x)) (S.capacity + 1) with err | ⟨lst, idx⟩
    · rw [hw] at hok
      exact absurd hok (by simp)
    · rw [hw] at hok
      dsimp only at hok
      obtain ⟨hfirst, hsecond⟩ := removeFindAux_post S.entries x _ _ _ _ _ hw
      rcases hsecond with hidxm | ⟨hge, es, hes, hesname⟩
      · subst hidxm
        rw [if_pos (by omega)] at hok
        injection hok with hok
        injection hok with h1 h2
        rw [← h1, ← h2]
        exact removePost_id S w x hnox
      · rw [if_neg (by omega)] at hok
        rw [hes] at hok
        dsimp only at hok
        have heslt : idx.toNat < S.entries.length :=
          (List.getElem?_eq_some_iff.mp hes).1
        have hesinv : es.isValid = false := by
          by_contra hcon
          have hv2 : es.isValid = true := by
            revert hcon; cases es.isValid <;> simp
          exact hnox idx.toNat heslt es (by rw [Option.mem_def, hes]) hv2
            hesname
        rcases hfirst with ⟨hlst, hidx0⟩ | ⟨p, hlstp, ep, hep, hepname, hepnext⟩
        · -- matched the home slot itself: a stale self entry
          subst hlst
          rw [if_neg (by simp)] at hok
          have hidxtn : idx.toNat = S.hashIdx x := by rw [hidx0]; rfl
          have heseq : es = ehead := by
            rw [hidxtn, hhead] at hes
            injection hes with hes
            exact hes.symm
          have hheadname : ehead.name = x := by rw [← heseq]; exact hesname
          have hst := w.hstale (S.hashIdx x) hh ehead
            (by rw [Option.mem_def, hhead]) hvf
            (by rw [hheadname])
          have hpost : RemovePost S ⟨S.entries.set (S.hashIdx x)
              { ehead with flags := 0 }, (S.count + (U32 - 1)) % U32⟩
              true x := by
            apply removePost_staleMutation S _ w x
            · simp
            · intro i hi e he hv2
              rw [Option.mem_def] at he
              have hine : i ≠ S.hashIdx x := by
                intro hcon
                rw [hcon, hhead] at he
                injection he with he
                rw [← he] at hv2
                rw [hv2] at hvf
                exact absurd hvf (by simp)
              dsimp only
              rw [List.getElem?_set_ne (Ne.symm hine)]
              exact he
            · intro i hi e he hinv2 e2 he2
              rw [Option.mem_def] at he he2
              dsimp only at he2
              by_cases hcase : i = S.hashIdx x
              · subst hcase
                rw [List.getElem?_set_self'] at he2
                rw [List.getElem?_eq_getElem hi] at he2
                injection he2 with he2
                rw [← he2]
                exact isValid_clear_flags ehead
              · rw [List.getElem?_set_ne (fun hcon => hcase hcon.symm)] at he2
                rw [he] at he2
                injection he2 with he2
                rw [← he2]
                exact hinv2
            · intro i hi e2 he2 hinv2 hhash2
              rw [Option.mem_def] at he2
              dsimp only at he2 hi
              rw [List.length_set] at hi
              rw [hashIdx_congr S _ (by simp)] at hhash2
              by_cases hcase : i = S.hashIdx x
              · subst hcase
                rw [List.getElem?_set_self'] at he2
                rw [List.getElem?_eq_getElem hh] at he2
                injection he2 with he2
                rw [← he2] at hhash2 ⊢
                exact w.hstale (S.hashIdx x) hh ehead
                  (by rw [Option.mem_def, hhead]) hvf hhash2
              · rw [List.getElem?_set_ne (fun hcon => hcase hcon.symm)] at he2
                exact w.hstale i hi e2 (by rw [Option.mem_def, he2])
                  hinv2 hhash2
            · exact hnox
            · rfl
          rcases hst with hm1 | hself
          · rw [heseq, hm1] at hok
            rw [if_neg (by simp)] at hok
            rw [hidxtn] at hok
            injection hok with hok
            injection hok with h1 h2
            rw [← h1, ← h2, ← hm1]
            exact hpost
          · rw [heseq, hself] at hok
            rw [if_pos (by omega)] at hok
            rw [if_neg (by omega)] at hok
            have htnh : ((S.hashIdx x : Int)).toNat = S.hashIdx x :=
              Int.toNat_natCast _
            rw [htnh, hhead] at hok
            dsimp only at hok
            rw [hidxtn] at hok
            injection hok with hok
            injection hok with h1 h2
            rw [← h1, ← h2]
            rw [List.set_set]
            exact hpost
        · -- matched behind a stale predecessor: both touched slots are
          -- invalid
          have hplt : p < S.entries.length :=
            (List.getElem?_eq_some_iff.mp hep).1
          have hpinv : ep.isValid = false := by
            by_contra hcon
            have hpv : ep.isValid = true := by
              revert hcon; cases ep.isValid <;> simp
            have hpmem := w.hcomplete p hplt ep (by rw [Option.mem_def, hep])
              hpv
            have hh2c : S.hashIdx ep.name < w.chains.length := by
              rw [w.hlen]; exact hashIdx_lt S ep.name w.hpos
            obtain ⟨pre2, suf2, hsp⟩ := List.append_of_mem hpmem
            have hlk2 : Linked S.entries (p :: suf2) = true :=
              Linked_suffix S.entries pre2 _ suf2
                (by rw [← hsp]; exact w.hlink _ hh2c)
            rcases suf2 with _ | ⟨bb, tt⟩
            · unfold Linked at hlk2
              rw [hep] at hlk2
              have : ep.next = -1 := by simpa using hlk2
              rw [hepnext] at this
              omega
            · unfold Linked at hlk2
              rw [hep, Bool.and_eq_true] at hlk2
              have hbb : ep.next = (bb : Int) := by simpa using hlk2.1
              rw [hepnext] at hbb
              have hbbeq : idx.toNat = bb := by omega
              have hbbmem : bb ∈ w.chains.getD (S.hashIdx ep.name) [] := by
                rw [hsp]
                exact List.mem_append_right _
                  (List.mem_cons_of_mem _ (List.mem_cons_self _ _))
              obtain ⟨eb, heb, hebv, -, -⟩ := w.mem_props hh2c hbbmem
              rw [← hbbeq, hes] at heb
              injection heb with heb
              rw [← heb] at hebv
              rw [hebv] at hesinv
              exact absurd hesinv (by simp)
          have hps : p ≠ idx.toNat := by
            intro hcon
            rw [hcon, hes] at hep
            injection hep with hep
            rw [hep] at hesname
            exact hepname hesname
          subst hlstp
          rw [if_pos (by omega)] at hok
          have htnp : ((p : Int)).toNat = p := Int.toNat_natCast p
          rw [htnp] at hok
          rw [hep] at hok
          dsimp only at hok
          injection hok with hok
          injection hok with h1 h2
          rw [← h1, ← h2]
          apply removePost_staleMutation S _ w x
          · simp
          · intro i hi e he hv2
            rw [Option.mem_def] at he
            have hip : i ≠ p := by
              intro hcon
              rw [hcon, hep] at he
              injection he with he
              rw [← he] at hv2
              rw [hv2] at hpinv
              exact absurd hpinv (by simp)
            have his : i ≠ idx.toNat := by
              intro hcon
              rw [hcon, hes] at he
              injection he with he
              rw [← he] at hv2
              rw [hv2] at hesinv
              exact absurd hesinv (by simp)
            dsimp only
            rw [List.getElem?_set_ne (Ne.symm his),
              List.getElem?_set_ne (Ne.symm hip)]
            exact he
          · intro i hi e he hinv2 e2 he2
            rw [Option.mem_def] at he he2
            dsimp only at he2
            by_cases his : i = idx.toNat
            · subst his
              rw [List.getElem?_set_self'] at he2
              rw [List.getElem?_eq_getElem (by simpa using heslt)] at he2
              injection he2 with he2
              rw [← he2]
              exact isValid_clear_flags es
            · by_cases hip : i = p
              · have he2b : ((S.entries.set p { ep with next := es.next }).set
                    idx.toNat { es with flags := 0 })[i]? =
                    some { ep with next := es.next } := by
                  rw [hip]
                  rw [List.getElem?_set_ne (Ne.symm hps)]
                  rw [List.getElem?_set_self']
                  rw [List.getElem?_eq_getElem hplt]
                  rfl
                rw [he2b] at he2
                have he2c : ({ ep with next := es.next } : Entry V) = e2 :=
                  Option.some.inj he2
                rw [← he2c, isValid_set_next]
                exact hpinv
              · rw [List.getElem?_set_ne (fun hcon => his hcon.symm),
                  List.getElem?_set_ne (fun hcon => hip hcon.symm)] at he2
                rw [he] at he2
                exact (Option.some.inj he2) ▸ hinv2
          · intro i hi e2 he2 hinv2 hhash2
            rw [Option.mem_def] at he2
            dsimp only at he2 hi
            rw [List.length_set, List.length_set] at hi
            rw [hashIdx_congr S _ (by simp)] at hhash2
            by_cases his : i = idx.toNat
            · subst his
              have he2b : ((S.entries.set p { ep with next := es.next }).set
                  idx.toNat { es with flags := 0 })[idx.toNat]? =
                  some { es with flags := 0 } := by
                rw [List.getElem?_set_self']
                rw [List.getElem?_eq_getElem (by simpa using heslt)]
                rfl
              rw [he2b] at he2
              have he2c : ({ es with flags := 0 } : Entry V) = e2 :=
                Option.some.inj he2
              rw [← he2c] at hhash2 ⊢
              have hnm2 : ({ es with flags := 0 } : Entry V).name = es.name :=
                rfl
              have hnx2 : ({ es with flags := 0 } : Entry V).next = es.next :=
                rfl
              rw [hnm2, hesname] at hhash2
              rw [hnx2]
              have heseq2 : es = ehead := by
                rw [← hhash2, hhead] at hes
                exact (Option.some.inj hes).symm
              have hst := w.hstale (S.hashIdx x) hh ehead
                (by rw [Option.mem_def, hhead]) hvf
                (by rw [← heseq2, hesname])
              rw [heseq2, ← hhash2]
              exact hst
            · by_cases hip : i = p
              · exfalso
                have he2b : ((S.entries.set p { ep with next := es.next }).set
                    idx.toNat { es with flags := 0 })[i]? =
                    some { ep with next := es.next } := by
                  rw [hip]
                  rw [List.getElem?_set_ne (Ne.symm hps)]
                  rw [List.getElem?_set_self']
                  rw [List.getElem?_eq_getElem hplt]
                  rfl
                rw [he2b] at he2
                have he2c : ({ ep with next := es.next } : Entry V) = e2 :=
                  Option.some.inj he2
                rw [← he2c] at hhash2
                have hnm3 : ({ ep with next := es.next } : Entry V).name =
                    ep.name := rfl
                rw [hnm3, hip] at hhash2
                have hstp := w.hstale p hplt ep (by rw [Option.mem_def, hep])
                  hpinv hhash2
                rcases hstp with hm1 | hpp
                · rw [hepnext] at hm1
                  omega
                · rw [hepnext] at hpp
                  have hq : idx.toNat = p := by omega
                  exact hps hq.symm
              · rw [List.getElem?_set_ne (fun hcon => his hcon.symm),
                  List.getElem?_set_ne (fun hcon => hip hcon.symm)] at he2
                exact w.hstale i hi e2 (by rw [Option.mem_def, he2])
                  hinv2 hhash2
          · exact hnox
          · rfl

/-- The entry built by `from_descriptor` is valid. -/
theorem fromDescriptor_isValid {V : Type} (u : V) (d : JsDescriptor V)
    (name : Nat) (next : Int) :
    (Entry.fromDescriptor u d name next).isValid = true := by
  obtain ⟨-, -, -, -, hvb⟩ := flags_bits (d.writable.getD true)
    (d.configurable.getD true) (d.enumerable.getD true) d.isAccessor
  unfold Entry.fromDescriptor Entry.isValid
  cases hacc : d.isAccessor
  · rw [hacc] at hvb
    simpa using hvb
  · rw [hacc] at hvb
    simpa using hvb

/-- The entry built by `from_descriptor` carries the requested name. -/
theorem fromDescriptor_name {V : Type} (u : V) (d : JsDescriptor V)
    (name : Nat) (next : Int) :
    (Entry.fromDescriptor u d name next).name = name := by
  unfold Entry.fromDescriptor
  by_cases hacc : d.isAccessor <;> simp [hacc]

/-- The entry built by `from_descriptor` carries the requested link. -/
theorem fromDescriptor_next {V : Type} (u : V) (d : JsDescriptor V)
    (name : Nat) (next : Int) :
    (Entry.fromDescriptor u d name next).next = next := by
  unfold Entry.fromDescriptor
  by_cases hacc : d.isAccessor <;> simp [hacc]

/-- A `find_entry` miss makes `get_value` report absence, with no
well-formedness needed. -/
theorem getValue_of_findEntry_none {V : Type} (S : Hash V) (x : Nat)
    (h : S.findEntry x = .ok none) : S.getValue x = .ok none := by
  unfold Hash.getValue
  rw [h]

/-- On a miss, a valid home-slot entry cannot carry the searched name (the
walk would have stopped there first). -/
theorem findEntry_none_head {V : Type} (S : Hash V) (x : Nat) (e : Entry V)
    (hhead : S.entries[S.hashIdx x]? = some e) (hv : e.isValid = true)
    (h : S.findEntry x = .ok none) : e.name ≠ x := by
  intro hn
  unfold Hash.findEntry at h
  dsimp only at h
  rw [hhead] at h
  dsimp only at h
  rw [if_neg (by simp [hv])] at h
  unfold Hash.findEntryAux at h
  rw [hhead] at h
  dsimp only at h
  rw [if_pos hn] at h
  exact absurd h (by simp)

/-- The fold of `grow_entries` stays in the error state. -/
theorem growFold_error {V : Type} (u : V) (fuel : Nat) (err : HashPanic) :
    ∀ old : List (Entry V),
    (old.foldl
      (fun (acc : Except HashPanic (Hash V)) e =>
        match acc with
        | .error err2 => .error err2
        | .ok T =>
            if e.isValid then Hash.add u fuel T e.name e.asProperty
            else .ok T)
      (.error err)) = .error err := by
  intro old
  induction old with
  | nil => rfl
  | cons e rest ih => exact ih

/-- The free-slot scan returns an in-range invalid slot. -/
theorem findFree_spec {V : Type} (entries : List (Entry V)) :
    ∀ (fuel start f : Nat), Hash.findFree entries start fuel = .ok f →
    f < entries.length ∧ ∃ e, entries[f]? = some e ∧ e.isValid = false := by
  intro fuel
  induction fuel with
  | zero => intro start f h; exact absurd h (by simp [Hash.findFree])
  | succ fuel ih =>
      intro start f h
      unfold Hash.findFree at h
      dsimp only at h
      rcases he : entries[if start = entries.length then 0 else start]?
        with _ | e
      · rw [he] at h
        exact absurd h (by simp)
      · rw [he] at h
        dsimp only at h
        by_cases hv : e.isValid
        · rw [if_neg (by simp [hv])] at h
          exact ih _ f h
        · rw [if_pos (by simpa using hv)] at h
          injection h with h
          subst h
          refine ⟨(List.getElem?_eq_some_iff.mp he).1, e, he, by simpa using hv⟩

/-- The chain-tail walk of `add` along a linked chain returns its last
slot. -/
theorem chainTail_on_chain {V : Type} (entries : List (Entry V)) :
    ∀ l : List Nat, ∀ hd suf (heq : l = hd :: suf),
    Linked entries l = true →
    ∀ fuel, l.length ≤ fuel →
    Hash.chainTail entries hd fuel = .ok (l.getLast (by rw [heq]; simp)) := by
  intro l
  induction l with
  | nil => intro hd suf h; exact absurd h (by simp)
  | cons a t ih =>
      intro hd suf heq hlink fuel hfuel
      injection heq with h1 h2
      subst h1
      rcases fuel with _ | fuel
      · exact absurd hfuel (by simp)
      · unfold Hash.chainTail
        rcases t with _ | ⟨b, t2⟩
        · unfold Linked at hlink
          rcases hx : entries[a]? with _ | e
          · rw [hx] at hlink
            exact absurd hlink (by simp)
          · dsimp only
            rw [hx] at hlink
            have hnext : e.next = -1 := by simpa using hlink
            rw [if_pos hnext]
            rfl
        · unfold Linked at hlink
          rcases hx : entries[a]? with _ | e
          · rw [hx] at hlink
            exact absurd hlink (by simp)
          · dsimp only
            rw [hx] at hlink
            rw [Bool.and_eq_true] at hlink
            have hnext : e.next = (b : Int) := by simpa using hlink.1
            rw [if_neg (by omega), if_neg (by omega)]
            have htn : e.next.toNat = b := by
              rw [hnext]; exact Int.toNat_natCast b
            rw [htn]
            have := ih b t2 rfl hlink.2 fuel (by simp at hfuel ⊢; omega)
            rw [this]
            congr 1

/-- The last slot of a linked chain carries the terminating link. -/
theorem Linked_getLast {V : Type} (entries : List (Entry V)) :
    ∀ l : List Nat, ∀ hd suf (heq : l = hd :: suf),
    Linked entries l = true →
    ∃ e, entries[l.getLast (by rw [heq]; simp)]? = some e ∧ e.next = -1 := by
  intro l
  induction l with
  | nil => intro hd suf h; exact absurd h (by simp)
  | cons a t ih =>
      intro hd suf heq hlink
      injection heq with h1 h2
      subst h1
      rcases t with _ | ⟨b, t2⟩
      · unfold Linked at hlink
        rcases hx : entries[a]? with _ | e
        · rw [hx] at hlink; exact absurd hlink (by simp)
        · rw [hx] at hlink
          refine ⟨e, ?_, by simpa using hlink⟩
          exact hx
      · unfold Linked at hlink
        rw [Bool.and_eq_true] at hlink
        obtain ⟨e, he, hnext⟩ := ih b t2 rfl hlink.2
        refine ⟨e, ?_, hnext⟩
        rw [List.getLast_cons (by simp)]
        exact he

/-- Appending a freshly linked slot to a linked chain keeps it linked, as
`add`'s tail-append does. -/
theorem Linked_snoc {V : Type} (entries entries2 : List (Entry V))
    (free : Nat) (enew : Entry V)
    (hfree : entries2[free]? = some enew) (hnew : enew.next = -1) :
    ∀ l : List Nat, ∀ hd suf (heq : l = hd :: suf),
    Linked entries l = true → l.Nodup →
    (∀ a ∈ l, a ≠ l.getLast (by rw [heq]; simp) → entries2[a]? = entries[a]?) →
    (∀ et, entries[l.getLast (by rw [heq]; simp)]? = some et →
      entries2[l.getLast (by rw [heq]; simp)]? =
        some { et with next := (free : Int) }) →
    Linked entries2 (l ++ [free]) = true := by
  intro l
  induction l with
  | nil => intro hd suf h; exact absurd h (by simp)
  | cons a t ih =>
      intro hd suf heq hlink hnd hagree htail
      injection heq with h1 h2
      subst h1
      rcases t with _ | ⟨b, t2⟩
      · unfold Linked at hlink
        rcases hx : entries[a]? with _ | e
        · rw [hx] at hlink; exact absurd hlink (by simp)
        · have hlast : [a].getLast (by simp) = a := rfl
          have h2a := htail e (by rw [hlast]; exact hx)
          rw [hlast] at h2a
          rw [List.cons_append, List.nil_append]
          unfold Linked
          rw [h2a, Bool.and_eq_true]
          constructor
          · simp
          · unfold Linked
            rw [hfree]
            simpa using hnew
      · have hlast : (a :: b :: t2).getLast (by simp) =
            (b :: t2).getLast (by simp) := List.getLast_cons (by simp)
        unfold Linked at hlink
        rw [Bool.and_eq_true] at hlink
        rcases hx : entries[a]? with _ | e
        · rw [hx] at hlink; exact absurd hlink.1 (by simp)
        · rw [hx] at hlink
          have hane : a ≠ (a :: b :: t2).getLast (by simp) := by
            intro hcon
            have hmem : (b :: t2).getLast (by simp) ∈ b :: t2 :=
              List.getLast_mem _
            rw [hlast] at hcon
            rw [← hcon] at hmem
            exact (List.nodup_cons.mp hnd).1 hmem
          have h2a : entries2[a]? = some e := by
            rw [hagree a (List.mem_cons_self _ _) hane]
            exact hx
          rw [List.cons_append, List.cons_append]
          unfold Linked
          rw [h2a, Bool.and_eq_true]
          refine ⟨by simpa using hlink.1, ?_⟩
          have hrest := ih b t2 rfl hlink.2 (List.nodup_cons.mp hnd).2
            (fun c hc hcne => hagree c (List.mem_cons_of_mem _ hc)
              (by rw [hlast]; exact hcne))
            (fun et het => by
              have := htail et (by rw [hlast]; exact het)
              rw [hlast] at this
              exact this)
          rw [List.cons_append] at hrest
          exact hrest

/-- `PlacePost` assembled from slot-level transfer facts. -/
theorem placePost_ofSlots {V : Type} (u : V) (T S2 : Hash V) (w : WF T)
    (w2 : WF S2) (x : Nat) (v : JsDescriptor V)
    (hcap : S2.capacity = T.capacity)
    (hslot : ∃ (j : Nat) (e2 : Entry V), S2.entries[j]? = some e2 ∧
      e2.isValid = true ∧ e2.name = x ∧ e2.asProperty = mergeDefaults u v)
    (htransfer : ∀ y : Nat, y ≠ x → ∀ (i : Nat) (e : Entry V),
      T.entries[i]? = some e → e.isValid = true → e.name = y →
      ∃ (j : Nat) (e2 : Entry V), S2.entries[j]? = some e2 ∧
        e2.isValid = true ∧ e2.name = y ∧ e2.asProperty = e.asProperty)
    (hback : ∀ (j : Nat) (e2 : Entry V), S2.entries[j]? = some e2 →
      e2.isValid = true → e2.name ≠ x →
      ∃ (i : Nat) (e : Entry V), T.entries[i]? = some e ∧ e.isValid = true ∧
        e.name = e2.name)
    (hvc : validCount S2 = validCount T + 1) :
    PlacePost u T S2 x v := by
  obtain ⟨j, e2, hj, hv2, hn2, hprop⟩ := hslot
  refine ⟨⟨w2⟩, hcap, ?_, ?_, hvc⟩
  · rw [getValue_of_valid_slot S2 w2 hj hv2 hn2, hprop]
  · intro y hy
    by_cases hex : ∃ (i : Nat) (e : Entry V), T.entries[i]? = some e ∧
        e.isValid = true ∧ e.name = y
    · obtain ⟨i, e, he, hv, hn⟩ := hex
      obtain ⟨j2, e3, hj2, hv3, hn3, hprop3⟩ := htransfer y hy i e he hv hn
      rw [getValue_of_valid_slot T w he hv hn,
        getValue_of_valid_slot S2 w2 hj2 hv3 hn3, hprop3]
    · have hT : T.getValue y = .ok none := by
        apply getValue_none_of_no_name T w
        intro i hi e he hv hn
        rw [Option.mem_def] at he
        exact hex ⟨i, e, he, hv, hn⟩
      have hS2 : S2.getValue y = .ok none := by
        apply getValue_none_of_no_name S2 w2
        intro i hi e3 he3 hv3 hn
        rw [Option.mem_def] at he3
        obtain ⟨i0, e0, he0, hv0, hn0⟩ := hback i e3 he3 hv3 (by rw [hn]; exact hy)
        exact hex ⟨i0, e0, he0, hv0, by rw [hn0, hn]⟩
      rw [hT, hS2]

/-- `PlacePost` for placing into an invalid home slot (fresh zero-filled
slot, or the slot an eviction just cleared): `add` writes the descriptor
entry with no chain link. -/
theorem addPost_place {V : Type} (u : V) (T : Hash V) (w : WF T) (x : Nat)
    (v : JsDescriptor V) (c3 : Nat) (eh : Entry V)
    (hhead : T.entries[T.hashIdx x]? = some eh) (hinv : eh.isValid = false)
    (habs : ∀ i < T.entries.length, ∀ e ∈ T.entries[i]?, e.isValid = true →
      e.name ≠ x) :
    PlacePost u T ⟨T.entries.set (T.hashIdx x)
      (Entry.fromDescriptor u v x (-1)), c3⟩ x v := by
  have hh : T.hashIdx x < T.entries.length := hashIdx_lt T x w.hpos
  have hh2 : T.hashIdx x < w.chains.length := by rw [w.hlen]; exact hh
  have hnil : w.chains.getD (T.hashIdx x) [] = [] := by
    apply w.chain_eq_nil hh2
    intro e he hev2 hhh
    rw [hhead] at he
    injection he with he
    subst he
    rw [hev2] at hinv
    exact absurd hinv (by simp)
  have hlenE : (T.entries.set (T.hashIdx x)
      (Entry.fromDescriptor u v x (-1))).length = T.entries.length := by simp
  have hidx : ∀ y : Nat,
      (⟨T.entries.set (T.hashIdx x) (Entry.fromDescriptor u v x (-1)), c3⟩
        : Hash V).hashIdx y = T.hashIdx y :=
    hashIdx_congr T _ hlenE
  have hEself : (T.entries.set (T.hashIdx x)
      (Entry.fromDescriptor u v x (-1)))[T.hashIdx x]? =
      some (Entry.fromDescriptor u v x (-1)) := by
    rw [List.getElem?_set_self']
    rw [List.getElem?_eq_getElem hh]
    rfl
  have hEne : ∀ a : Nat, a ≠ T.hashIdx x →
      (T.entries.set (T.hashIdx x) (Entry.fromDescriptor u v x (-1)))[a]? =
      T.entries[a]? :=
    fun a ha => List.getElem?_set_ne (Ne.symm ha)
  have hnoth : ∀ h2 < w.chains.length, h2 ≠ T.hashIdx x →
      ∀ a ∈ w.chains.getD h2 [], a ≠ T.hashIdx x := by
    intro h2 hh2b hne a ha hav
    subst hav
    obtain ⟨e, he, hev, -, -⟩ := w.mem_props hh2b ha
    rw [hhead] at he
    injection he with he
    subst he
    rw [hev] at hinv
    exact absurd hinv (by simp)
  have w2 : WF (⟨T.entries.set (T.hashIdx x)
      (Entry.fromDescriptor u v x (-1)), c3⟩ : Hash V) := by
    refine ⟨w.chains.set (T.hashIdx x) [T.hashIdx x],
      ?_, ?_, ?_, ?_, ?_, ?_, ?_, ?_, ?_⟩
    · simp [w.hlen]
    · simpa using w.hpos
    · intro h2 hh2b a ha
      rw [List.length_set] at hh2b
      by_cases hcase : h2 = T.hashIdx x
      · subst hcase
        rw [getD_set_self _ _ _ hh2] at ha
        rw [List.head?_cons, Option.mem_def] at ha
        injection ha with ha
        exact ha.symm
      · rw [getD_set_ne _ _ _ _ (fun hc => hcase hc.symm)] at ha
        exact w.hhead h2 hh2b a ha
    · intro h2 hh2b a ha
      rw [List.length_set] at hh2b
      by_cases hcase : h2 = T.hashIdx x
      · subst hcase
        rw [getD_set_self _ _ _ hh2] at ha
        rw [List.mem_singleton] at ha
        subst ha
        dsimp only
        rw [hEself]
        simp only [hidx]
        simp [Option.any, fromDescriptor_isValid, fromDescriptor_name]
      · rw [getD_set_ne _ _ _ _ (fun hc => hcase hc.symm)] at ha
        dsimp only
        rw [hEne a (hnoth h2 hh2b hcase a ha)]
        simp only [hidx]
        exact w.hmem h2 hh2b a ha
    · intro h2 hh2b
      rw [List.length_set] at hh2b
      by_cases hcase : h2 = T.hashIdx x
      · subst hcase
        rw [getD_set_self _ _ _ hh2]
        unfold Linked
        dsimp only
        rw [hEself]
        simp [fromDescriptor_next]
      · rw [getD_set_ne _ _ _ _ (fun hc => hcase hc.symm)]
        rw [Linked_congr T.entries _ _ (fun a ha =>
          hEne a (hnoth h2 hh2b hcase a ha))]
        exact w.hlink h2 hh2b
    · intro h2 hh2b
      rw [List.length_set] at hh2b
      by_cases hcase : h2 = T.hashIdx x
      · subst hcase
        rw [getD_set_self _ _ _ hh2]
        simp
      · rw [getD_set_ne _ _ _ _ (fun hc => hcase hc.symm)]
        exact w.hnodup h2 hh2b
    · intro i hi e2 he2 hv2
      rw [Option.mem_def] at he2
      dsimp only at he2 hi
      rw [hlenE] at hi
      by_cases hih : i = T.hashIdx x
      · subst hih
        rw [hEself] at he2
        injection he2 with he2
        subst he2
        simp only [hidx]
        rw [fromDescriptor_name, getD_set_self _ _ _ hh2]
        exact List.mem_singleton.mpr rfl
      · rw [hEne i hih] at he2
        have hmem2 := w.hcomplete i hi e2 (by rw [Option.mem_def, he2]) hv2
        simp only [hidx]
        by_cases hhome : T.hashIdx e2.name = T.hashIdx x
        · rw [hhome, hnil] at hmem2
          exact absurd hmem2 (by simp)
        · rw [getD_set_ne _ _ _ _ (fun hc => hhome hc.symm)]
          exact hmem2
    · intro i hi j hj e1 he1 e2 he2 hv1 hv2 hnameeq
      rw [Option.mem_def] at he1 he2
      dsimp only at he1 he2 hi hj
      rw [hlenE] at hi hj
      by_cases hih : i = T.hashIdx x
      · by_cases hjh : j = T.hashIdx x
        · rw [hih, hjh]
        · exfalso
          rw [hih, hEself] at he1
          injection he1 with he1
          rw [hEne j hjh] at he2
          have hn1 : e1.name = x := by rw [← he1, fromDescriptor_name]
          exact habs j hj e2 (by rw [Option.mem_def, he2]) hv2
            (by rw [← hnameeq, hn1])
      · by_cases hjh : j = T.hashIdx x
        · exfalso
          rw [hjh, hEself] at he2
          injection he2 with he2
          rw [hEne i hih] at he1
          have hn2 : e2.name = x := by rw [← he2, fromDescriptor_name]
          exact habs i hi e1 (by rw [Option.mem_def, he1]) hv1
            (by rw [hnameeq, hn2])
        · rw [hEne i hih] at he1
          rw [hEne j hjh] at he2
          exact w.hnames i hi j hj e1 (by rw [Option.mem_def, he1])
            e2 (by rw [Option.mem_def, he2]) hv1 hv2 hnameeq
    · intro i hi e2 he2 hinv2 hhash2
      rw [Option.mem_def] at he2
      dsimp only at he2 hi
      rw [hlenE] at hi
      rw [hidx] at hhash2
      by_cases hih : i = T.hashIdx x
      · subst hih
        rw [hEself] at he2
        injection he2 with he2
        rw [← he2, fromDescriptor_isValid] at hinv2
        exact absurd hinv2 (by simp)
      · rw [hEne i hih] at he2
        exact w.hstale i hi e2 (by rw [Option.mem_def, he2]) hinv2 hhash2
  apply placePost_ofSlots u T _ w w2 x v
  · simp [Hash.capacity]
  · refine ⟨T.hashIdx x, Entry.fromDescriptor u v x (-1), hEself,
      fromDescriptor_isValid u v x (-1), fromDescriptor_name u v x (-1),
      asProperty_fromDescriptor u v x (-1)⟩
  · intro y hy i e he hv hn
    have hih : i ≠ T.hashIdx x := by
      intro hc
      rw [hc, hhead] at he
      injection he with he
      rw [← he] at hv
      rw [hv] at hinv
      exact absurd hinv (by simp)
    exact ⟨i, e, by rw [hEne i hih]; exact he, hv, hn, rfl⟩
  · intro j e2 he2 hv2 hn2
    by_cases hjh : j = T.hashIdx x
    · exfalso
      rw [hjh, hEself] at he2
      injection he2 with he2
      exact hn2 (by rw [← he2, fromDescriptor_name])
    · rw [hEne j hjh] at he2
      exact ⟨j, e2, he2, hv2, rfl⟩
  · have := validCountL_set T.entries (T.hashIdx x) eh
      (Entry.fromDescriptor u v x (-1)) hhead
    rw [hinv, fromDescriptor_isValid] at this
    simp at this
    rw [validCount_eq, validCount_eq]
    dsimp only
    omega

/-- `PlacePost` for `add`'s chain-append path: the new entry lands in a
free slot, and the chain's tail is relinked to it. -/
theorem addPost_append {V : Type} (u : V) (T : Hash V) (w : WF T) (x : Nat)
    (v : JsDescriptor V) (c3 : Nat) (t : List Nat) (free : Nat)
    (et ef : Entry V)
    (hchain : w.chains.getD (T.hashIdx x) [] = T.hashIdx x :: t)
    (habs : ∀ i < T.entries.length, ∀ e ∈ T.entries[i]?, e.isValid = true →
      e.name ≠ x)
    (hfree : T.entries[free]? = some ef) (hfinv : ef.isValid = false)
    (het : (T.entries.set free
      (Entry.fromDescriptor u v x (-1)))[(T.hashIdx x :: t).getLast
        (by simp)]? = some et) :
    PlacePost u T ⟨(T.entries.set free (Entry.fromDescriptor u v x (-1))).set
      ((T.hashIdx x :: t).getLast (by simp)) { et with next := (free : Int) },
      c3⟩ x v := by
  have hh : T.hashIdx x < T.entries.length := hashIdx_lt T x w.hpos
  have hh2 : T.hashIdx x < w.chains.length := by rw [w.hlen]; exact hh
  have hlk : Linked T.entries (T.hashIdx x :: t) = true := by
    rw [← hchain]; exact w.hlink _ hh2
  have hnd : (T.hashIdx x :: t).Nodup := by
    rw [← hchain]; exact w.hnodup _ hh2
  have hfreemem : ∀ a ∈ w.chains.getD (T.hashIdx x) [], a ≠ free := by
    intro a ha hav
    subst hav
    obtain ⟨e, he, hev, -, -⟩ := w.mem_props hh2 ha
    rw [hfree] at he
    injection he with he
    subst he
    rw [hev] at hfinv
    exact absurd hfinv (by simp)
  have htailmem : (T.hashIdx x :: t).getLast (by simp) ∈
      w.chains.getD (T.hashIdx x) [] := by
    rw [hchain]
    exact List.getLast_mem _
  obtain ⟨etb, hetb, htvalid, hthash, htlt⟩ := w.mem_props hh2 htailmem
  have htf : (T.hashIdx x :: t).getLast (by simp) ≠ free :=
    hfreemem _ htailmem
  have heteq : et = etb := by
    rw [List.getElem?_set_ne (Ne.symm htf), hetb] at het
    injection het with het
    exact het.symm
  subst heteq
  obtain ⟨etl, hetl, htnext⟩ := Linked_getLast T.entries (T.hashIdx x :: t)
    (T.hashIdx x) t rfl hlk
  have hetleq : etl = et := by
    rw [hetb] at hetl
    injection hetl with hetl
    exact hetl.symm
  have htnext2 : et.next = -1 := by rw [← hetleq]; exact htnext
  have hflt : free < T.entries.length := (List.getElem?_eq_some_iff.mp hfree).1
  have hlenE : ((T.entries.set free (Entry.fromDescriptor u v x (-1))).set
      ((T.hashIdx x :: t).getLast (by simp))
      { et with next := (free : Int) }).length = T.entries.length := by simp
  have hidx : ∀ y : Nat,
      (⟨(T.entries.set free (Entry.fromDescriptor u v x (-1))).set
        ((T.hashIdx x :: t).getLast (by simp)) { et with next := (free : Int) },
        c3⟩ : Hash V).hashIdx y = T.hashIdx y :=
    hashIdx_congr T _ hlenE
  have hE2f : ((T.entries.set free (Entry.fromDescriptor u v x (-1))).set
      ((T.hashIdx x :: t).getLast (by simp))
      { et with next := (free : Int) })[free]? =
      some (Entry.fromDescriptor u v x (-1)) := by
    rw [List.getElem?_set_ne htf, List.getElem?_set_self']
    rw [List.getElem?_eq_getElem hflt]
    rfl
  have hE2t : ((T.entries.set free (Entry.fromDescriptor u v x (-1))).set
      ((T.hashIdx x :: t).getLast (by simp))
      { et with next := (free : Int) })[(T.hashIdx x :: t).getLast
        (by simp)]? = some { et with next := (free : Int) } := by
    rw [List.getElem?_set_self']
    rw [List.getElem?_eq_getElem (by simpa using htlt)]
    rfl
  have hE2o : ∀ a : Nat, a ≠ free →
      a ≠ (T.hashIdx x :: t).getLast (by simp) →
      ((T.entries.set free (Entry.fromDescriptor u v x (-1))).set
        ((T.hashIdx x :: t).getLast (by simp))
        { et with next := (free : Int) })[a]? = T.entries[a]? := by
    intro a haf hat
    rw [List.getElem?_set_ne (Ne.symm hat), List.getElem?_set_ne (Ne.symm haf)]
  have hvalid2 : ({ et with next := (free : Int) } : Entry V).isValid = true :=
    by rw [isValid_set_next]; exact htvalid
  have hnot2 : ∀ h2 < w.chains.length, h2 ≠ T.hashIdx x →
      ∀ a ∈ w.chains.getD h2 [], a ≠ free ∧
        a ≠ (T.hashIdx x :: t).getLast (by simp) := by
    intro h2 hh2b hne a ha
    obtain ⟨e, he, hev, hhash, -⟩ := w.mem_props hh2b ha
    constructor
    · intro hc
      subst hc
      rw [hfree] at he
      injection he with he
      subst he
      rw [hev] at hfinv
      exact absurd hfinv (by simp)
    · intro hc
      subst hc
      rw [hetb] at he
      injection he with he
      subst he
      exact hne (hhash.symm.trans hthash)
  have w2 : WF (⟨(T.entries.set free (Entry.fromDescriptor u v x (-1))).set
      ((T.hashIdx x :: t).getLast (by simp)) { et with next := (free : Int) },
      c3⟩ : Hash V) := by
    refine ⟨w.chains.set (T.hashIdx x) ((T.hashIdx x :: t) ++ [free]),
      ?_, ?_, ?_, ?_, ?_, ?_, ?_, ?_, ?_⟩
    · simp [w.hlen]
    · simpa using w.hpos
    · intro h2 hh2b a ha
      rw [List.length_set] at hh2b
      by_cases hcase : h2 = T.hashIdx x
      · subst hcase
        rw [getD_set_self _ _ _ hh2] at ha
        rw [List.cons_append, List.head?_cons, Option.mem_def] at ha
        injection ha with ha
        exact ha.symm
      · rw [getD_set_ne _ _ _ _ (fun hc => hcase hc.symm)] at ha
        exact w.hhead h2 hh2b a ha
    · intro h2 hh2b a ha
      rw [List.length_set] at hh2b
      by_cases hcase : h2 = T.hashIdx x
      · subst hcase
        rw [getD_set_self _ _ _ hh2] at ha
        dsimp only
        rcases List.mem_append.mp ha with ha | ha
        · by_cases hat : a = (T.hashIdx x :: t).getLast (by simp)
          · subst hat
            rw [hE2t]
            simp only [hidx]
            simp [Option.any, hvalid2]
            simpa using hthash
          · have haf : a ≠ free := hfreemem a (by rw [hchain]; exact ha)
            rw [hE2o a haf hat]
            simp only [hidx]
            exact w.hmem _ hh2 a (by rw [hchain]; exact ha)
        · rw [List.mem_singleton] at ha
          subst ha
          rw [hE2f]
          simp only [hidx]
          simp [Option.any, fromDescriptor_isValid, fromDescriptor_name]
      · rw [getD_set_ne _ _ _ _ (fun hc => hcase hc.symm)] at ha
        have haB := hnot2 h2 hh2b hcase a ha
        dsimp only
        rw [hE2o a haB.1 haB.2]
        simp only [hidx]
        exact w.hmem h2 hh2b a ha
    · intro h2 hh2b
      rw [List.length_set] at hh2b
      by_cases hcase : h2 = T.hashIdx x
      · subst hcase
        rw [getD_set_self _ _ _ hh2]
        apply Linked_snoc T.entries _ free (Entry.fromDescriptor u v x (-1))
          hE2f (fromDescriptor_next u v x (-1)) (T.hashIdx x :: t)
          (T.hashIdx x) t rfl hlk hnd
        · intro a ha hane
          exact hE2o a (hfreemem a (by rw [hchain]; exact ha)) hane
        · intro et2 het2
          rw [hetb] at het2
          injection het2 with het2
          subst het2
          exact hE2t
      · rw [getD_set_ne _ _ _ _ (fun hc => hcase hc.symm)]
        rw [Linked_congr T.entries _ _ (fun a ha =>
          hE2o a (hnot2 h2 hh2b hcase a ha).1 (hnot2 h2 hh2b hcase a ha).2)]
        exact w.hlink h2 hh2b
    · intro h2 hh2b
      rw [List.length_set] at hh2b
      by_cases hcase : h2 = T.hashIdx x
      · subst hcase
        rw [getD_set_self _ _ _ hh2]
        rw [List.nodup_append]
        refine ⟨hnd, by simp, ?_⟩
        intro a ha hb
        rw [List.mem_singleton] at hb
        subst hb
        exact hfreemem a (by rw [hchain]; exact ha) rfl
      · rw [getD_set_ne _ _ _ _ (fun hc => hcase hc.symm)]
        exact w.hnodup h2 hh2b
    · intro i hi e2 he2 hv2
      rw [Option.mem_def] at he2
      dsimp only at he2 hi
      rw [hlenE] at hi
      by_cases hif : i = free
      · subst hif
        rw [hE2f] at he2
        injection he2 with he2
        subst he2
        simp only [hidx]
        rw [fromDescriptor_name, getD_set_self _ _ _ hh2]
        exact List.mem_append_right _ (List.mem_singleton.mpr rfl)
      · by_cases hit : i = (T.hashIdx x :: t).getLast (by simp)
        · rw [hit, hE2t] at he2
          injection he2 with he2
          subst he2
          simp only [hidx]
          have hnm : ({ et with next := (free : Int) } : Entry V).name =
              et.name := rfl
          rw [hnm, hthash, getD_set_self _ _ _ hh2]
          apply List.mem_append_left
          rw [hit]
          exact List.getLast_mem _
        · rw [hE2o i hif hit] at he2
          have hmem2 := w.hcomplete i hi e2 (by rw [Option.mem_def, he2]) hv2
          simp only [hidx]
          by_cases hhome : T.hashIdx e2.name = T.hashIdx x
          · rw [hhome] at hmem2 ⊢
            rw [getD_set_self _ _ _ hh2]
            apply List.mem_append_left
            rw [← hchain]
            exact hmem2
          · rw [getD_set_ne _ _ _ _ (fun hc => hhome hc.symm)]
            exact hmem2
    · intro i hi j hj e1 he1 e2 he2 hv1 hv2 hnameeq
      rw [Option.mem_def] at he1 he2
      dsimp only at he1 he2 hi hj
      rw [hlenE] at hi hj
      have key : ∀ (k : Nat), k < T.entries.length →
          ∀ ek : Entry V,
          ((T.entries.set free (Entry.fromDescriptor u v x (-1))).set
            ((T.hashIdx x :: t).getLast (by simp))
            { et with next := (free : Int) })[k]? = some ek →
          ek.isValid = true → k ≠ free →
          ∃ ek0 : Entry V, T.entries[k]? = some ek0 ∧ ek0.isValid = true ∧
            ek0.name = ek.name := by
        intro k hk ek hek hvk hkf
        by_cases hkt : k = (T.hashIdx x :: t).getLast (by simp)
        · rw [hkt, hE2t] at hek
          injection hek with hek
          refine ⟨et, by rw [hkt]; exact hetb, htvalid, ?_⟩
          rw [← hek]
        · rw [hE2o k hkf hkt] at hek
          exact ⟨ek, hek, hvk, rfl⟩
      by_cases hif : i = free
      · by_cases hjf : j = free
        · rw [hif, hjf]
        · exfalso
          rw [hif, hE2f] at he1
          injection he1 with he1
          obtain ⟨e20, he20, hv20, hn20⟩ := key j hj e2 he2 hv2 hjf
          apply habs j hj e20 (by rw [Option.mem_def, he20]) hv20
          rw [hn20, ← hnameeq, ← he1, fromDescriptor_name]
      · by_cases hjf : j = free
        · exfalso
          rw [hjf, hE2f] at he2
          injection he2 with he2
          obtain ⟨e10, he10, hv10, hn10⟩ := key i hi e1 he1 hv1 hif
          apply habs i hi e10 (by rw [Option.mem_def, he10]) hv10
          rw [hn10, hnameeq, ← he2, fromDescriptor_name]
        · obtain ⟨e10, he10, hv10, hn10⟩ := key i hi e1 he1 hv1 hif
          obtain ⟨e20, he20, hv20, hn20⟩ := key j hj e2 he2 hv2 hjf
          exact w.hnames i hi j hj e10 (by rw [Option.mem_def, he10])
            e20 (by rw [Option.mem_def, he20]) hv10 hv20
            (by rw [hn10, hn20, hnameeq])
    · intro i hi e2 he2 hinv2 hhash2
      rw [Option.mem_def] at he2
      dsimp only at he2 hi
      rw [hlenE] at hi
      rw [hidx] at hhash2
      by_cases hif : i = free
      · exfalso
        rw [hif, hE2f] at he2
        injection he2 with he2
        rw [← he2, fromDescriptor_isValid] at hinv2
        exact absurd hinv2 (by simp)
      · by_cases hit : i = (T.hashIdx x :: t).getLast (by simp)
        · exfalso
          rw [hit, hE2t] at he2
          injection he2 with he2
          rw [← he2, hvalid2] at hinv2
          exact absurd hinv2 (by simp)
        · rw [hE2o i hif hit] at he2
          exact w.hstale i hi e2 (by rw [Option.mem_def, he2]) hinv2 hhash2
  apply placePost_ofSlots u T _ w w2 x v
  · simp [Hash.capacity]
  · exact ⟨free, Entry.fromDescriptor u v x (-1), hE2f,
      fromDescriptor_isValid u v x (-1), fromDescriptor_name u v x (-1),
      asProperty_fromDescriptor u v x (-1)⟩
  · intro y hy i e he hv hn
    by_cases hif : i = free
    · exfalso
      rw [hif, hfree] at he
      injection he with he
      rw [← he] at hv
      rw [hv] at hfinv
      exact absurd hfinv (by simp)
    · by_cases hit : i = (T.hashIdx x :: t).getLast (by simp)
      · refine ⟨i, { et with next := (free : Int) }, by rw [hit]; exact hE2t,
          hvalid2, ?_, ?_⟩
        · rw [hit, hetb] at he
          injection he with he
          subst he
          exact hn
        · rw [hit, hetb] at he
          injection he with he
          subst he
          rw [asProperty_set_next]
      · exact ⟨i, e, by rw [hE2o i hif hit]; exact he, hv, hn, rfl⟩
  · intro j e2 he2 hv2 hn2
    by_cases hjf : j = free
    · exfalso
      rw [hjf, hE2f] at he2
      injection he2 with he2
      exact hn2 (by rw [← he2, fromDescriptor_name])
    · by_cases hjt : j = (T.hashIdx x :: t).getLast (by simp)
      · refine ⟨j, et, by rw [hjt]; exact hetb, htvalid, ?_⟩
        rw [hjt, hE2t] at he2
        injection he2 with he2
        rw [← he2]
      · rw [hE2o j hjf hjt] at he2
        exact ⟨j, e2, he2, hv2, rfl⟩
  · have hstep1 := validCountL_set T.entries free ef
      (Entry.fromDescriptor u v x (-1)) hfree
    rw [hfinv, fromDescriptor_isValid] at hstep1
    have hE1t : (T.entries.set free
        (Entry.fromDescriptor u v x (-1)))[(T.hashIdx x :: t).getLast
          (by simp)]? = some et := by
      rw [List.getElem?_set_ne (Ne.symm htf)]
      exact hetb
    have hstep2 := validCountL_set
      (T.entries.set free (Entry.fromDescriptor u v x (-1)))
      ((T.hashIdx x :: t).getLast (by simp)) et
      { et with next := (free : Int) } hE1t
    rw [htvalid, hvalid2] at hstep2
    simp at hstep1 hstep2
    rw [validCount_eq, validCount_eq]
    dsimp only
    omega

/-- `add` at positive fuel decomposes into the assert, the growth check,
and the placement stage. -/
theorem add_eq_stage2 {V : Type} (u : V) (fuel : Nat) (S : Hash V)
    (name : Nat) (value : JsDescriptor V) :
    Hash.add u (fuel + 1) S name value =
      (match S.findEntry name with
       | .error err => .error err
       | .ok (some _) => .error .assertFailed
       | .ok none =>
           match (if S.count > S.maxLoadFactor then
                   S.entries.foldl
                     (fun (acc : Except HashPanic (Hash V)) e =>
                       match acc with
                       | .error err => .error err
                       | .ok T =>
                           if e.isValid then
                             Hash.add u fuel T e.name e.asProperty
                           else .ok T)
                     (.ok ⟨List.replicate (getPrime (S.capacity * 2))
                       ⟨0, 0, 0, u, u⟩, 0⟩)
                  else .ok S) with
           | .error err => .error err
           | .ok S1 => Hash.addStage2 u fuel S1 name value) := rfl

/-- The placement stage of `add` under the stage-1 guarantees (name
absent, store well-formed): it either appends to the home chain, fills an
invalid home slot, or evicts an interloper and recurses.  The count
obligations are passed back to the caller through the two conditional
clauses. -/
theorem addStage2_spec {V : Type} (u : V) (fuel : Nat)
    (IH : ∀ (S : Hash V) (x : Nat) (v : JsDescriptor V) (S2 : Hash V),
      WF S → Hash.add u fuel S x v = .ok S2 → AddPost u S S2 x v)
    (T : Hash V) (w : WF T) (x : Nat) (v : JsDescriptor V) (S' : Hash V)
    (habs : ∀ i < T.entries.length, ∀ e ∈ T.entries[i]?, e.isValid = true →
      e.name ≠ x)
    (hok : Hash.addStage2 u fuel T x v = .ok S') :
    Nonempty (WF S') ∧
    S'.getValue x = .ok (some (mergeDefaults u v)) ∧
    (∀ y, y ≠ x → S'.getValue y = T.getValue y) ∧
    validCount S' = validCount T + 1 ∧
    T.capacity ≤ S'.capacity ∧
    (10 * (T.count + 1) ≤ 7 * T.capacity + 10 →
      10 * S'.count ≤ 7 * S'.capacity + 10) ∧
    (T.count = validCount T % U32 → S'.count = validCount S' % U32) := by
  have hh : T.hashIdx x < T.entries.length := hashIdx_lt T x w.hpos
  have hh2 : T.hashIdx x < w.chains.length := by rw [w.hlen]; exact hh
  obtain ⟨ehead, hhead⟩ : ∃ e, T.entries[T.hashIdx x]? = some e :=
    ⟨_, List.getElem?_eq_getElem hh⟩
  unfold Hash.addStage2 at hok
  dsimp only at hok
  rw [hhead] at hok
  dsimp only at hok
  by_cases hevict : ehead.isValid = true ∧ T.hashIdx ehead.name ≠ T.hashIdx x
  · -- the home slot holds an interloper: evict it and recurse
    rw [if_pos hevict] at hok
    rcases hrem : T.remove ehead.name with err | ⟨S2, b2⟩
    · rw [hrem] at hok
      exact absurd hok (by simp)
    · rw [hrem] at hok
      dsimp only at hok
      obtain ⟨⟨w2⟩, hlen2, hgx2none, hpres2, hEcl, hcnt6, -, hfound⟩ :=
        remove_spec T w ehead.name S2 b2 hrem
      obtain ⟨hb2, hvc2⟩ := hfound
        ⟨T.hashIdx x, hh, ehead, hhead, hevict.1, rfl⟩
      have hxne : ehead.name ≠ x :=
        habs _ hh ehead (by rw [Option.mem_def, hhead]) hevict.1
      have hS2x : S2.getValue x = .ok none := by
        rw [hpres2 x (fun hc => hxne hc.symm)]
        exact getValue_none_of_no_name T w habs
      have habs2 := getValue_none_no_name S2 w2 hS2x
      obtain ⟨eh2, hhead2⟩ : ∃ e, S2.entries[T.hashIdx x]? = some e :=
        ⟨_, List.getElem?_eq_getElem (by rw [hlen2]; exact hh)⟩
      have hinv2 : eh2.isValid = false :=
        hEcl (T.hashIdx x) hh (fun hc => hevict.2 hc.symm) ehead
          (by rw [Option.mem_def, hhead]) hevict.1 rfl eh2
          (by rw [Option.mem_def, hhead2])
      have hix : S2.hashIdx x = T.hashIdx x := hashIdx_congr T S2 hlen2 x
      rw [← hix] at hok
      obtain ⟨⟨w3⟩, hcap3, hval3, hpres3, hvc3⟩ :=
        addPost_place u S2 w2 x v ((S2.count + 1) % U32) eh2
          (by rw [hix]; exact hhead2) hinv2 habs2
      obtain ⟨hw', hval', hpres', hvc', hcap', hA6', hA7'⟩ := IH _ _ _ _ w3 hok
      have hcapT2 : S2.capacity = T.capacity := by
        unfold Hash.capacity
        exact hlen2
      refine ⟨hw', ?_, ?_, ?_, ?_, fun _ => hA6', ?_⟩
      · rw [hpres' x (fun hc => hxne hc.symm)]
        exact hval3
      · intro y hy
        by_cases hyE : y = ehead.name
        · subst hyE
          rw [hval', mergeDefaults_asProperty,
            getValue_of_valid_slot T w hhead hevict.1 rfl]
        · rw [hpres' y hyE, hpres3 y hy, hpres2 y hyE]
      · omega
      · rw [← hcapT2, ← hcap3]
        exact hcap'
      · intro hex
        have hcount2 := hcnt6 hb2
        have hvcT1 : 1 ≤ validCount T := by omega
        apply hA7'
        change (S2.count + 1) % U32 = _
        rw [hvc3, hcount2, hex]
        simp only [U32]
        omega
  · -- the home slot is unoccupied or heads its own chain
    rw [if_neg hevict] at hok
    by_cases hhv : ehead.isValid = true
    · -- valid proper head: append to the chain tail
      have hhome : T.hashIdx ehead.name = T.hashIdx x := by
        by_contra hcon
        exact hevict ⟨hhv, hcon⟩
      have hmem : T.hashIdx x ∈ w.chains.getD (T.hashIdx x) [] := by
        have := w.hcomplete (T.hashIdx x) hh ehead
          (by rw [Option.mem_def, hhead]) hhv
        rw [hhome] at this
        exact this
      rcases hc : w.chains.getD (T.hashIdx x) [] with _ | ⟨a, t⟩
      · rw [hc] at hmem; exact absurd hmem (by simp)
      have hahd : a = T.hashIdx x := w.hhead _ hh2 a (by rw [hc]; rfl)
      subst hahd
      have hlkc : Linked T.entries (T.hashIdx x :: t) = true := by
        rw [← hc]; exact w.hlink _ hh2
      have hfuel : (T.hashIdx x :: t).length ≤ T.capacity + 1 := by
        have := w.chain_length_le hh2
        rw [hc] at this
        unfold Hash.capacity
        omega
      have htail := chainTail_on_chain T.entries (T.hashIdx x :: t)
        (T.hashIdx x) t rfl hlkc (T.capacity + 1) hfuel
      rw [if_pos hhv, htail] at hok
      dsimp only at hok
      rcases hfr : Hash.findFree T.entries
          ((T.hashIdx x :: t).getLast (by simp) + 1) (T.capacity + 1)
        with err | free
      · rw [hfr] at hok
        exact absurd hok (by simp)
      · rw [hfr] at hok
        dsimp only at hok
        obtain ⟨hflt, ef, hfree, hfinv⟩ := findFree_spec T.entries _ _ _ hfr
        have htailmem : (T.hashIdx x :: t).getLast (by simp) ∈
            w.chains.getD (T.hashIdx x) [] := by
          rw [hc]
          exact List.getLast_mem _
        obtain ⟨etb, hetb, htvalid, -, -⟩ := w.mem_props hh2 htailmem
        have htf : (T.hashIdx x :: t).getLast (by simp) ≠ free := by
          intro hcon
          rw [hcon, hfree] at hetb
          injection hetb with hetb
          rw [hetb, htvalid] at hfinv
          exact absurd hfinv (by simp)
        have hE1t : (T.entries.set free
            (Entry.fromDescriptor u v x (-1)))[(T.hashIdx x :: t).getLast
              (by simp)]? = some etb := by
          rw [List.getElem?_set_ne (Ne.symm htf)]
          exact hetb
        rw [hE1t] at hok
        dsimp only at hok
        injection hok with hok
        obtain ⟨⟨w'⟩, hcap', hval', hpres', hvc'⟩ :=
          addPost_append u T w x v ((T.count + 1) % U32) t free etb ef hc
            habs hfree hfinv hE1t
        have hcntS : S'.count = (T.count + 1) % U32 := by rw [← hok]
        have hcapS : S'.capacity = T.capacity := by rw [← hok]; exact hcap'
        have hvalS : S'.getValue x = .ok (some (mergeDefaults u v)) := by
          rw [← hok]; exact hval'
        have hpresS : ∀ y, y ≠ x → S'.getValue y = T.getValue y := by
          intro y hy
          rw [← hok]
          exact hpres' y hy
        have hvcS : validCount S' = validCount T + 1 := by
          rw [← hok]; exact hvc'
        have hwS : Nonempty (WF S') := by rw [← hok]; exact ⟨w'⟩
        refine ⟨hwS, hvalS, hpresS, hvcS, le_of_eq hcapS.symm, ?_, ?_⟩
        · intro hbound
          have hmle : (T.count + 1) % U32 ≤ T.count + 1 := Nat.mod_le _ _
          rw [hcntS, hcapS]
          omega
        · intro hex
          rw [hcntS, hvcS, hex]
          simp only [U32]
          omega
    · -- invalid home slot: place in it with no link
      rw [if_neg hhv] at hok
      dsimp only at hok
      injection hok with hok
      obtain ⟨⟨w'⟩, hcap', hval', hpres', hvc'⟩ :=
        addPost_place u T w x v ((T.count + 1) % U32) ehead hhead
          (by revert hhv; cases ehead.isValid <;> simp) habs
      have hcntS : S'.count = (T.count + 1) % U32 := by rw [← hok]
      have hcapS : S'.capacity = T.capacity := by rw [← hok]; exact hcap'
      have hvalS : S'.getValue x = .ok (some (mergeDefaults u v)) := by
        rw [← hok]; exact hval'
      have hpresS : ∀ y, y ≠ x → S'.getValue y = T.getValue y := by
        intro y hy
        rw [← hok]
        exact hpres' y hy
      have hvcS : validCount S' = validCount T + 1 := by
        rw [← hok]; exact hvc'
      have hwS : Nonempty (WF S') := by rw [← hok]; exact ⟨w'⟩
      refine ⟨hwS, hvalS, hpresS, hvcS, le_of_eq hcapS.symm, ?_, ?_⟩
      · intro hbound
        have hmle : (T.count + 1) % U32 ≤ T.count + 1 := Nat.mod_le _ _
        rw [hcntS, hcapS]
        omega
      · intro hex
        rw [hcntS, hvcS, hex]
        simp only [U32]
        omega

/-- A successful `add` passed its absence assert. -/
theorem add_ok_findEntry_none {V : Type} (u : V) (fuel : Nat) (S : Hash V)
    (x : Nat) (v : JsDescriptor V) (S2 : Hash V)
    (hok : Hash.add u fuel S x v = .ok S2) : S.findEntry x = .ok none := by
  rcases fuel with _ | fuel
  · exact absurd hok (by simp [Hash.add])
  · rw [add_eq_stage2] at hok
    rcases hfind : S.findEntry x with err | opt
    · rw [hfind] at hok
      exact absurd hok (by simp)
    · rcases opt with _ | i
      · rfl
      · rw [hfind] at hok
        exact absurd hok (by simp)

/-- An entry list has at most as many valid entries as slots. -/
theorem validCountL_le {V : Type} (l : List (Entry V)) :
    validCountL l ≤ l.length :=
  List.length_filter_le _ _

/-- Membership from an indexed lookup. -/
theorem mem_of_getElem? {V : Type} (l : List (Entry V)) (a : Entry V)
    (i : Nat) (h : l[i]? = some a) : a ∈ l := by
  obtain ⟨hlt, he⟩ := List.getElem?_eq_some_iff.mp h
  rw [← he]
  exact List.getElem_mem hlt

/-- `Hash::add`: every successful call on a well-formed store establishes
`AddPost` — the new binding reads back merged, everything else is
untouched, the population grows by one, the capacity never shrinks, the
post-insert load factor respects the (integer-rounded) 70% ceiling, and a
count in sync with the population stays in sync. -/
theorem add_spec {V : Type} (u : V) :
    ∀ (fuel : Nat) (S : Hash V) (x : Nat) (v : JsDescriptor V) (S2 : Hash V),
    WF S → Hash.add u fuel S x v = .ok S2 → AddPost u S S2 x v := by
  intro fuel
  induction fuel with
  | zero =>
      intro S x v S2 w hok
      exact absurd hok (by simp [Hash.add])
  | succ fuel ih =>
      have G : ∀ (old : List (Entry V)) (T0 : Hash V), WF T0 →
          ∀ T1 : Hash V, (old.foldl
            (fun (acc : Except HashPanic (Hash V)) e =>
              match acc with
              | .error err => .error err
              | .ok T =>
                  if e.isValid then Hash.add u fuel T e.name e.asProperty
                  else .ok T)
            (.ok T0)) = .ok T1 →
          Nonempty (WF T1) ∧
          (∀ e ∈ old, e.isValid = true → T0.getValue e.name = .ok none) ∧
          (∀ e ∈ old, e.isValid = true →
            T1.getValue e.name = .ok (some e.asProperty)) ∧
          (∀ y : Nat, (∀ e ∈ old, e.isValid = true → e.name ≠ y) →
            T1.getValue y = T0.getValue y) ∧
          validCount T1 = validCount T0 + validCountL old ∧
          T0.capacity ≤ T1.capacity ∧
          (T0.count = validCount T0 % U32 →
            T1.count = validCount T1 % U32) := by
        intro old
        induction old with
        | nil =>
            intro T0 w0 T1 hfold
            rw [List.foldl_nil] at hfold
            injection hfold with hfold
            subst hfold
            refine ⟨⟨w0⟩, by simp, by simp, fun y _ => rfl, ?_, le_refl _,
              fun h => h⟩
            unfold validCountL
            simp
        | cons e rest ihG =>
            intro T0 w0 T1 hfold
            rw [List.foldl_cons] at hfold
            dsimp only at hfold
            by_cases hev : e.isValid = true
            · rw [if_pos hev] at hfold
              rcases hstep : Hash.add u fuel T0 e.name e.asProperty
                with err | T0'
              · rw [hstep] at hfold
                rw [growFold_error] at hfold
                exact absurd hfold (by simp)
              · rw [hstep] at hfold
                obtain ⟨⟨w0'⟩, hval0, hpres0, hvc0, hcap0, -, hA7⟩ :=
                  ih T0 e.name e.asProperty T0' w0 hstep
                obtain ⟨hw1, hG2, hG3, hG4, hG5, hG6, hG7⟩ :=
                  ihG T0' w0' T1 hfold
                have habs0 : T0.getValue e.name = .ok none :=
                  getValue_of_findEntry_none T0 e.name
                    (add_ok_findEntry_none u fuel T0 e.name e.asProperty T0'
                      hstep)
                refine ⟨hw1, ?_, ?_, ?_, ?_, ?_, ?_⟩
                · intro e2 he2 hv2
                  rcases List.mem_cons.mp he2 with he2 | he2
                  · subst he2
                    exact habs0
                  · by_cases hne : e2.name = e.name
                    · rw [hne]
                      exact habs0
                    · rw [← hpres0 e2.name hne]
                      exact hG2 e2 he2 hv2
                · intro e2 he2 hv2
                  rcases List.mem_cons.mp he2 with he2 | he2
                  · subst he2
                    have hrestne : ∀ e3 ∈ rest, e3.isValid = true →
                        e3.name ≠ e2.name := by
                      intro e3 he3 hv3 hcon
                      have habs3 := hG2 e3 he3 hv3
                      rw [hcon, hval0] at habs3
                      exact absurd habs3 (by simp)
                    rw [hG4 e2.name hrestne, hval0, mergeDefaults_asProperty]
                  · exact hG3 e2 he2 hv2
                · intro y hy
                  have hyne : e.name ≠ y :=
                    hy e (List.mem_cons_self _ _) hev
                  rw [hG4 y (fun e3 he3 hv3 =>
                    hy e3 (List.mem_cons_of_mem _ he3) hv3)]
                  exact hpres0 y (fun hc => hyne hc.symm)
                · rw [hG5, hvc0]
                  unfold validCountL
                  rw [List.filter_cons, if_pos (by simpa using hev)]
                  simp only [List.length_cons]
                  omega
                · exact le_trans hcap0 hG6
                · intro hex
                  exact hG7 (hA7 hex)
            · rw [if_neg hev] at hfold
              obtain ⟨hw1, hG2, hG3, hG4, hG5, hG6, hG7⟩ :=
                ihG T0 w0 T1 hfold
              refine ⟨hw1, ?_, ?_, ?_, ?_, hG6, hG7⟩
              · intro e2 he2 hv2
                rcases List.mem_cons.mp he2 with he2 | he2
                · subst he2
                  exact absurd hv2 hev
                · exact hG2 e2 he2 hv2
              · intro e2 he2 hv2
                rcases List.mem_cons.mp he2 with he2 | he2
                · subst he2
                  exact absurd hv2 hev
                · exact hG3 e2 he2 hv2
              · intro y hy
                exact hG4 y (fun e3 he3 hv3 =>
                  hy e3 (List.mem_cons_of_mem _ he3) hv3)
              · rw [hG5]
                unfold validCountL
                rw [List.filter_cons, if_neg (by simpa using hev)]
      intro S x v S2 w hok
      rw [add_eq_stage2] at hok
      rcases hfind : S.findEntry x with err | opt
      · rw [hfind] at hok
        exact absurd hok (by simp)
      · rcases opt with _ | i
        · rw [hfind] at hok
          dsimp only at hok
          have habs : ∀ i < S.entries.length, ∀ e ∈ S.entries[i]?,
              e.isValid = true → e.name ≠ x := by
            have hnone : chainLookup S w.chains x = none := by
              have hspec := findEntry_spec S w x
              rw [hfind] at hspec
              injection hspec with hspec
              exact hspec.symm
            exact chainLookup_none_no_name S w x hnone
          by_cases hgrow : S.count > S.maxLoadFactor
          · rw [if_pos hgrow] at hok
            rcases hfold : (S.entries.foldl
                (fun (acc : Except HashPanic (Hash V)) e =>
                  match acc with
                  | .error err => .error err
                  | .ok T =>
                      if e.isValid then Hash.add u fuel T e.name e.asProperty
                      else .ok T)
                (.ok ⟨List.replicate (getPrime (S.capacity * 2))
                  ⟨0, 0, 0, u, u⟩, 0⟩)) with err | S1
            · rw [hfold] at hok
              exact absurd hok (by simp)
            · rw [hfold] at hok
              dsimp only at hok
              have hcap2 : S.capacity * 2 ≤ getPrime (S.capacity * 2) :=
                getPrime_ge _
              have hcappos : 0 < S.capacity := by
                unfold Hash.capacity
                exact w.hpos
              have hfreshpos : 0 < getPrime (S.capacity * 2) := by omega
              have wfresh := WF_zeroFilled u (getPrime (S.capacity * 2)) 0
                hfreshpos
              obtain ⟨⟨w1⟩, hG2, hG3, hG4, hG5, hG6, hG7⟩ :=
                G S.entries _ wfresh S1 hfold
              have habsL : ∀ e ∈ S.entries, e.isValid = true → e.name ≠ x := by
                intro e he hv
                obtain ⟨i, hi⟩ := List.getElem?_of_mem he
                exact habs i (List.getElem?_eq_some_iff.mp hi).1 e
                  (by rw [Option.mem_def, hi]) hv
              have habs1x : S1.getValue x = .ok none := by
                rw [hG4 x habsL]
                exact zeroFilled_getValue_none u _ 0 hfreshpos x
              have habs1 := getValue_none_no_name S1 w1 habs1x
              obtain ⟨hwS, hvalS, hpresS, hvcS, hcapS, hA6S, hA7S⟩ :=
                addStage2_spec u fuel ih S1 w1 x v S2 habs1 hok
              have hvcS1 : validCount S1 = validCount S := by
                rw [hG5, zeroFilled_validCount]
                rw [validCount_eq]
                simp
              have hfx : (⟨List.replicate (getPrime (S.capacity * 2))
                  ⟨0, 0, 0, u, u⟩, 0⟩ : Hash V).count =
                  validCount (⟨List.replicate (getPrime (S.capacity * 2))
                    ⟨0, 0, 0, u, u⟩, 0⟩ : Hash V) % U32 := by
                rw [zeroFilled_validCount]
                rfl
              have hS1exact : S1.count = validCount S1 % U32 := hG7 hfx
              have hfreshcap : (⟨List.replicate (getPrime (S.capacity * 2))
                  ⟨0, 0, 0, u, u⟩, 0⟩ : Hash V).capacity =
                  getPrime (S.capacity * 2) := by
                unfold Hash.capacity
                simp
              have hvcle : validCount S ≤ S.capacity := by
                rw [validCount_eq]
                unfold Hash.capacity
                exact validCountL_le _
              have hS1cap : getPrime (S.capacity * 2) ≤ S1.capacity := by
                rw [← hfreshcap]
                exact hG6
              refine ⟨hwS, hvalS, ?_, ?_, ?_, ?_, fun _ => ?_⟩
              · intro y hy
                rw [hpresS y hy]
                by_cases hex : ∃ e ∈ S.entries, e.isValid = true ∧ e.name = y
                · obtain ⟨e, he, hv, hn⟩ := hex
                  obtain ⟨i, hi⟩ := List.getElem?_of_mem he
                  rw [← hn]
                  rw [hG3 e he hv,
                    getValue_of_valid_slot S w hi hv rfl]
                · have hnoy : ∀ e ∈ S.entries, e.isValid = true →
                      e.name ≠ y := by
                    intro e he hv hn
                    exact hex ⟨e, he, hv, hn⟩
                  rw [hG4 y hnoy, zeroFilled_getValue_none u _ 0 hfreshpos y]
                  symm
                  apply getValue_none_of_no_name S w
                  intro i hi e he hv
                  rw [Option.mem_def] at he
                  exact hnoy e (mem_of_getElem? _ e i he) hv
              · rw [hvcS, hvcS1]
              · have := hcapS
                omega
              · apply hA6S
                have hle : S1.count ≤ validCount S := by
                  rw [hS1exact, hvcS1]
                  exact Nat.mod_le _ _
                omega
              · apply hA7S
                exact hS1exact
          · rw [if_neg hgrow] at hok
            dsimp only at hok
            obtain ⟨hwS, hvalS, hpresS, hvcS, hcapS, hA6S, hA7S⟩ :=
              addStage2_spec u fuel ih S w x v S2 habs hok
            refine ⟨hwS, hvalS, hpresS, hvcS, hcapS, ?_, hA7S⟩
            apply hA6S
            have hml : S.count ≤ S.maxLoadFactor := by omega
            have hml2 : S.maxLoadFactor ≤ S.capacity * 7 / 10 := by
              unfold Hash.maxLoadFactor
              exact Nat.mod_le _ _
            omega
        · rw [hfind] at hok
          exact absurd hok (by simp)

/-- `get_prime` is positive: the table holds positive primes, and the
probing fallback only runs for minima beyond the table. -/
theorem getPrime_pos (minimum : Nat) : 0 < getPrime minimum := by
  unfold getPrime
  rcases hfind : PRIMES.find? (fun p => minimum ≤ p) with _ | p
  · have h3 : ¬ (minimum ≤ 3) := by
      have hmem : (3 : Nat) ∈ PRIMES := by
        unfold PRIMES
        exact List.mem_cons_self _ _
      have := List.find?_eq_none.mp hfind 3 hmem
      simpa using this
    have := getPrimeAux_ge minimum _ (minimum ||| 1) rfl
      (Nat.le_of_testBit (fun i hi => by simp [Nat.testBit_or, hi]))
    show 0 < getPrimeAux minimum (minimum ||| 1)
    omega
  · have hall : ∀ q ∈ PRIMES, 0 < q := by decide
    exact hall p (List.mem_of_find?_eq_some hfind)

/-- `Linked` only looks at the chain slots' links. -/
theorem Linked_congr_next {V : Type} (entries entries2 : List (Entry V)) :
    ∀ l : List Nat,
    (∀ a ∈ l, ∃ e e2 : Entry V, entries[a]? = some e ∧
      entries2[a]? = some e2 ∧ e2.next = e.next) →
    Linked entries2 l = Linked entries l := by
  intro l
  induction l with
  | nil => intro h; rfl
  | cons a t ih =>
      intro h
      obtain ⟨e, e2, he, he2, hnext⟩ := h a (List.mem_cons_self _ _)
      rcases t with _ | ⟨b, t2⟩
      · unfold Linked
        rw [he, he2]
        dsimp only
        rw [hnext]
      · unfold Linked
        rw [he, he2]
        dsimp only
        rw [hnext]
        rw [ih (fun c hc => h c (List.mem_cons_of_mem a hc))]

/-- `Hash::replace` keeps the store well-formed: the overwritten slot
keeps its name, validity and chain link. -/
theorem replace_WF {V : Type} (u : V) (S : Hash V) (w : WF S) (x : Nat)
    (d : JsDescriptor V) (S2 : Hash V) (b : Bool)
    (hok : S.replace u x d = .ok (S2, b)) : Nonempty (WF S2) := by
  rcases hc : chainLookup S w.chains x with _ | i
  · have := (replace_spec u S w x d).1 hc
    rw [this] at hok
    injection hok with hok
    injection hok with h1 h2
    rw [← h1]
    exact ⟨w⟩
  · obtain ⟨e, he, hname, hrepl⟩ := (replace_spec u S w x d).2 i hc
    obtain ⟨e1, he1, -, hv1, -⟩ := (getValue_spec S w x).2 i hc
    rw [he] at he1
    injection he1 with he1
    rw [← he1] at hv1
    have hilt : i < S.entries.length := (List.getElem?_eq_some_iff.mp he).1
    rw [hrepl] at hok
    injection hok with hok
    injection hok with h1 h2
    rw [← h1]
    have hlenE : (S.entries.set i
        (Entry.fromDescriptor u d e.name e.next)).length =
        S.entries.length := by simp
    have hidx : ∀ y : Nat,
        (⟨S.entries.set i (Entry.fromDescriptor u d e.name e.next),
          S.count⟩ : Hash V).hashIdx y = S.hashIdx y :=
      hashIdx_congr S _ hlenE
    have hEi : (S.entries.set i
        (Entry.fromDescriptor u d e.name e.next))[i]? =
        some (Entry.fromDescriptor u d e.name e.next) := by
      rw [List.getElem?_set_self']
      rw [List.getElem?_eq_getElem hilt]
      rfl
    have hEo : ∀ a : Nat, a ≠ i →
        (S.entries.set i (Entry.fromDescriptor u d e.name e.next))[a]? =
        S.entries[a]? :=
      fun a ha => List.getElem?_set_ne (Ne.symm ha)
    have key : ∀ (k : Nat) (ek : Entry V),
        (S.entries.set i (Entry.fromDescriptor u d e.name e.next))[k]? =
          some ek → ek.isValid = true →
        ∃ ek0 : Entry V, S.entries[k]? = some ek0 ∧ ek0.isValid = true ∧
          ek0.name = ek.name := by
      intro k ek hek hvk
      by_cases hki : k = i
      · rw [hki, hEi] at hek
        injection hek with hek
        rw [hki]
        refine ⟨e, he, hv1, ?_⟩
        rw [← hek, fromDescriptor_name]
      · rw [hEo k hki] at hek
        exact ⟨ek, hek, hvk, rfl⟩
    refine ⟨⟨w.chains, by simp [w.hlen], by simpa using w.hpos, w.hhead,
      ?_, ?_, w.hnodup, ?_, ?_, ?_⟩⟩
    · intro h2b hh2b a ha
      obtain ⟨ea, hea, hva, hhasha, halt⟩ := w.mem_props hh2b ha
      dsimp only
      by_cases hai : a = i
      · subst hai
        rw [hEi]
        rw [hea] at he
        injection he with he
        subst he
        simp only [hidx]
        simp [Option.any, fromDescriptor_isValid, fromDescriptor_name]
        simpa using hhasha
      · rw [hEo a hai]
        simp only [hidx]
        rw [hea]
        simp [Option.any, hva]
        simpa using hhasha
    · intro h2b hh2b
      rw [Linked_congr_next S.entries _ _ ?hpairs]
      · exact w.hlink h2b hh2b
      case hpairs =>
        intro a ha
        obtain ⟨ea, hea, -, -, -⟩ := w.mem_props hh2b ha
        by_cases hai : a = i
        · subst hai
          rw [hea] at he
          injection he with he
          subst he
          exact ⟨ea, Entry.fromDescriptor u d ea.name ea.next, hea, hEi,
            fromDescriptor_next u d ea.name ea.next⟩
        · exact ⟨ea, ea, hea, by rw [hEo a hai]; exact hea, rfl⟩
    · intro k hk ek hek hvk
      rw [Option.mem_def] at hek
      dsimp only at hek hk
      rw [hlenE] at hk
      obtain ⟨ek0, hek0, hv0, hn0⟩ := key k ek hek hvk
      have := w.hcomplete k hk ek0 (by rw [Option.mem_def, hek0]) hv0
      simp only [hidx]
      rw [← hn0]
      exact this
    · intro k hk j hj ek hek ej hej hvk hvj hnameeq
      rw [Option.mem_def] at hek hej
      dsimp only at hek hej hk hj
      rw [hlenE] at hk hj
      obtain ⟨ek0, hek0, hvk0, hnk0⟩ := key k ek hek hvk
      obtain ⟨ej0, hej0, hvj0, hnj0⟩ := key j ej hej hvj
      exact w.hnames k hk j hj ek0 (by rw [Option.mem_def, hek0])
        ej0 (by rw [Option.mem_def, hej0]) hvk0 hvj0
        (by rw [hnk0, hnj0, hnameeq])
    · intro k hk ek hek hinvk hhashk
      rw [Option.mem_def] at hek
      dsimp only at hek hk
      rw [hlenE] at hk
      rw [hidx] at hhashk
      by_cases hki : k = i
      · exfalso
        rw [hki, hEi] at hek
        injection hek with hek
        rw [← hek, fromDescriptor_isValid] at hinvk
        exact absurd hinvk (by simp)
      · rw [hEo k hki] at hek
        exact w.hstale k hk ek (by rw [Option.mem_def, hek]) hinvk hhashk

/-- On a linked chain, `chainIndices` from the head visits exactly the
chain. -/
theorem chainIndices_of_chain {V : Type} (S : Hash V) :
    ∀ l : List Nat, ∀ hd suf, l = hd :: suf →
    Linked S.entries l = true →
    ∀ fuel, l.length ≤ fuel →
    chainIndices S hd fuel = l := by
  intro l
  induction l with
  | nil => intro hd suf h; exact absurd h (by simp)
  | cons a t ih =>
      intro hd suf heq hlink fuel hfuel
      injection heq with h1 h2
      subst h1
      rcases fuel with _ | fuel
      · exact absurd hfuel (by simp)
      · unfold chainIndices
        rcases t with _ | ⟨b, t2⟩
        · unfold Linked at hlink
          rcases hx : S.entries[a]? with _ | e
          · rw [hx] at hlink
            exact absurd hlink (by simp)
          · dsimp only
            rw [hx] at hlink
            have hnext : e.next = -1 := by simpa using hlink
            rw [if_pos (by rw [hnext]; decide)]
        · unfold Linked at hlink
          rcases hx : S.entries[a]? with _ | e
          · rw [hx] at hlink
            exact absurd hlink (by simp)
          · dsimp only
            rw [hx] at hlink
            rw [Bool.and_eq_true] at hlink
            have hnext : e.next = (b : Int) := by simpa using hlink.1
            rw [if_neg (by rw [hnext]; omega)]
            have htn : e.next.toNat = b := by
              rw [hnext]; exact Int.toNat_natCast b
            rw [htn]
            rw [ih b t2 rfl hlink.2 fuel (by simp at hfuel ⊢; omega)]

/-- Well-formedness survives every operation of any run. -/
theorem runOps_WF {V : Type} (u : V) (fuel : Nat) :
    ∀ (ops : List (HashOp V)) (S S2 : Hash V), Nonempty (WF S) →
    runOps u fuel S ops = .ok S2 → Nonempty (WF S2) := by
  intro ops
  induction ops with
  | nil =>
      intro S S2 hw hrun
      unfold runOps at hrun
      injection hrun with hrun
      rw [← hrun]
      exact hw
  | cons op ops ih =>
      intro S S2 hw hrun
      unfold runOps at hrun
      rcases hop : runOp u fuel S op with err | S1
      · rw [hop] at hrun
        exact absurd hrun (by simp)
      · rw [hop] at hrun
        dsimp only at hrun
        obtain ⟨w⟩ := hw
        have hw1 : Nonempty (WF S1) := by
          rcases op with ⟨n, v⟩ | n | ⟨n, v⟩
          · exact (add_spec u fuel S n v S1 w hop).1
          · unfold runOp at hop
            dsimp only at hop
            rcases hrem : S.remove n with err | ⟨S2b, b⟩
            · rw [hrem] at hop
              exact absurd hop (by simp)
            · rw [hrem] at hop
              injection hop with hop
              rw [← hop]
              exact (remove_spec S w n S2b b hrem).1
          · unfold runOp at hop
            dsimp only at hop
            rcases hrep : S.replace u n v with err | ⟨S2b, b⟩
            · rw [hrep] at hop
              exact absurd hop (by simp)
            · rw [hrep] at hop
              injection hop with hop
              rw [← hop]
              exact replace_WF u S w n v S2b b hrep
        exact ih S1 S2 hw1 hrun

/-- C1: after a successful `Hash::add(S, N, v)`, `get_value(N)` on the
result returns `v` with absent writable/enumerable/configurable (and
accessor) fields defaulted by the merging rules; and after a completed
`Hash::remove(N)` on that store, `get_value(N)` returns `None`. -/
theorem hash_add_get_remove_roundtrip {V : Type} (u : V) (fuel : Nat)
    (S : Hash V) (w : WF S) (x : Nat) (v : JsDescriptor V)
    (S1 S2 : Hash V) (b : Bool)
    (hadd : Hash.add u fuel S x v = .ok S1)
    (hrem : S1.remove x = .ok (S2, b)) :
    S1.getValue x = .ok (some (mergeDefaults u v)) ∧
    S2.getValue x = .ok none := by
  obtain ⟨⟨w1⟩, hval, -, -, -, -, -⟩ := add_spec u fuel S x v S1 w hadd
  obtain ⟨-, -, hnone, -⟩ := remove_spec S1 w1 x S2 b hrem
  exact ⟨hval, hnone⟩

theorem hash_add_get_remove_roundtrip_witness :
    (⟨[⟨0, 0, 0, 0, 0⟩, ⟨0, 0, 0, 0, 0⟩, ⟨5, 15, -1, 7, 0⟩], 1⟩
        : Hash Nat).getValue 5 =
      .ok (some (mergeDefaults 0 (JsDescriptor.newSimpleValue 7))) ∧
    (⟨[⟨0, 0, 0, 0, 0⟩, ⟨0, 0, 0, 0, 0⟩, ⟨5, 0, -1, 7, 0⟩], 0⟩
        : Hash Nat).getValue 5 = .ok none :=
  hash_add_get_remove_roundtrip 0 1 (Hash.new 0 0)
    (WF_zeroFilled 0 3 0 (by decide)) 5 (JsDescriptor.newSimpleValue 7)
    ⟨[⟨0, 0, 0, 0, 0⟩, ⟨0, 0, 0, 0, 0⟩, ⟨5, 15, -1, 7, 0⟩], 1⟩
    ⟨[⟨0, 0, 0, 0, 0⟩, ⟨0, 0, 0, 0, 0⟩, ⟨5, 0, -1, 7, 0⟩], 0⟩ true
    (by decide) (by decide)

/-- C2: on every store reachable from a fresh table by `add`, `remove`
and `replace` operations, every valid entry's slot is visited by the
`next`-link walk that starts at the entry's own home bucket — no entry is
orphaned outside its home's chain. -/
theorem hash_valid_entries_on_home_chain {V : Type} (u : V)
    (fuel cap : Nat) (ops : List (HashOp V)) (S : Hash V)
    (hrun : runOps u fuel (Hash.new u cap) ops = .ok S) :
    ∀ i < S.entries.length, ∀ e ∈ S.entries[i]?, e.isValid = true →
      i ∈ chainIndices S (S.hashIdx e.name) (S.capacity + 1) := by
  have hw0 : Nonempty (WF (Hash.new u cap)) :=
    ⟨WF_zeroFilled u (getPrime cap) 0 (getPrime_pos cap)⟩
  obtain ⟨w⟩ := runOps_WF u fuel ops _ S hw0 hrun
  intro i hi e he hv
  rw [Option.mem_def] at he
  have hmem := w.hcomplete i hi e (by rw [Option.mem_def, he]) hv
  have hhlt : S.hashIdx e.name < w.chains.length := by
    rw [w.hlen]; exact hashIdx_lt S e.name w.hpos
  rcases hc : w.chains.getD (S.hashIdx e.name) [] with _ | ⟨a, t⟩
  · rw [hc] at hmem
    exact absurd hmem (by simp)
  · have hahd : a = S.hashIdx e.name := w.hhead _ hhlt a (by rw [hc]; rfl)
    subst hahd
    rw [chainIndices_of_chain S (S.hashIdx e.name :: t) (S.hashIdx e.name) t
      rfl (by rw [← hc]; exact w.hlink _ hhlt) (S.capacity + 1)
      (by
        have := w.chain_length_le hhlt
        rw [hc] at this
        unfold Hash.capacity
        omega)]
    rw [hc] at hmem
    exact hmem

theorem hash_valid_entries_on_home_chain_witness :
    (2 : Nat) ∈ chainIndices
      (⟨[⟨0, 0, 0, 0, 0⟩, ⟨0, 0, 0, 0, 0⟩, ⟨5, 15, -1, 7, 0⟩], 1⟩ : Hash Nat)
      ((⟨[⟨0, 0, 0, 0, 0⟩, ⟨0, 0, 0, 0, 0⟩, ⟨5, 15, -1, 7, 0⟩], 1⟩
        : Hash Nat).hashIdx 5)
      ((⟨[⟨0, 0, 0, 0, 0⟩, ⟨0, 0, 0, 0, 0⟩, ⟨5, 15, -1, 7, 0⟩], 1⟩
        : Hash Nat).capacity + 1) :=
  hash_valid_entries_on_home_chain 0 1 0
    [.addOp 5 (JsDescriptor.newSimpleValue 7)]
    ⟨[⟨0, 0, 0, 0, 0⟩, ⟨0, 0, 0, 0, 0⟩, ⟨5, 15, -1, 7, 0⟩], 1⟩
    (by decide) 2 (by decide) ⟨5, 15, -1, 7, 0⟩ (by decide) (by decide)

/-- C5 (counterexample): three inserts into a fresh minimal table (three
slots) are accepted without growth and leave the store 100% full — the
post-insert load factor exceeds 70%. -/
theorem hash_load_factor_above_70_reachable :
    ∃ S3 : Hash Nat,
      runOps 0 2 (Hash.new 0 0)
        [.addOp 0 (JsDescriptor.newSimpleValue 7),
         .addOp 1 (JsDescriptor.newSimpleValue 7),
         .addOp 2 (JsDescriptor.newSimpleValue 7)] = .ok S3 ∧
      10 * S3.count > 7 * S3.capacity :=
  ⟨⟨[⟨0, 15, -1, 7, 0⟩, ⟨1, 15, -1, 7, 0⟩, ⟨2, 15, -1, 7, 0⟩], 3⟩,
    by decide, by decide⟩

/-- C5 (amended): after any successful `Hash::add` on a well-formed
store, the population exceeds the integer 70% ceiling by at most the one
entry just inserted: `10·count ≤ 7·capacity + 10`.  The growth check
happens before the insert on the pre-insert count, so a store may sit
exactly one entry above the ceiling — and on the minimal 3-slot table
that is already 100% load. -/
theorem hash_load_factor_bound_after_add {V : Type} (u : V) (fuel : Nat)
    (S : Hash V) (w : WF S) (x : Nat) (v : JsDescriptor V) (S1 : Hash V)
    (hadd : Hash.add u fuel S x v = .ok S1) :
    10 * S1.count ≤ 7 * S1.capacity + 10 :=
  (add_spec u fuel S x v S1 w hadd).2.2.2.2.2.1

theorem hash_load_factor_bound_after_add_witness :
    10 * (⟨[⟨0, 0, 0, 0, 0⟩, ⟨0, 0, 0, 0, 0⟩, ⟨5, 15, -1, 7, 0⟩], 1⟩
        : Hash Nat).count ≤
      7 * (⟨[⟨0, 0, 0, 0, 0⟩, ⟨0, 0, 0, 0, 0⟩, ⟨5, 15, -1, 7, 0⟩], 1⟩
        : Hash Nat).capacity + 10 :=
  hash_load_factor_bound_after_add 0 1 (Hash.new 0 0)
    (WF_zeroFilled 0 3 0 (by decide)) 5 (JsDescriptor.newSimpleValue 7)
    ⟨[⟨0, 0, 0, 0, 0⟩, ⟨0, 0, 0, 0, 0⟩, ⟨5, 15, -1, 7, 0⟩], 1⟩ (by decide)

/-- C9: `Hash::add` requires the name to be absent — with `find_entry`
reporting a hit, `add` is the fatal assertion failure, never an
overwrite; updating happens through `Hash::replace`, which rewrites the
found slot with an entry keeping its name and chain link. -/
theorem hash_add_asserts_absence_replace_preserves {V : Type} (u : V)
    (fuel : Nat) (S : Hash V) (x i : Nat) (v d : JsDescriptor V)
    (e : Entry V)
    (hfound : S.findEntry x = .ok (some i))
    (he : S.entries[i]? = some e) :
    Hash.add u (fuel + 1) S x v = .error .assertFailed ∧
    S.replace u x d = .ok (⟨S.entries.set i
      (Entry.fromDescriptor u d e.name e.next), S.count⟩, true) ∧
    (Entry.fromDescriptor u d e.name e.next).name = e.name ∧
    (Entry.fromDescriptor u d e.name e.next).next = e.next := by
  refine ⟨?_, ?_, fromDescriptor_name u d e.name e.next,
    fromDescriptor_next u d e.name e.next⟩
  · rw [add_eq_stage2, hfound]
  · unfold Hash.replace
    rw [hfound]
    dsimp only
    rw [he]

theorem hash_add_asserts_absence_replace_preserves_witness :
    Hash.add (0 : Nat) 2
      ⟨[⟨0, 0, 0, 0, 0⟩, ⟨0, 0, 0, 0, 0⟩, ⟨5, 15, -1, 7, 0⟩], 1⟩ 5
      (JsDescriptor.newSimpleValue 9) = .error .assertFailed ∧
    Hash.replace 0
      (⟨[⟨0, 0, 0, 0, 0⟩, ⟨0, 0, 0, 0, 0⟩, ⟨5, 15, -1, 7, 0⟩], 1⟩ : Hash Nat)
      5 (JsDescriptor.newSimpleValue 9) =
      .ok (⟨[⟨0, 0, 0, 0, 0⟩, ⟨0, 0, 0, 0, 0⟩,
        ⟨5, 15, -1, 7, 0⟩].set 2
          (Entry.fromDescriptor 0 (JsDescriptor.newSimpleValue 9) 5 (-1)),
        1⟩, true) ∧
    (Entry.fromDescriptor 0 (JsDescriptor.newSimpleValue 9) 5 (-1)).name =
      (5 : Nat) ∧
    (Entry.fromDescriptor 0 (JsDescriptor.newSimpleValue 9) 5 (-1)).next =
      (-1 : Int) :=
  hash_add_asserts_absence_replace_preserves 0 1
    ⟨[⟨0, 0, 0, 0, 0⟩, ⟨0, 0, 0, 0, 0⟩, ⟨5, 15, -1, 7, 0⟩], 1⟩ 5 2
    (JsDescriptor.newSimpleValue 9) (JsDescriptor.newSimpleValue 9)
    ⟨5, 15, -1, 7, 0⟩ (by decide) (by decide)

/-- `add` at positive fuel, phrased with the named grow helper. -/
theorem Hash.add_succ {V : Type} (u : V) (fuel : Nat) (S : Hash V)
    (name : Nat) (value : JsDescriptor V) :
    Hash.add u (fuel + 1) S name value =
      match S.findEntry name with
      | .error err => .error err
      | .ok (some _) => .error .assertFailed
      | .ok none =>
          match (if S.count > S.maxLoadFactor then Hash.growEntries u fuel S
                 else .ok S) with
          | .error err => .error err
          | .ok S1 =>
              let h := S1.hashIdx name
              match S1.entries[h]? with
              | none => .error .stuck
              | some ehead =>
                  if ehead.isValid = true ∧ S1.hashIdx ehead.name ≠ h then
                    match S1.remove ehead.name with
                    | .error err => .error err
                    | .ok (S2, _) =>
                        let S3 : Hash V :=
                          ⟨S2.entries.set h (Entry.fromDescriptor u value name (-1)),
                            (S2.count + 1) % U32⟩
                        Hash.add u fuel S3 ehead.name ehead.asProperty
                  else
                    match (if ehead.isValid then
                            match Hash.chainTail S1.entries h (S1.capacity + 1) with
                            | .error err => .error err
                            | .ok tail =>
                                match Hash.findFree S1.entries (tail + 1)
                                    (S1.capacity + 1) with
                                | .error err => .error err
                                | .ok free => .ok (some tail, free)
                          else .ok (none, h) :
                          Except HashPanic (Option Nat × Nat)) with
                    | .error err => .error err
                    | .ok (tailIdx, free) =>
                        let E1 := S1.entries.set free
                          (Entry.fromDescriptor u value name (-1))
                        match tailIdx with
                        | some tail =>
                            match E1[tail]? with
                            | none => .error .stuck
                            | some et =>
                                .ok ⟨E1.set tail { et with next := Int.ofNat free },
                                  (S1.count + 1) % U32⟩
                        | none => .ok ⟨E1, (S1.count + 1) % U32⟩ := by
  rfl

end Rjs
